import Mathlib

/-!
Splay tree with implicit index: a verification development.

Shallow embedding of `src/splay.go`.

* Go pointers `*Node` are modelled as `Option Nat` (`none` is `nil`), the Go heap as a
  total map `Mem` from addresses to `Node` records, plus an allocation counter in `World`.
* Every method is a function from the memory (and the tree variable it assigns) to the new
  memory.  Methods that only read (`Size`, `FindByPos`, `FindByValue`, `MostLeft`,
  `MostRight`, `isLeft`, `isRight`) return no memory: their Go bodies contain no store.
* Every method that dereferences a pointer returns `Except Fault _`; a nil dereference
  (a Go run-time panic) is `Fault.nilDeref`.
* Every Go `for` loop is a structurally recursive function over a fuel argument, one
  iteration per unit; running out of fuel is `Fault.outOfFuel`, distinct from a panic.  The
  theorems give the result for every fuel beyond the tree size, and more fuel never changes
  a result (`Insert_mono`, `Remove_mono`).
* Go `int` is modelled by `Int` without wrap-around.  Values are only compared.  Counters
  hold node counts and in-range positions lie below them, so this arithmetic stays far inside
  the 64-bit range on any heap that fits in memory.  A negative position is only ever
  decremented on its way off the tree; at the least 64-bit value Go would wrap to the
  greatest one, which is out of range as well, so `FindByPos` returns no node either way.
* `SplayTree.find` is called by no other method and is not modelled; the message printed by
  `FindByPos` is not modelled.

The abstract side: `Tree` is a finite binary tree of cells (address, value); `Shape m p t`
says that the pointer structure below `p` unfolds to `t` (it determines `t`, see
`Shape.unique`), and `Rep m par t` adds exact counters and parent links.
-/

namespace Splay

/-- Go pointer to a node: `none` is `nil`. -/
abbrev Ptr := Option Nat

/-- Tree Node (`type Node struct`). -/
structure Node where
  value : Int
  counter : Int
  left : Ptr
  right : Ptr
  parent : Ptr
deriving DecidableEq, Repr

/-- Go heap contents: the node stored at every address. -/
abbrev Mem := Nat → Node

/-- Outcome of a run that does not return normally. -/
inductive Fault where
  | nilDeref
  | outOfFuel
deriving DecidableEq, Repr

instance instDecidableEqExcept {ε α : Type} [DecidableEq ε] [DecidableEq α] :
    DecidableEq (Except ε α)
  | .ok a, .ok b =>
    if h : a = b then isTrue (by rw [h]) else isFalse (fun h2 => by cases h2; exact h rfl)
  | .error a, .error b =>
    if h : a = b then isTrue (by rw [h]) else isFalse (fun h2 => by cases h2; exact h rfl)
  | .ok _, .error _ => isFalse (fun h => by cases h)
  | .error _, .ok _ => isFalse (fun h => by cases h)

/-- Go `ConstructNode`. -/
def ConstructNode (value : Int) : Node :=
  { value := value, counter := 1, left := none, right := none, parent := none }

/-- Store through a pointer: the node at address `a` is replaced by `v`. -/
def upd (m : Mem) (a : Nat) (v : Node) : Mem :=
  fun b => if b = a then v else m b

/-- Dereference of a possibly nil pointer. -/
def deref (p : Ptr) : Except Fault Nat :=
  match p with
  | some a => .ok a
  | none => .error .nilDeref

/-- Go `Node.increase`; the receiver has already been dereferenced by the caller. -/
def increase (m : Mem) (node : Nat) (node2 : Ptr) : Mem :=
  match node2 with
  | some b => upd m node { m node with counter := (m node).counter + (m b).counter }
  | none => m

/-- Go `Node.decrease`; the receiver has already been dereferenced by the caller. -/
def decrease (m : Mem) (node : Nat) (node2 : Ptr) : Mem :=
  match node2 with
  | some b => upd m node { m node with counter := (m node).counter - (m b).counter }
  | none => m

/-- Go `Node.setLeft`. -/
def setLeft (m : Mem) (node : Ptr) (leftNode : Ptr) : Except Fault Mem :=
  match node with
  | none => .error .nilDeref
  | some n =>
    let m1 := decrease m n (m n).left
    let m2 := increase m1 n leftNode
    let m3 := upd m2 n { m2 n with left := leftNode }
    match leftNode with
    | some l => .ok (upd m3 l { m3 l with parent := some n })
    | none => .ok m3

/-- Go `Node.setRight`. -/
def setRight (m : Mem) (node : Ptr) (rightNode : Ptr) : Except Fault Mem :=
  match node with
  | none => .error .nilDeref
  | some n =>
    let m1 := decrease m n (m n).right
    let m2 := increase m1 n rightNode
    let m3 := upd m2 n { m2 n with right := rightNode }
    match rightNode with
    | some r => .ok (upd m3 r { m3 r with parent := some n })
    | none => .ok m3

/-- Go `Node.isLeft`; every caller has dereferenced the receiver before the call. -/
def isLeft (m : Mem) (node : Nat) : Bool :=
  match (m node).parent with
  | some p => decide ((m p).left = some node)
  | none => false

/-- Go `Node.isRight`; every caller has dereferenced the receiver before the call. -/
def isRight (m : Mem) (node : Nat) : Bool :=
  match (m node).parent with
  | some p => decide ((m p).right = some node)
  | none => false

/-- Go `Node.extract`. -/
def extract (m : Mem) (node : Ptr) : Except Fault Mem :=
  match node with
  | none => .error .nilDeref
  | some n => .ok (upd m n (ConstructNode (m n).value))

/-- Go `type SplayTree struct`. -/
structure SplayTree where
  root : Ptr
  step : Int
  nodes : List Nat
deriving DecidableEq, Repr

/-- Go `ConstructSplayTree`. -/
def ConstructSplayTree : SplayTree :=
  { root := none, step := 0, nodes := [] }

/-- Go `SplayTree.Size`. -/
def Size (m : Mem) (st : SplayTree) : Int :=
  match st.root with
  | some r => (m r).counter
  | none => 0

/-- Go `SplayTree.setRoot`. -/
def setRoot (m : Mem) (st : SplayTree) (node : Ptr) : Mem × SplayTree :=
  match node with
  | some r => (upd m r { m r with parent := none }, { st with root := node })
  | none => (m, { st with root := node })

/-- Go `SplayTree.stitch`; the receiver tree is not used by the Go code. -/
def stitch (m : Mem) (node : Ptr) : Except Fault Mem :=
  match node with
  | none => .error .nilDeref
  | some n =>
    let p := (m n).parent
    if isLeft m n then
      match setLeft m p (m n).right with
      | .error e => .error e
      | .ok m1 =>
        match setRight m1 node p with
        | .error e => .error e
        | .ok m2 => .ok (upd m2 n { m2 n with parent := none })
    else
      match setRight m p (m n).left with
      | .error e => .error e
      | .ok m1 =>
        match setLeft m1 node p with
        | .error e => .error e
        | .ok m2 => .ok (upd m2 n { m2 n with parent := none })

/-- Go `SplayTree.rotateLeft`; the receiver tree is not used by the Go code. -/
def rotateLeft (m : Mem) (node : Ptr) : Except Fault Mem :=
  match node with
  | none => .error .nilDeref
  | some n =>
    let child := (m n).right
    let counter_node := (m n).counter
    match child with
    | none => .error .nilDeref
    | some c =>
      let counter_child := (m c).counter
      let p := (m n).parent
      let r1 : Except Fault Mem :=
        match p with
        | some pa =>
          let counter_p := (m pa).counter
          let r0 : Except Fault Mem :=
            if isLeft m n then setLeft m p child
            else if isRight m n then setRight m p child
            else .ok m
          match r0 with
          | .error e => .error e
          | .ok m0 => .ok (upd m0 pa { m0 pa with counter := counter_p })
        | none => .ok m
      match r1 with
      | .error e => .error e
      | .ok m1 =>
        let m2 := upd m1 c { m1 c with parent := p }
        let grand_child := (m2 c).left
        match setLeft m2 child node with
        | .error e => .error e
        | .ok m3 =>
          match setRight m3 node grand_child with
          | .error e => .error e
          | .ok m4 =>
            let m5 := upd m4 n { m4 n with counter := counter_node - counter_child }
            match grand_child with
            | some gc =>
              let m6 := upd m5 n { m5 n with counter := (m5 n).counter + (m5 gc).counter }
              let counter_child1 := counter_child - (m6 gc).counter
              .ok (upd m6 c { m6 c with counter := counter_child1 + (m6 n).counter })
            | none =>
              .ok (upd m5 c { m5 c with counter := counter_child + (m5 n).counter })

/-- Go `SplayTree.rotateRight`; the receiver tree is not used by the Go code.  Unlike `rotateLeft`
the parent's child link is assigned directly. -/
def rotateRight (m : Mem) (node : Ptr) : Except Fault Mem :=
  match node with
  | none => .error .nilDeref
  | some n =>
    let child := (m n).left
    let counter_node := (m n).counter
    match child with
    | none => .error .nilDeref
    | some c =>
      let counter_child := (m c).counter
      let p := (m n).parent
      let m1 : Mem :=
        match p with
        | some pa =>
          let counter_p := (m pa).counter
          let m0 : Mem :=
            if isLeft m n then upd m pa { m pa with left := child }
            else if isRight m n then upd m pa { m pa with right := child }
            else m
          upd m0 pa { m0 pa with counter := counter_p }
        | none => m
      let m2 := upd m1 c { m1 c with parent := p }
      let grand_child := (m2 c).right
      match setRight m2 child node with
      | .error e => .error e
      | .ok m3 =>
        match setLeft m3 node grand_child with
        | .error e => .error e
        | .ok m4 =>
          let m5 := upd m4 n { m4 n with counter := counter_node - counter_child }
          match grand_child with
          | some gc =>
            let m6 := upd m5 n { m5 n with counter := (m5 n).counter + (m5 gc).counter }
            let counter_child1 := counter_child - (m6 gc).counter
            .ok (upd m6 c { m6 c with counter := counter_child1 + (m6 n).counter })
          | none =>
            .ok (upd m5 c { m5 c with counter := counter_child + (m5 n).counter })

/-- Go `SplayTree.straightStitch`. -/
def straightStitch (m : Mem) (node : Ptr) : Except Fault Mem :=
  match node with
  | none => .error .nilDeref
  | some n =>
    let p := (m n).parent
    match p with
    | none => .error .nilDeref
    | some pa =>
      let g := (m pa).parent
      if isLeft m n then
        match rotateRight m g with
        | .error e => .error e
        | .ok m1 => rotateRight m1 p
      else
        match rotateLeft m g with
        | .error e => .error e
        | .ok m1 => rotateLeft m1 p

/-- Go `SplayTree.crossStitch`. -/
def crossStitch (m : Mem) (node : Ptr) : Except Fault Mem :=
  match node with
  | none => .error .nilDeref
  | some n =>
    let p := (m n).parent
    match p with
    | none => .error .nilDeref
    | some pa =>
      let g := (m pa).parent
      if isLeft m n then
        match rotateRight m p with
        | .error e => .error e
        | .ok m1 => rotateLeft m1 g
      else
        match rotateLeft m p with
        | .error e => .error e
        | .ok m1 => rotateRight m1 g

/-- Body of one iteration of the `splay` loop when the parent `p` of `n` is not the root:
the zig-zig or zig-zag step. -/
def splayStep (m : Mem) (n p : Nat) : Except Fault Mem :=
  if (isLeft m p && isLeft m n) || (isRight m p && isRight m n) then
    straightStitch m (some n)
  else
    crossStitch m (some n)

/-- Loop of `SplayTree.splay`: `for node.parent != nil { ... }`, one iteration per unit of
fuel. -/
def splayLoop : Nat → Mem → Nat → Except Fault Mem
  | 0, _, _ => .error .outOfFuel
  | fuel + 1, m, n =>
    match (m n).parent with
    | none => .ok m
    | some p =>
      match (m p).parent with
      | none => stitch m (some n)
      | some _ =>
        match splayStep m n p with
        | .error e => .error e
        | .ok m1 => splayLoop fuel m1 n

/-- Go `SplayTree.splay`. -/
def splay (fuel : Nat) (m : Mem) (st : SplayTree) (node : Ptr) :
    Except Fault (Mem × SplayTree) :=
  match node with
  | none => .ok (m, st)
  | some n =>
    match splayLoop fuel m n with
    | .error e => .error e
    | .ok m1 => .ok (setRoot m1 st node)

/-- Loop of `SplayTree.FindByValue`. -/
def findByValueLoop : Nat → Mem → Ptr → Int → Except Fault Ptr
  | 0, _, _, _ => .error .outOfFuel
  | _ + 1, _, none, _ => .ok none
  | fuel + 1, m, some c, value =>
    if (m c).value ≠ value then
      if (m c).value < value then findByValueLoop fuel m (m c).right value
      else findByValueLoop fuel m (m c).left value
    else .ok (some c)

/-- Go `SplayTree.FindByValue`. -/
def FindByValue (fuel : Nat) (m : Mem) (st : SplayTree) (value : Int) : Except Fault Ptr :=
  findByValueLoop fuel m st.root value

/-- Loop of `SplayTree.FindByPos`. -/
def findByPosLoop : Nat → Mem → Ptr → Int → Except Fault Ptr
  | 0, _, _, _ => .error .outOfFuel
  | _ + 1, _, none, _ => .ok none
  | fuel + 1, m, some n, pos =>
    match (m n).right with
    | some r =>
      if pos < (m r).counter then findByPosLoop fuel m (some r) pos
      else
        let pos1 := pos - (m r).counter
        if pos1 = 0 then .ok (some n)
        else findByPosLoop fuel m (m n).left (pos1 - 1)
    | none =>
      if pos = 0 then .ok (some n)
      else findByPosLoop fuel m (m n).left (pos - 1)

/-- Go `SplayTree.FindByPos`; the printed message is not modelled. -/
def FindByPos (fuel : Nat) (m : Mem) (st : SplayTree) (pos : Int) : Except Fault Ptr :=
  match st.root with
  | none => .ok none
  | some r =>
    if pos ≥ (m r).counter then .ok none
    else findByPosLoop fuel m (some r) pos

/-- Go `SplayTree.MostRight`. -/
def MostRight (fuel : Nat) (m : Mem) (st : SplayTree) : Except Fault Ptr :=
  FindByPos fuel m st 0

/-- Go `SplayTree.MostLeft`. -/
def MostLeft (fuel : Nat) (m : Mem) (st : SplayTree) : Except Fault Ptr :=
  match st.root with
  | none => .error .nilDeref
  | some r => FindByPos fuel m st ((m r).counter - 1)

/-- Go `SplayTree.merge`. -/
def merge (fuel : Nat) (m : Mem) (st : SplayTree) (tree : SplayTree) :
    Except Fault (Mem × SplayTree) :=
  match st.root with
  | none => .ok (setRoot m st tree.root)
  | some _ =>
    match MostRight fuel m st with
    | .error e => .error e
    | .ok node =>
      match splay fuel m st node with
      | .error e => .error e
      | .ok (m1, st1) =>
        match setRight m1 node tree.root with
        | .error e => .error e
        | .ok m2 => .ok (m2, st1)

/-- Descent loop of `SplayTree.split`: the last node on the search path. -/
def splitLoop : Nat → Mem → Nat → Int → Except Fault Nat
  | 0, _, _, _ => .error .outOfFuel
  | fuel + 1, m, n, value =>
    let next_node := if (m n).value > value then (m n).left else (m n).right
    match next_node with
    | none => .ok n
    | some nx => splitLoop fuel m nx value

/-- Go `SplayTree.split`: returns the memory, the receiver, and the two result trees. -/
def split (fuel : Nat) (m : Mem) (st : SplayTree) (value : Int) :
    Except Fault (Mem × SplayTree × SplayTree × SplayTree) :=
  let left_tree := ConstructSplayTree
  let right_tree := ConstructSplayTree
  match st.root with
  | none => .ok (m, st, left_tree, right_tree)
  | some r =>
    match splitLoop fuel m r value with
    | .error e => .error e
    | .ok n =>
      match splay fuel m st (some n) with
      | .error e => .error e
      | .ok (m1, st1) =>
        if (m1 n).value ≤ value then
          let (m2, left_tree1) := setRoot m1 left_tree (some n)
          let (m3, right_tree1) := setRoot m2 right_tree (m2 n).right
          match setRight m3 (some n) none with
          | .error e => .error e
          | .ok m4 =>
            let (m5, st2) := setRoot m4 st1 none
            .ok (m5, st2, left_tree1, right_tree1)
        else
          let (m2, left_tree1) := setRoot m1 left_tree (m1 n).left
          let (m3, right_tree1) := setRoot m2 right_tree (some n)
          match setLeft m3 (some n) none with
          | .error e => .error e
          | .ok m4 =>
            let (m5, st2) := setRoot m4 st1 none
            .ok (m5, st2, left_tree1, right_tree1)

/-- Go `SplayTree.add`. -/
def add (fuel : Nat) (m : Mem) (st : SplayTree) (node : Ptr) :
    Except Fault (Mem × SplayTree × Int) :=
  match node with
  | none => .error .nilDeref
  | some n =>
    match split fuel m st (m n).value with
    | .error e => .error e
    | .ok (m1, st1, tree1, tree2) =>
      let (m2, st2) := setRoot m1 st1 node
      match setLeft m2 node tree1.root with
      | .error e => .error e
      | .ok m3 =>
        match setRight m3 node tree2.root with
        | .error e => .error e
        | .ok m4 =>
          match (m4 n).right with
          | some r => .ok (m4, st2, (m4 r).counter)
          | none => .ok (m4, st2, 0)

/-- Go `SplayTree.remove`. -/
def remove (fuel : Nat) (m : Mem) (st : SplayTree) (node : Ptr) :
    Except Fault (Mem × SplayTree) :=
  match splay fuel m st node with
  | .error e => .error e
  | .ok (m1, st1) =>
    match node with
    | none => .error .nilDeref
    | some n =>
      let (m2, st2) := setRoot m1 st1 (m1 n).left
      let (m3, right_tree) := setRoot m2 ConstructSplayTree (m2 n).right
      match merge fuel m3 st2 right_tree with
      | .error e => .error e
      | .ok (m4, st3) =>
        match extract m4 node with
        | .error e => .error e
        | .ok m5 => .ok (m5, st3)

/-- Program state: the heap (contents and allocation counter) and the tree variable. -/
structure World where
  mem : Mem
  next : Nat
  st : SplayTree

/-- The state right after `ConstructSplayTree()`: nothing allocated, the tree empty. -/
def World.init : World :=
  { mem := fun _ => ConstructNode 0, next := 0, st := ConstructSplayTree }

/-- Go `SplayTree.Insert`: the new node is allocated at the next free address. -/
def Insert (fuel : Nat) (w : World) (value : Int) : Except Fault (World × Int) :=
  let a := w.next
  let m0 := upd w.mem a (ConstructNode value)
  let st0 := { w.st with nodes := w.st.nodes ++ [a] }
  match add fuel m0 st0 (some a) with
  | .error e => .error e
  | .ok (m1, st1, pos) => .ok ({ mem := m1, next := a + 1, st := st1 }, pos)

/-- Go `SplayTree.Remove`. -/
def Remove (fuel : Nat) (w : World) (pos : Int) : Except Fault World :=
  match FindByPos fuel w.mem w.st pos with
  | .error e => .error e
  | .ok node =>
    match remove fuel w.mem w.st node with
    | .error e => .error e
    | .ok (m1, st1) => .ok { w with mem := m1, st := st1 }


/-! ## Abstract trees and the representation relation -/

/-- Finite binary tree of cells (address, value): the abstract unfolding of a pointer
structure. -/
inductive Tree where
  | nil
  | node (l : Tree) (a : Nat) (v : Int) (r : Tree)
deriving DecidableEq, Repr

/-- Pointer to the root cell of an abstract tree. -/
def Tree.root : Tree → Ptr
  | .nil => none
  | .node _ a _ _ => some a

/-- Number of cells of an abstract tree, as a Go `int`. -/
def Tree.size : Tree → Int
  | .nil => 0
  | .node l _ _ r => 1 + l.size + r.size

/-- In-order traversal (left subtree, node, right subtree) as cells (address, value). -/
def Tree.cells : Tree → List (Nat × Int)
  | .nil => []
  | .node l a v r => l.cells ++ (a, v) :: r.cells

/-- Addresses of the in-order traversal. -/
def Tree.addrs (t : Tree) : List Nat := t.cells.map Prod.fst

/-- Values of the in-order traversal. -/
def Tree.vals (t : Tree) : List Int := t.cells.map Prod.snd

/-- The pointer structure reachable from `p` through `left` and `right` unfolds to the finite
tree `t`, and every cell carries the value stored at its address. -/
def Shape (m : Mem) : Ptr → Tree → Prop
  | p, .nil => p = none
  | p, .node l a v r =>
    p = some a ∧ (m a).value = v ∧ Shape m (m a).left l ∧ Shape m (m a).right r

/-- Counter of a possibly absent child: an absent child counts 0. -/
def cnt (m : Mem) (p : Ptr) : Int :=
  match p with
  | some b => (m b).counter
  | none => 0

/-- Full representation of the tree `t` whose root has parent link `par`: every field of every
cell is as the abstract tree prescribes (value, exact counter, child links, parent link). -/
def Rep (m : Mem) : Ptr → Tree → Prop
  | _, .nil => True
  | par, .node l a v r =>
    m a = { value := v, counter := 1 + l.size + r.size, left := l.root, right := r.root,
            parent := par } ∧
    Rep m (some a) l ∧ Rep m (some a) r

/-- One-hole context: the path from a hole up to the root, with the siblings hanging off it. -/
inductive Ctx where
  | top
  | inL (a : Nat) (v : Int) (r : Tree) (c : Ctx)
  | inR (l : Tree) (a : Nat) (v : Int) (c : Ctx)

/-- Fill the hole of a context. -/
def Ctx.plug : Ctx → Tree → Tree
  | .top, t => t
  | .inL a v r c, t => c.plug (.node t a v r)
  | .inR l a v c, t => c.plug (.node l a v t)

/-- Address of the cell right above the hole. -/
def Ctx.addr : Ctx → Ptr
  | .top => none
  | .inL a _ _ _ => some a
  | .inR _ a _ _ => some a

/-- In-order cells of the context that come before the hole. -/
def Ctx.before : Ctx → List (Nat × Int)
  | .top => []
  | .inL _ _ _ c => c.before
  | .inR l a v c => c.before ++ l.cells ++ [(a, v)]

/-- In-order cells of the context that come after the hole. -/
def Ctx.after : Ctx → List (Nat × Int)
  | .top => []
  | .inL a v r c => (a, v) :: r.cells ++ c.after
  | .inR _ _ _ c => c.after

/-- Addresses of all cells of a context. -/
def Ctx.addrs (c : Ctx) : List Nat := (c.before ++ c.after).map Prod.fst

/-- Number of cells on the path from the hole to the root. -/
def Ctx.depth : Ctx → Nat
  | .top => 0
  | .inL _ _ _ c => c.depth + 1
  | .inR _ _ _ c => c.depth + 1

/-- Representation of a context around a hole whose root pointer is `h` and whose size is
`s`. -/
def RepCtx (m : Mem) : Ctx → Ptr → Int → Prop
  | .top, _, _ => True
  | .inL a v r c, h, s =>
    m a = { value := v, counter := 1 + s + r.size, left := h, right := r.root,
            parent := c.addr } ∧
    Rep m (some a) r ∧ RepCtx m c (some a) (1 + s + r.size)
  | .inR l a v c, h, s =>
    m a = { value := v, counter := 1 + l.size + s, left := l.root, right := h,
            parent := c.addr } ∧
    Rep m (some a) l ∧ RepCtx m c (some a) (1 + l.size + s)

/-- Well-formed program state: the tree variable points to a finite tree with exact counters,
symmetric links, pairwise distinct allocated cells and a non-decreasing in-order traversal. -/
def WF (w : World) : Prop :=
  ∃ t : Tree, Rep w.mem none t ∧ w.st.root = t.root ∧ t.addrs.Nodup ∧
    (∀ a ∈ t.addrs, a < w.next) ∧ t.vals.Sorted (· ≤ ·)

/-- States reachable from the empty tree by `Insert` calls and in-range `Remove` calls that
return. -/
inductive Reachable : World → Prop
  | empty : Reachable World.init
  | insert (w : World) (fuel : Nat) (v : Int) (w1 : World) (pos : Int) :
      Reachable w → Insert fuel w v = .ok (w1, pos) → Reachable w1
  | remove (w : World) (fuel : Nat) (pos : Int) (w1 : World) :
      Reachable w → 0 ≤ pos → pos < Size w.mem w.st → Remove fuel w pos = .ok w1 →
      Reachable w1

/-- State after a call of `Insert`; a call that does not return leaves the state as it
was. -/
def insertW (fuel : Nat) (w : World) (v : Int) : World :=
  match Insert fuel w v with
  | .ok (w1, _) => w1
  | .error _ => w

/-- State after a call of `Remove`; a call that does not return leaves the state as it
was. -/
def removeW (fuel : Nat) (w : World) (pos : Int) : World :=
  match Remove fuel w pos with
  | .ok w1 => w1
  | .error _ => w

/-- Whether a run returned normally. -/
def returns {α : Type} (r : Except Fault α) : Bool :=
  match r with
  | .ok _ => true
  | .error _ => false

/-- The scenario tree of the specification: insert 5, 3, 8, 1 into the empty tree. -/
def scenarioWorld : World :=
  insertW 8 (insertW 8 (insertW 8 (insertW 8 World.init 5) 3) 8) 1

/-- A tree holding the value 5 twice: insert 5, 5 into the empty tree. -/
def twinWorld : World :=
  insertW 8 (insertW 8 World.init 5) 5

/-- A tree holding 5 twice below 3: insert 5, 5, 3 into the empty tree. -/
def tripleWorld : World :=
  insertW 8 twinWorld 3

/-- The abstract tree of `scenarioWorld`. -/
def scenarioTree : Tree :=
  .node .nil 3 1 (.node .nil 1 3 (.node .nil 0 5 (.node .nil 2 8 .nil)))

/-- A heap with two separate one-cell trees: value 1 at address 0 and value 2 at address 1. -/
def pairMem : Mem :=
  fun a => if a = 1 then ConstructNode 2 else ConstructNode 1

/-- Search-tree ordering with duplicates on both sides: at every cell, the values of the left
subtree are `<=` the value of the cell and the values of the right subtree are `>=` it. -/
def Tree.ordered : Tree → Bool
  | .nil => true
  | .node l _ v r =>
    l.vals.all (fun x => decide (x ≤ v)) && r.vals.all (fun y => decide (v ≤ y)) &&
      l.ordered && r.ordered

/-- Search-tree ordering with a strict right side: at every cell, the values of the left
subtree are `<=` the value of the cell and the values of the right subtree are `>` it. -/
def Tree.strictOrdered : Tree → Bool
  | .nil => true
  | .node l _ v r =>
    l.vals.all (fun x => decide (x ≤ v)) && r.vals.all (fun y => decide (v < y)) &&
      l.strictOrdered && r.strictOrdered

/-- Loop of `SplayTree.splay` with a ghost counter: the same run as `splayLoop`, returning
also the number of executions of the loop body. -/
def splayCount : Nat → Mem → Nat → Except Fault (Mem × Nat)
  | 0, _, _ => .error .outOfFuel
  | fuel + 1, m, n =>
    match (m n).parent with
    | none => .ok (m, 0)
    | some p =>
      match (m p).parent with
      | none =>
        match stitch m (some n) with
        | .error e => .error e
        | .ok m1 => .ok (m1, 1)
      | some _ =>
        match splayStep m n p with
        | .error e => .error e
        | .ok m1 =>
          match splayCount fuel m1 n with
          | .error e => .error e
          | .ok (m2, k) => .ok (m2, k + 1)

/-! ## Memory updates -/

@[simp] theorem upd_same (m : Mem) (a : Nat) (v : Node) : upd m a v a = v := by
  simp [upd]

theorem upd_other (m : Mem) (a : Nat) (v : Node) (b : Nat) (h : b ≠ a) :
    upd m a v b = m b := by
  simp [upd, h]

/-! ## Abstract trees -/

@[simp] theorem Tree.cells_nil : Tree.nil.cells = [] := rfl

@[simp] theorem Tree.cells_node (l r : Tree) (a : Nat) (v : Int) :
    (Tree.node l a v r).cells = l.cells ++ (a, v) :: r.cells := rfl

@[simp] theorem Tree.addrs_nil : Tree.nil.addrs = [] := rfl

@[simp] theorem Tree.addrs_node (l r : Tree) (a : Nat) (v : Int) :
    (Tree.node l a v r).addrs = l.addrs ++ a :: r.addrs := by
  simp [Tree.addrs]

@[simp] theorem Tree.vals_nil : Tree.nil.vals = [] := rfl

@[simp] theorem Tree.vals_node (l r : Tree) (a : Nat) (v : Int) :
    (Tree.node l a v r).vals = l.vals ++ v :: r.vals := by
  simp [Tree.vals]

@[simp] theorem Tree.size_nil : Tree.nil.size = 0 := rfl

@[simp] theorem Tree.size_node (l r : Tree) (a : Nat) (v : Int) :
    (Tree.node l a v r).size = 1 + l.size + r.size := rfl

@[simp] theorem Tree.root_nil : Tree.nil.root = none := rfl

@[simp] theorem Tree.root_node (l r : Tree) (a : Nat) (v : Int) :
    (Tree.node l a v r).root = some a := rfl

theorem Tree.size_eq_length (t : Tree) : t.size = (t.cells.length : Int) := by
  induction t with
  | nil => simp
  | node l a v r ihl ihr => simp [ihl, ihr]; ring

theorem Tree.length_addrs (t : Tree) : t.addrs.length = t.cells.length := by
  simp [Tree.addrs]

theorem Tree.length_vals (t : Tree) : t.vals.length = t.cells.length := by
  simp [Tree.vals]

theorem Tree.size_nonneg (t : Tree) : 0 ≤ t.size := by
  rw [Tree.size_eq_length]; exact Int.natCast_nonneg _

theorem Tree.root_mem_addrs {t : Tree} {a : Nat} (h : t.root = some a) : a ∈ t.addrs := by
  cases t with
  | nil => simp at h
  | node l b v r =>
    simp at h
    simp [h]

theorem Tree.root_eq_none {t : Tree} (h : t.root = none) : t = Tree.nil := by
  cases t with
  | nil => rfl
  | node l b v r => simp at h

theorem Tree.cells_eq_nil {t : Tree} (h : t.cells = []) : t = Tree.nil := by
  cases t with
  | nil => rfl
  | node l b v r => simp at h

/-! ## Frame properties of the representation relation -/

theorem Rep.congr {m m1 : Mem} {t : Tree} : ∀ {par : Ptr},
    (∀ a ∈ t.addrs, m1 a = m a) → Rep m par t → Rep m1 par t := by
  induction t with
  | nil => intro par _ _; trivial
  | node l a v r ihl ihr =>
    intro par hag h
    obtain ⟨h1, h2, h3⟩ := h
    refine ⟨?_, ihl (fun b hb => hag b (by simp [hb])) h2,
      ihr (fun b hb => hag b (by simp [hb])) h3⟩
    rw [hag a (by simp), h1]

theorem Rep.shape {m : Mem} {t : Tree} : ∀ {par : Ptr}, Rep m par t → Shape m t.root t := by
  induction t with
  | nil => intro par _; simp [Shape]
  | node l a v r ihl ihr =>
    intro par h
    obtain ⟨h1, h2, h3⟩ := h
    have hl := ihl h2
    have hr := ihr h3
    simp only [Shape, Tree.root_node, true_and]
    rw [h1]
    exact ⟨rfl, hl, hr⟩

theorem Shape.unique {m : Mem} {t : Tree} : ∀ {p : Ptr} {t1 : Tree},
    Shape m p t → Shape m p t1 → t = t1 := by
  induction t with
  | nil =>
    intro p t1 h h1
    cases t1 with
    | nil => rfl
    | node l1 a1 v1 r1 =>
      simp only [Shape] at h h1
      rw [h] at h1
      exact absurd h1.1 (by simp)
  | node l a v r ihl ihr =>
    intro p t1 h h1
    cases t1 with
    | nil =>
      simp only [Shape] at h h1
      rw [h1] at h
      exact absurd h.1 (by simp)
    | node l1 a1 v1 r1 =>
      simp only [Shape] at h h1
      obtain ⟨e, ev, hl, hr⟩ := h
      obtain ⟨e1, ev1, hl1, hr1⟩ := h1
      rw [e] at e1
      have ea : a = a1 := by simpa using e1
      subst ea
      rw [ihl hl hl1, ihr hr hr1, ← ev, ← ev1]

theorem Rep.root_parent {m : Mem} {par : Ptr} {l r : Tree} {a : Nat} {v : Int}
    (h : Rep m par (Tree.node l a v r)) (par1 : Ptr)
    (hl : a ∉ l.addrs) (hr : a ∉ r.addrs) :
    Rep (upd m a { m a with parent := par1 }) par1 (Tree.node l a v r) := by
  obtain ⟨h1, h2, h3⟩ := h
  refine ⟨?_, ?_, ?_⟩
  · rw [upd_same, h1]
  · exact Rep.congr (fun b hb => upd_other _ _ _ _ (fun e => hl (e ▸ hb))) h2
  · exact Rep.congr (fun b hb => upd_other _ _ _ _ (fun e => hr (e ▸ hb))) h3

theorem Rep.counter_root {m : Mem} {par : Ptr} {t : Tree} (h : Rep m par t) :
    cnt m t.root = t.size := by
  cases t with
  | nil => rfl
  | node l a v r =>
    obtain ⟨h1, _, _⟩ := h
    simp [cnt, h1]

/-! ## Contexts -/

theorem Ctx.cells_plug (c : Ctx) : ∀ t : Tree,
    (c.plug t).cells = c.before ++ t.cells ++ c.after := by
  induction c with
  | top => intro t; simp [Ctx.plug, Ctx.before, Ctx.after]
  | inL a v r c ih => intro t; simp [Ctx.plug, Ctx.before, Ctx.after, ih]
  | inR l a v c ih => intro t; simp [Ctx.plug, Ctx.before, Ctx.after, ih]

theorem Ctx.depth_le (c : Ctx) : c.depth ≤ (c.before ++ c.after).length := by
  induction c with
  | top => simp [Ctx.depth]
  | inL a v r c ih => simp [Ctx.depth, Ctx.before, Ctx.after] at *; omega
  | inR l a v c ih => simp [Ctx.depth, Ctx.before, Ctx.after] at *; omega

theorem rep_plug {m : Mem} (c : Ctx) : ∀ t : Tree,
    Rep m none (c.plug t) ↔ (RepCtx m c t.root t.size ∧ Rep m c.addr t) := by
  induction c with
  | top => intro t; simp [Ctx.plug, RepCtx, Ctx.addr]
  | inL a v r c ih =>
    intro t
    simp only [Ctx.plug, ih, RepCtx, Ctx.addr, Rep, Tree.root_node, Tree.size_node]
    tauto
  | inR l a v c ih =>
    intro t
    simp only [Ctx.plug, ih, RepCtx, Ctx.addr, Rep, Tree.root_node, Tree.size_node]
    tauto

theorem RepCtx.congr_ctx {m m1 : Mem} {c : Ctx} : ∀ {h : Ptr} {s : Int},
    (∀ a ∈ c.addrs, m1 a = m a) →
    RepCtx m c h s → RepCtx m1 c h s := by
  unfold Ctx.addrs
  induction c with
  | top => intro h s _ _; trivial
  | inL a v r c ih =>
    intro h s hag hr
    obtain ⟨h1, h2, h3⟩ := hr
    refine ⟨?_, ?_, ?_⟩
    · rw [hag a (by simp [Ctx.before, Ctx.after]), h1]
    · refine Rep.congr (fun b hb => hag b ?_) h2
      simp only [Tree.addrs, List.mem_map] at hb
      obtain ⟨x, hx, rfl⟩ := hb
      simp only [Ctx.before, Ctx.after, List.mem_map, List.mem_append, List.mem_cons]
      exact ⟨x, Or.inr (Or.inl (Or.inr hx)), rfl⟩
    · refine ih (fun b hb => hag b ?_) h3
      simp only [Ctx.before, Ctx.after, List.mem_map, List.mem_append, List.mem_cons] at hb ⊢
      obtain ⟨x, hx, rfl⟩ := hb
      rcases hx with hx | hx
      · exact ⟨x, Or.inl hx, rfl⟩
      · exact ⟨x, Or.inr (Or.inr hx), rfl⟩
  | inR l a v c ih =>
    intro h s hag hr
    obtain ⟨h1, h2, h3⟩ := hr
    refine ⟨?_, ?_, ?_⟩
    · rw [hag a (by simp [Ctx.before, Ctx.after]), h1]
    · refine Rep.congr (fun b hb => hag b ?_) h2
      simp only [Tree.addrs, List.mem_map] at hb
      obtain ⟨x, hx, rfl⟩ := hb
      simp only [Ctx.before, Ctx.after, List.mem_map, List.mem_append, List.mem_cons,
        List.mem_singleton]
      exact ⟨x, Or.inl (Or.inl (Or.inr hx)), rfl⟩
    · refine ih (fun b hb => hag b ?_) h3
      simp only [Ctx.before, Ctx.after, List.mem_map, List.mem_append, List.mem_cons,
        List.mem_singleton] at hb ⊢
      obtain ⟨x, hx, rfl⟩ := hb
      rcases hx with hx | hx
      · exact ⟨x, Or.inl (Or.inl (Or.inl hx)), rfl⟩
      · exact ⟨x, Or.inr hx, rfl⟩

/-- Every cell of a tree sits in the hole of some context. -/
theorem Tree.exists_ctx {t : Tree} {x : Nat} (hx : x ∈ t.addrs) :
    ∃ (c : Ctx) (l r : Tree) (v : Int), t = c.plug (Tree.node l x v r) := by
  suffices H : ∀ (t : Tree) (c0 : Ctx), x ∈ t.addrs →
      ∃ (c : Ctx) (l r : Tree) (v : Int), c0.plug t = c.plug (Tree.node l x v r) by
    exact H t Ctx.top hx
  intro t
  induction t with
  | nil => intro c0 h; simp at h
  | node l a v r ihl ihr =>
    intro c0 h
    simp only [Tree.addrs_node, List.mem_append, List.mem_cons] at h
    rcases h with h | h | h
    · obtain ⟨c, l1, r1, v1, e⟩ := ihl (Ctx.inL a v r c0) h
      exact ⟨c, l1, r1, v1, e⟩
    · subst h
      exact ⟨c0, l, r, v, rfl⟩
    · obtain ⟨c, l1, r1, v1, e⟩ := ihr (Ctx.inR l a v c0) h
      exact ⟨c, l1, r1, v1, e⟩

theorem rotateRight_raw {m : Mem} {n c : Nat} {vn cn vc cc : Int} {rn pn lc gc pc : Ptr}
    (hn : m n = ⟨vn, cn, some c, rn, pn⟩) (hc : m c = ⟨vc, cc, lc, gc, pc⟩)
    (hnc : n ≠ c) (hgn : gc ≠ some n) (hgc : gc ≠ some c)
    (hpn : pn ≠ some n) (hpc : pn ≠ some c) (hpg : ∀ x, pn = some x → gc ≠ some x)
    (hlink : ∀ pa, pn = some pa → (m pa).left = some n ∨ (m pa).right = some n) :
    ∃ m1, rotateRight m (some n) = .ok m1 ∧
      m1 n = ⟨vn, cn - cc + cnt m gc, gc, rn, some c⟩ ∧
      m1 c = ⟨vc, cn, lc, some n, pn⟩ ∧
      (∀ b, gc = some b → m1 b = { m b with parent := some n }) ∧
      (∀ pa, pn = some pa → m1 pa =
        if (m pa).left = some n then { m pa with left := some c }
        else { m pa with right := some c }) ∧
      (∀ x, x ≠ n → x ≠ c → gc ≠ some x → pn ≠ some x → m1 x = m x) := by
  have hcn : c ≠ n := fun e => hnc e.symm
  cases pn with
  | none =>
    cases gc with
    | none =>
      refine ⟨_, by simp [rotateRight, hn, hc, setRight, setLeft, increase, decrease, upd_other, hnc, hcn]; rfl, ?_⟩
      simp [upd_other, hnc, hcn, cnt]
      intro x h1 h2
      simp [upd_other, h1, h2]
    | some g =>
      have hgn1 : g ≠ n := fun e => hgn (by rw [e])
      have hgc1 : g ≠ c := fun e => hgc (by rw [e])
      have hgn2 : n ≠ g := fun e => hgn1 e.symm
      have hgc2 : c ≠ g := fun e => hgc1 e.symm
      refine ⟨_, by simp [rotateRight, hn, hc, setRight, setLeft, increase, decrease, upd_other, hnc, hcn, hgn1, hgc1, hgn2, hgc2]; rfl, ?_⟩
      simp [upd_other, hnc, hcn, cnt, hgn1, hgc1, hgn2, hgc2]
      intro x h1 h2 h3
      have h4 := Ne.symm h3
      simp [upd_other, h1, h2, h4]
  | some pa =>
    have hpn1 : pa ≠ n := fun e => hpn (by rw [e])
    have hpc1 : pa ≠ c := fun e => hpc (by rw [e])
    have hpn2 : n ≠ pa := fun e => hpn1 e.symm
    have hpc2 : c ≠ pa := fun e => hpc1 e.symm
    cases gc with
    | none =>
      rcases hlink pa rfl with hl | hl
      · refine ⟨_, by simp [rotateRight, hn, hc, setRight, setLeft, increase, decrease, upd_other, hnc, hcn, hpn1, hpn2, hpc1, hpc2, isLeft, isRight, hl]; rfl, ?_⟩
        simp [upd_other, hnc, hcn, cnt, hpn1, hpn2, hpc1, hpc2, hl]
        intro x h1 h2 h3
        have h4 := Ne.symm h3
        simp [upd_other, h1, h2, h4]
      · by_cases hl2 : (m pa).left = some n
        · refine ⟨_, by simp [rotateRight, hn, hc, setRight, setLeft, increase, decrease, upd_other, hnc, hcn, hpn1, hpn2, hpc1, hpc2, isLeft, isRight, hl2]; rfl, ?_⟩
          simp [upd_other, hnc, hcn, cnt, hpn1, hpn2, hpc1, hpc2, hl2]
          intro x h1 h2 h3
          have h4 := Ne.symm h3
          simp [upd_other, h1, h2, h4]
        · refine ⟨_, by simp [rotateRight, hn, hc, setRight, setLeft, increase, decrease, upd_other, hnc, hcn, hpn1, hpn2, hpc1, hpc2, isLeft, isRight, hl, hl2]; rfl, ?_⟩
          simp [upd_other, hnc, hcn, cnt, hpn1, hpn2, hpc1, hpc2, hl, hl2]
          intro x h1 h2 h3
          have h4 := Ne.symm h3
          simp [upd_other, h1, h2, h4]
    | some g =>
      have hgn1 : g ≠ n := fun e => hgn (by rw [e])
      have hgc1 : g ≠ c := fun e => hgc (by rw [e])
      have hgn2 : n ≠ g := fun e => hgn1 e.symm
      have hgc2 : c ≠ g := fun e => hgc1 e.symm
      have hgp1 : g ≠ pa := fun e => hpg pa rfl (by rw [e])
      have hgp2 : pa ≠ g := fun e => hgp1 e.symm
      by_cases hl2 : (m pa).left = some n
      · refine ⟨_, by simp [rotateRight, hn, hc, setRight, setLeft, increase, decrease, upd_other, hnc, hcn, hpn1, hpn2, hpc1, hpc2, isLeft, isRight, hl2, hgn1, hgc1, hgn2, hgc2, hgp1, hgp2]; rfl, ?_⟩
        simp [upd_other, hnc, hcn, cnt, hpn1, hpn2, hpc1, hpc2, hl2, hgn1, hgc1, hgn2, hgc2, hgp1, hgp2]
        intro x h1 h2 h3 h5
        have h4 := Ne.symm h3
        have h6 := Ne.symm h5
        simp [upd_other, h1, h2, h4, h6]
      · have hl : (m pa).right = some n := by
          rcases hlink pa rfl with h | h
          · exact absurd h hl2
          · exact h
        refine ⟨_, by simp [rotateRight, hn, hc, setRight, setLeft, increase, decrease, upd_other, hnc, hcn, hpn1, hpn2, hpc1, hpc2, isLeft, isRight, hl, hl2, hgn1, hgc1, hgn2, hgc2, hgp1, hgp2]; rfl, ?_⟩
        simp [upd_other, hnc, hcn, cnt, hpn1, hpn2, hpc1, hpc2, hl, hl2, hgn1, hgc1, hgn2, hgc2, hgp1, hgp2]
        intro x h1 h2 h3 h5
        have h4 := Ne.symm h3
        have h6 := Ne.symm h5
        simp [upd_other, h1, h2, h4, h6]

theorem rotateLeft_raw {m : Mem} {n c : Nat} {vn cn vc cc : Int} {rn pn lc gc pc : Ptr}
    (hn : m n = ⟨vn, cn, rn, some c, pn⟩) (hc : m c = ⟨vc, cc, gc, lc, pc⟩)
    (hnc : n ≠ c) (hgn : gc ≠ some n) (hgc : gc ≠ some c)
    (hpn : pn ≠ some n) (hpc : pn ≠ some c) (hpg : ∀ x, pn = some x → gc ≠ some x)
    (hlink : ∀ pa, pn = some pa → (m pa).left = some n ∨ (m pa).right = some n) :
    ∃ m1, rotateLeft m (some n) = .ok m1 ∧
      m1 n = ⟨vn, cn - cc + cnt m gc, rn, gc, some c⟩ ∧
      m1 c = ⟨vc, cn, some n, lc, pn⟩ ∧
      (∀ b, gc = some b → m1 b = { m b with parent := some n }) ∧
      (∀ pa, pn = some pa → m1 pa =
        if (m pa).left = some n then { m pa with left := some c }
        else { m pa with right := some c }) ∧
      (∀ x, x ≠ n → x ≠ c → gc ≠ some x → pn ≠ some x → m1 x = m x) := by
  have hcn : c ≠ n := fun e => hnc e.symm
  cases pn with
  | none =>
    cases gc with
    | none =>
      refine ⟨_, by simp [rotateLeft, hn, hc, setRight, setLeft, increase, decrease, upd_other, hnc, hcn]; rfl, ?_⟩
      simp [upd_other, hnc, hcn, cnt]
      intro x h1 h2
      simp [upd_other, h1, h2]
    | some g =>
      have hgn1 : g ≠ n := fun e => hgn (by rw [e])
      have hgc1 : g ≠ c := fun e => hgc (by rw [e])
      have hgn2 : n ≠ g := fun e => hgn1 e.symm
      have hgc2 : c ≠ g := fun e => hgc1 e.symm
      refine ⟨_, by simp [rotateLeft, hn, hc, setRight, setLeft, increase, decrease, upd_other, hnc, hcn, hgn1, hgc1, hgn2, hgc2]; rfl, ?_⟩
      simp [upd_other, hnc, hcn, cnt, hgn1, hgc1, hgn2, hgc2]
      intro x h1 h2 h3
      have h4 := Ne.symm h3
      simp [upd_other, h1, h2, h4]
  | some pa =>
    have hpn1 : pa ≠ n := fun e => hpn (by rw [e])
    have hpc1 : pa ≠ c := fun e => hpc (by rw [e])
    have hpn2 : n ≠ pa := fun e => hpn1 e.symm
    have hpc2 : c ≠ pa := fun e => hpc1 e.symm
    cases gc with
    | none =>
      rcases hlink pa rfl with hl | hl
      · refine ⟨_, by simp [rotateLeft, hn, hc, setRight, setLeft, increase, decrease, upd_other, hnc, hcn, hpn1, hpn2, hpc1, hpc2, isLeft, isRight, hl]; rfl, ?_⟩
        simp [upd_other, hnc, hcn, cnt, hpn1, hpn2, hpc1, hpc2, hl]
        intro x h1 h2 h3
        have h4 := Ne.symm h3
        simp [upd_other, h1, h2, h4]
      · by_cases hl2 : (m pa).left = some n
        · refine ⟨_, by simp [rotateLeft, hn, hc, setRight, setLeft, increase, decrease, upd_other, hnc, hcn, hpn1, hpn2, hpc1, hpc2, isLeft, isRight, hl2]; rfl, ?_⟩
          simp [upd_other, hnc, hcn, cnt, hpn1, hpn2, hpc1, hpc2, hl2]
          intro x h1 h2 h3
          have h4 := Ne.symm h3
          simp [upd_other, h1, h2, h4]
        · refine ⟨_, by simp [rotateLeft, hn, hc, setRight, setLeft, increase, decrease, upd_other, hnc, hcn, hpn1, hpn2, hpc1, hpc2, isLeft, isRight, hl, hl2]; rfl, ?_⟩
          simp [upd_other, hnc, hcn, cnt, hpn1, hpn2, hpc1, hpc2, hl, hl2]
          intro x h1 h2 h3
          have h4 := Ne.symm h3
          simp [upd_other, h1, h2, h4]
    | some g =>
      have hgn1 : g ≠ n := fun e => hgn (by rw [e])
      have hgc1 : g ≠ c := fun e => hgc (by rw [e])
      have hgn2 : n ≠ g := fun e => hgn1 e.symm
      have hgc2 : c ≠ g := fun e => hgc1 e.symm
      have hgp1 : g ≠ pa := fun e => hpg pa rfl (by rw [e])
      have hgp2 : pa ≠ g := fun e => hgp1 e.symm
      by_cases hl2 : (m pa).left = some n
      · refine ⟨_, by simp [rotateLeft, hn, hc, setRight, setLeft, increase, decrease, upd_other, hnc, hcn, hpn1, hpn2, hpc1, hpc2, isLeft, isRight, hl2, hgn1, hgc1, hgn2, hgc2, hgp1, hgp2]; rfl, ?_⟩
        simp [upd_other, hnc, hcn, cnt, hpn1, hpn2, hpc1, hpc2, hl2, hgn1, hgc1, hgn2, hgc2, hgp1, hgp2]
        intro x h1 h2 h3 h5
        have h4 := Ne.symm h3
        have h6 := Ne.symm h5
        simp [upd_other, h1, h2, h4, h6]
      · have hl : (m pa).right = some n := by
          rcases hlink pa rfl with h | h
          · exact absurd h hl2
          · exact h
        refine ⟨_, by simp [rotateLeft, hn, hc, setRight, setLeft, increase, decrease, upd_other, hnc, hcn, hpn1, hpn2, hpc1, hpc2, isLeft, isRight, hl, hl2, hgn1, hgc1, hgn2, hgc2, hgp1, hgp2]; rfl, ?_⟩
        simp [upd_other, hnc, hcn, cnt, hpn1, hpn2, hpc1, hpc2, hl, hl2, hgn1, hgc1, hgn2, hgc2, hgp1, hgp2]
        intro x h1 h2 h3 h5
        have h4 := Ne.symm h3
        have h6 := Ne.symm h5
        simp [upd_other, h1, h2, h4, h6]


theorem stitch_left_raw {m : Mem} {n p : Nat} {vn cn vp cp : Int} {ln rn rp pp : Ptr}
    (hn : m n = ⟨vn, cn, ln, rn, some p⟩) (hp : m p = ⟨vp, cp, some n, rp, pp⟩)
    (hnp : n ≠ p) (hrn : rn ≠ some n) (hrp : rn ≠ some p) :
    ∃ m1, stitch m (some n) = .ok m1 ∧
      m1 n = ⟨vn, cp, ln, some p, none⟩ ∧
      m1 p = ⟨vp, cp - cn + cnt m rn, rn, rp, some n⟩ ∧
      (∀ b, rn = some b → m1 b = { m b with parent := some p }) ∧
      (∀ x, x ≠ n → x ≠ p → rn ≠ some x → m1 x = m x) := by
  have hpn : p ≠ n := fun e => hnp e.symm
  cases rn with
  | none =>
    refine ⟨_, by simp [stitch, hn, hp, setRight, setLeft, increase, decrease, upd_other, hnp, hpn, isLeft]; rfl, ?_⟩
    simp [upd_other, hnp, hpn, cnt]
    intro x h1 h2
    simp [upd_other, h1, h2]
  | some g =>
    have hgn1 : g ≠ n := fun e => hrn (by rw [e])
    have hgp1 : g ≠ p := fun e => hrp (by rw [e])
    have hgn2 : n ≠ g := fun e => hgn1 e.symm
    have hgp2 : p ≠ g := fun e => hgp1 e.symm
    refine ⟨_, by simp [stitch, hn, hp, setRight, setLeft, increase, decrease, upd_other, hnp, hpn, isLeft, hgn1, hgn2, hgp1, hgp2]; rfl, ?_⟩
    simp [upd_other, hnp, hpn, cnt, hgn1, hgn2, hgp1, hgp2]
    intro x h1 h2 h3
    have h4 := Ne.symm h3
    simp [upd_other, h1, h2, h4]

theorem stitch_right_raw {m : Mem} {n p : Nat} {vn cn vp cp : Int} {ln rn lp pp : Ptr}
    (hn : m n = ⟨vn, cn, ln, rn, some p⟩) (hp : m p = ⟨vp, cp, lp, some n, pp⟩)
    (hlp : lp ≠ some n)
    (hnp : n ≠ p) (hrn : ln ≠ some n) (hrp : ln ≠ some p) :
    ∃ m1, stitch m (some n) = .ok m1 ∧
      m1 n = ⟨vn, cp, some p, rn, none⟩ ∧
      m1 p = ⟨vp, cp - cn + cnt m ln, lp, ln, some n⟩ ∧
      (∀ b, ln = some b → m1 b = { m b with parent := some p }) ∧
      (∀ x, x ≠ n → x ≠ p → ln ≠ some x → m1 x = m x) := by
  have hpn : p ≠ n := fun e => hnp e.symm
  cases ln with
  | none =>
    refine ⟨_, by simp [stitch, hn, hp, setRight, setLeft, increase, decrease, upd_other, hnp, hpn, isLeft, hlp]; rfl, ?_⟩
    simp [upd_other, hnp, hpn, cnt]
    intro x h1 h2
    simp [upd_other, h1, h2]
  | some g =>
    have hgn1 : g ≠ n := fun e => hrn (by rw [e])
    have hgp1 : g ≠ p := fun e => hrp (by rw [e])
    have hgn2 : n ≠ g := fun e => hgn1 e.symm
    have hgp2 : p ≠ g := fun e => hgp1 e.symm
    refine ⟨_, by simp [stitch, hn, hp, setRight, setLeft, increase, decrease, upd_other, hnp, hpn, isLeft, hgn1, hgn2, hgp1, hgp2, hlp]; rfl, ?_⟩
    simp [upd_other, hnp, hpn, cnt, hgn1, hgn2, hgp1, hgp2]
    intro x h1 h2 h3
    have h4 := Ne.symm h3
    simp [upd_other, h1, h2, h4]

/-! ## Addresses of contexts and plugged trees -/

theorem Ctx.addrs_plug_perm (K : Ctx) (T : Tree) :
    (K.plug T).addrs.Perm (T.addrs ++ K.addrs) := by
  unfold Tree.addrs Ctx.addrs
  rw [Ctx.cells_plug, ← List.map_append]
  apply List.Perm.map
  rw [List.append_assoc]
  exact (List.perm_append_comm_assoc _ _ _)

theorem Ctx.mem_addrs_plug {K : Ctx} {T : Tree} {x : Nat} :
    x ∈ (K.plug T).addrs ↔ x ∈ T.addrs ∨ x ∈ K.addrs := by
  rw [(Ctx.addrs_plug_perm K T).mem_iff, List.mem_append]

theorem Ctx.nodup_plug {K : Ctx} {T : Tree} :
    (K.plug T).addrs.Nodup ↔ (T.addrs ++ K.addrs).Nodup :=
  (Ctx.addrs_plug_perm K T).nodup_iff

theorem Ctx.addrs_plug_eq {K : Ctx} {T T1 : Tree} (h : T1.cells = T.cells) :
    (K.plug T1).addrs = (K.plug T).addrs := by
  unfold Tree.addrs
  rw [Ctx.cells_plug, Ctx.cells_plug, h]

@[simp] theorem Ctx.addrs_top : Ctx.top.addrs = [] := rfl

theorem Ctx.mem_addrs_inL {a : Nat} {v : Int} {r : Tree} {c : Ctx} {x : Nat} :
    x ∈ (Ctx.inL a v r c).addrs ↔ x = a ∨ x ∈ r.addrs ∨ x ∈ c.addrs := by
  simp only [Ctx.addrs, Tree.addrs, Ctx.before, Ctx.after, List.map_append, List.map_cons,
    List.mem_append, List.mem_cons]
  tauto

theorem Ctx.mem_addrs_inR {a : Nat} {v : Int} {l : Tree} {c : Ctx} {x : Nat} :
    x ∈ (Ctx.inR l a v c).addrs ↔ x = a ∨ x ∈ l.addrs ∨ x ∈ c.addrs := by
  simp only [Ctx.addrs, Tree.addrs, Ctx.before, Ctx.after, List.map_append, List.map_cons,
    List.mem_append, List.mem_cons, List.map_nil, List.mem_singleton, List.not_mem_nil,
    or_false]
  tauto

theorem Ctx.addr_mem {K : Ctx} {pa : Nat} (h : K.addr = some pa) : pa ∈ K.addrs := by
  cases K with
  | top => simp [Ctx.addr] at h
  | inL a v r c =>
    simp only [Ctx.addr, Option.some.injEq] at h
    exact Ctx.mem_addrs_inL.2 (Or.inl h.symm)
  | inR l a v c =>
    simp only [Ctx.addr, Option.some.injEq] at h
    exact Ctx.mem_addrs_inR.2 (Or.inl h.symm)

theorem Ctx.addrs_inL_perm (a : Nat) (v : Int) (r : Tree) (c : Ctx) :
    (Ctx.inL a v r c).addrs.Perm (a :: (r.addrs ++ c.addrs)) := by
  simp only [Ctx.addrs, Tree.addrs, Ctx.before, Ctx.after, List.map_append, List.map_cons]
  refine List.perm_middle.trans (List.Perm.cons a ?_)
  exact List.perm_append_comm_assoc _ _ _

theorem Ctx.addrs_inR_perm (a : Nat) (v : Int) (l : Tree) (c : Ctx) :
    (Ctx.inR l a v c).addrs.Perm (a :: (l.addrs ++ c.addrs)) := by
  simp only [Ctx.addrs, Tree.addrs, Ctx.before, Ctx.after, List.map_append, List.map_cons,
    List.map_nil, List.append_assoc, List.singleton_append]
  refine (List.perm_append_comm_assoc _ _ _).trans ?_
  refine (List.Perm.append_left _ List.perm_middle).trans ?_
  exact List.perm_middle

theorem nodup_cons_append {a : Nat} {l1 l2 : List Nat} (h : (a :: (l1 ++ l2)).Nodup) :
    a ∉ l1 ∧ a ∉ l2 ∧ l1.Nodup ∧ l2.Nodup ∧ (∀ x ∈ l1, x ∉ l2) := by
  simp only [List.nodup_cons, List.nodup_append, List.mem_append, not_or] at h
  obtain ⟨⟨h1, h3⟩, h5, h6, h9⟩ := h
  exact ⟨h1, h3, h5, h6, fun x hx hb => h9 hx hb⟩

theorem Ctx.nodup_inL {a : Nat} {v : Int} {r : Tree} {c : Ctx}
    (h : (Ctx.inL a v r c).addrs.Nodup) :
    a ∉ r.addrs ∧ a ∉ c.addrs ∧ r.addrs.Nodup ∧ c.addrs.Nodup ∧
      (∀ x ∈ r.addrs, x ∉ c.addrs) :=
  nodup_cons_append ((Ctx.addrs_inL_perm a v r c).nodup_iff.1 h)

theorem Ctx.nodup_inR {a : Nat} {v : Int} {l : Tree} {c : Ctx}
    (h : (Ctx.inR l a v c).addrs.Nodup) :
    a ∉ l.addrs ∧ a ∉ c.addrs ∧ l.addrs.Nodup ∧ c.addrs.Nodup ∧
      (∀ x ∈ l.addrs, x ∉ c.addrs) :=
  nodup_cons_append ((Ctx.addrs_inR_perm a v l c).nodup_iff.1 h)

theorem Tree.nodup_node {l r : Tree} {a : Nat} {v : Int}
    (h : (Tree.node l a v r).addrs.Nodup) :
    a ∉ l.addrs ∧ a ∉ r.addrs ∧ l.addrs.Nodup ∧ r.addrs.Nodup ∧
      (∀ x ∈ l.addrs, x ∉ r.addrs) := by
  rw [Tree.addrs_node] at h
  exact nodup_cons_append (List.perm_middle.nodup_iff.1 h)

/-! ## Moving subtrees and re-pointing contexts -/

theorem Rep.move {m m1 : Mem} {par par1 : Ptr} {t : Tree} (h : Rep m par t)
    (hnd : t.addrs.Nodup)
    (hroot : ∀ b, t.root = some b → m1 b = { m b with parent := par1 })
    (hfr : ∀ x ∈ t.addrs, t.root ≠ some x → m1 x = m x) : Rep m1 par1 t := by
  cases t with
  | nil => trivial
  | node l a v r =>
    obtain ⟨h1, h2, h3⟩ := h
    obtain ⟨hal, har, _, _, _⟩ := Tree.nodup_node hnd
    refine ⟨?_, ?_, ?_⟩
    · rw [hroot a rfl, h1]
    · refine Rep.congr (fun b hb => hfr b (by simp [hb]) ?_) h2
      intro e
      simp only [Tree.root_node, Option.some.injEq] at e
      exact hal (e ▸ hb)
    · refine Rep.congr (fun b hb => hfr b (by simp [hb]) ?_) h3
      intro e
      simp only [Tree.root_node, Option.some.injEq] at e
      exact har (e ▸ hb)

theorem RepCtx.rehole {m m1 : Mem} {K : Ctx} {n : Nat} {h1 : Ptr} {s : Int}
    (hcx : RepCtx m K (some n) s) (hnd : K.addrs.Nodup) (hn : n ∉ K.addrs)
    (hpa : ∀ pa, K.addr = some pa → m1 pa =
      if (m pa).left = some n then { m pa with left := h1 } else { m pa with right := h1 })
    (hfr : ∀ x ∈ K.addrs, K.addr ≠ some x → m1 x = m x) : RepCtx m1 K h1 s := by
  cases K with
  | top => trivial
  | inL a v r c =>
    obtain ⟨e1, e2, e3⟩ := hcx
    obtain ⟨har, hac, _, _, _⟩ := Ctx.nodup_inL hnd
    refine ⟨?_, ?_, ?_⟩
    · rw [hpa a rfl, e1]; simp
    · refine Rep.congr (fun b hb => hfr b (Ctx.mem_addrs_inL.2 (Or.inr (Or.inl hb))) ?_) e2
      intro e
      simp only [Ctx.addr, Option.some.injEq] at e
      exact har (e ▸ hb)
    · refine RepCtx.congr_ctx (fun b hb => hfr b (Ctx.mem_addrs_inL.2 (Or.inr (Or.inr hb))) ?_) e3
      intro e
      simp only [Ctx.addr, Option.some.injEq] at e
      exact hac (e ▸ hb)
  | inR l a v c =>
    obtain ⟨e1, e2, e3⟩ := hcx
    obtain ⟨hal, hac, _, _, _⟩ := Ctx.nodup_inR hnd
    have hln : l.root ≠ some n := fun e =>
      hn (Ctx.mem_addrs_inR.2 (Or.inr (Or.inl (Tree.root_mem_addrs e))))
    refine ⟨?_, ?_, ?_⟩
    · rw [hpa a rfl, e1]; simp [hln]
    · refine Rep.congr (fun b hb => hfr b (Ctx.mem_addrs_inR.2 (Or.inr (Or.inl hb))) ?_) e2
      intro e
      simp only [Ctx.addr, Option.some.injEq] at e
      exact hal (e ▸ hb)
    · refine RepCtx.congr_ctx (fun b hb => hfr b (Ctx.mem_addrs_inR.2 (Or.inr (Or.inr hb))) ?_) e3
      intro e
      simp only [Ctx.addr, Option.some.injEq] at e
      exact hac (e ▸ hb)

theorem RepCtx.link {m : Mem} {K : Ctx} {n : Nat} {s : Int} (hcx : RepCtx m K (some n) s)
    (pa : Nat) (h : K.addr = some pa) : (m pa).left = some n ∨ (m pa).right = some n := by
  cases K with
  | top => simp [Ctx.addr] at h
  | inL a v r c =>
    simp only [Ctx.addr, Option.some.injEq] at h
    subst h
    exact Or.inl (by rw [hcx.1])
  | inR l a v c =>
    simp only [Ctx.addr, Option.some.injEq] at h
    subst h
    exact Or.inr (by rw [hcx.1])

theorem rotateRight_rep {m : Mem} {K : Ctx} {A B C : Tree} {n c : Nat} {vn vc : Int}
    (hcx : RepCtx m K (some n) (Tree.node (Tree.node A c vc B) n vn C).size)
    (hT : Rep m K.addr (Tree.node (Tree.node A c vc B) n vn C))
    (hnd : (K.plug (Tree.node (Tree.node A c vc B) n vn C)).addrs.Nodup) :
    ∃ m1, rotateRight m (some n) = .ok m1 ∧
      RepCtx m1 K (some c) (Tree.node A c vc (Tree.node B n vn C)).size ∧
      Rep m1 K.addr (Tree.node A c vc (Tree.node B n vn C)) ∧
      (∀ x, x ∉ (K.plug (Tree.node (Tree.node A c vc B) n vn C)).addrs → m1 x = m x) := by
  have hnd1 := Ctx.nodup_plug.1 hnd
  rw [List.nodup_append] at hnd1
  obtain ⟨hndT, hndC, hdis⟩ := hnd1
  obtain ⟨hn1, hn2, hndL, hndCt, hdLC⟩ := Tree.nodup_node hndT
  obtain ⟨hc1, hc2, hndA, hndB, hdAB⟩ := Tree.nodup_node hndL
  simp only [Tree.addrs_node, List.mem_append, List.mem_cons, not_or] at hn1
  obtain ⟨hnA, hnc, hnB⟩ := hn1
  obtain ⟨hn, hAB, hC⟩ := hT
  obtain ⟨hc, hA, hB⟩ := hAB
  have hTx : ∀ x, x ∈ (Tree.node (Tree.node A c vc B) n vn C).addrs → x ∉ K.addrs :=
    fun x hx hx2 => hdis hx hx2
  have hcxn : n ∉ K.addrs := hTx n (by simp)
  have hcxc : c ∉ K.addrs := hTx c (by simp)
  have hsz : (Tree.node A c vc (Tree.node B n vn C)).size
      = (Tree.node (Tree.node A c vc B) n vn C).size := by
    simp only [Tree.size_node]; ring
  obtain ⟨m1, hrun, hm1n, hm1c, hm1g, hm1p, hm1f⟩ := rotateRight_raw hn hc hnc
    (fun e => hnB (Tree.root_mem_addrs e)) (fun e => hc2 (Tree.root_mem_addrs e))
    (fun e => hcxn (Ctx.addr_mem e)) (fun e => hcxc (Ctx.addr_mem e))
    (fun x e1 e2 => hTx x (by simp [Tree.root_mem_addrs e2]) (Ctx.addr_mem e1))
    (RepCtx.link hcx)
  refine ⟨m1, hrun, ?_, ?_, ?_⟩
  · rw [hsz]
    refine RepCtx.rehole hcx hndC hcxn hm1p ?_
    intro x hx hxa
    refine hm1f x ?_ ?_ ?_ hxa
    · intro e; exact hcxn (e ▸ hx)
    · intro e; exact hcxc (e ▸ hx)
    · intro e; exact hTx x (by simp [Tree.root_mem_addrs e]) hx
  · refine ⟨?_, ?_, ?_, ?_, ?_⟩
    · rw [hm1c]
      simp only [Tree.size_node, Tree.root_node, Node.mk.injEq, and_true, true_and]
      ring
    · refine Rep.congr (fun x hx => hm1f x ?_ ?_ ?_ ?_) hA
      · intro e; exact hnA (e ▸ hx)
      · intro e; exact hc1 (e ▸ hx)
      · intro e; exact hdAB x hx (Tree.root_mem_addrs e)
      · intro e; exact hTx x (by simp [hx]) (Ctx.addr_mem e)
    · rw [hm1n, Rep.counter_root hB]
      simp only [Tree.size_node, Tree.root_node, Node.mk.injEq, and_true, true_and]
      ring
    · refine Rep.move hB hndB hm1g ?_
      intro x hx hxr
      refine hm1f x ?_ ?_ (fun e => hxr e) ?_
      · intro e; exact hnB (e ▸ hx)
      · intro e; exact hc2 (e ▸ hx)
      · intro e; exact hTx x (by simp [hx]) (Ctx.addr_mem e)
    · refine Rep.congr (fun x hx => hm1f x ?_ ?_ ?_ ?_) hC
      · intro e; exact hn2 (e ▸ hx)
      · intro e; exact hdLC c (by simp) (e ▸ hx)
      · intro e; exact hdLC x (by simp [Tree.root_mem_addrs e]) hx
      · intro e; exact hTx x (by simp [hx]) (Ctx.addr_mem e)
  · intro x hx
    rw [Ctx.mem_addrs_plug, not_or] at hx
    obtain ⟨hx1, hx2⟩ := hx
    simp only [Tree.addrs_node, List.mem_append, List.mem_cons, not_or] at hx1
    refine hm1f x hx1.2.1 hx1.1.2.1 ?_ ?_
    · intro e; exact hx1.1.2.2 (Tree.root_mem_addrs e)
    · intro e; exact hx2 (Ctx.addr_mem e)


theorem rotateLeft_rep {m : Mem} {K : Ctx} {A B C : Tree} {n c : Nat} {vn vc : Int}
    (hcx : RepCtx m K (some n) (Tree.node A n vn (Tree.node B c vc C)).size)
    (hT : Rep m K.addr (Tree.node A n vn (Tree.node B c vc C)))
    (hnd : (K.plug (Tree.node A n vn (Tree.node B c vc C))).addrs.Nodup) :
    ∃ m1, rotateLeft m (some n) = .ok m1 ∧
      RepCtx m1 K (some c) (Tree.node (Tree.node A n vn B) c vc C).size ∧
      Rep m1 K.addr (Tree.node (Tree.node A n vn B) c vc C) ∧
      (∀ x, x ∉ (K.plug (Tree.node A n vn (Tree.node B c vc C))).addrs → m1 x = m x) := by
  have hnd1 := Ctx.nodup_plug.1 hnd
  rw [List.nodup_append] at hnd1
  obtain ⟨hndT, hndC, hdis⟩ := hnd1
  obtain ⟨hn1, hn2, hndA, hndR, hdAR⟩ := Tree.nodup_node hndT
  obtain ⟨hc1, hc2, hndB, hndCt, hdBC⟩ := Tree.nodup_node hndR
  simp only [Tree.addrs_node, List.mem_append, List.mem_cons, not_or] at hn2
  obtain ⟨hnB, hnc, hnC⟩ := hn2
  obtain ⟨hn, hA, hBC⟩ := hT
  obtain ⟨hc, hB, hC⟩ := hBC
  have hTx : ∀ x, x ∈ (Tree.node A n vn (Tree.node B c vc C)).addrs → x ∉ K.addrs :=
    fun x hx hx2 => hdis hx hx2
  have hcxn : n ∉ K.addrs := hTx n (by simp)
  have hcxc : c ∉ K.addrs := hTx c (by simp)
  have hsz : (Tree.node (Tree.node A n vn B) c vc C).size
      = (Tree.node A n vn (Tree.node B c vc C)).size := by
    simp only [Tree.size_node]; ring
  obtain ⟨m1, hrun, hm1n, hm1c, hm1g, hm1p, hm1f⟩ := rotateLeft_raw hn hc hnc
    (fun e => hnB (Tree.root_mem_addrs e)) (fun e => hc1 (Tree.root_mem_addrs e))
    (fun e => hcxn (Ctx.addr_mem e)) (fun e => hcxc (Ctx.addr_mem e))
    (fun x e1 e2 => hTx x (by simp [Tree.root_mem_addrs e2]) (Ctx.addr_mem e1))
    (RepCtx.link hcx)
  refine ⟨m1, hrun, ?_, ?_, ?_⟩
  · rw [hsz]
    refine RepCtx.rehole hcx hndC hcxn hm1p ?_
    intro x hx hxa
    refine hm1f x ?_ ?_ ?_ hxa
    · intro e; exact hcxn (e ▸ hx)
    · intro e; exact hcxc (e ▸ hx)
    · intro e; exact hTx x (by simp [Tree.root_mem_addrs e]) hx
  · refine ⟨?_, ⟨?_, ?_, ?_⟩, ?_⟩
    · rw [hm1c]
      simp only [Tree.size_node, Tree.root_node, Node.mk.injEq, and_true, true_and]
      ring
    · rw [hm1n, Rep.counter_root hB]
      simp only [Tree.size_node, Tree.root_node, Node.mk.injEq, and_true, true_and]
      ring
    · refine Rep.congr (fun x hx => hm1f x ?_ ?_ ?_ ?_) hA
      · intro e; exact hn1 (e ▸ hx)
      · intro e; exact hdAR x hx (by rw [e]; simp)
      · intro e; exact hdAR x hx (by simp [Tree.root_mem_addrs e])
      · intro e; exact hTx x (by simp [hx]) (Ctx.addr_mem e)
    · refine Rep.move hB hndB hm1g ?_
      intro x hx hxr
      refine hm1f x ?_ ?_ (fun e => hxr e) ?_
      · intro e; exact hnB (e ▸ hx)
      · intro e; exact hc1 (e ▸ hx)
      · intro e; exact hTx x (by simp [hx]) (Ctx.addr_mem e)
    · refine Rep.congr (fun x hx => hm1f x ?_ ?_ ?_ ?_) hC
      · intro e; exact hnC (e ▸ hx)
      · intro e; exact hc2 (e ▸ hx)
      · intro e; exact hdBC x (Tree.root_mem_addrs e) hx
      · intro e; exact hTx x (by simp [hx]) (Ctx.addr_mem e)
  · intro x hx
    rw [Ctx.mem_addrs_plug, not_or] at hx
    obtain ⟨hx1, hx2⟩ := hx
    simp only [Tree.addrs_node, List.mem_append, List.mem_cons, not_or] at hx1
    refine hm1f x hx1.2.1 hx1.2.2.2.1 ?_ ?_
    · intro e; exact hx1.2.2.1 (Tree.root_mem_addrs e)
    · intro e; exact hx2 (Ctx.addr_mem e)

theorem stitch_left_rep {m : Mem} {L R rp : Tree} {x p : Nat} {vx vp : Int}
    (hT : Rep m none (Tree.node (Tree.node L x vx R) p vp rp))
    (hnd : (Tree.node (Tree.node L x vx R) p vp rp).addrs.Nodup) :
    ∃ m1, stitch m (some x) = .ok m1 ∧
      Rep m1 none (Tree.node L x vx (Tree.node R p vp rp)) ∧
      (∀ y, y ∉ (Tree.node (Tree.node L x vx R) p vp rp).addrs → m1 y = m y) := by
  obtain ⟨hp1, hp2, hndX, hndrp, hdX⟩ := Tree.nodup_node hnd
  obtain ⟨hx1, hx2, hndL, hndR, hdLR⟩ := Tree.nodup_node hndX
  simp only [Tree.addrs_node, List.mem_append, List.mem_cons, not_or] at hp1
  obtain ⟨hpL, hpx, hpR⟩ := hp1
  obtain ⟨hp, hX, hrp⟩ := hT
  obtain ⟨hx, hL, hR⟩ := hX
  obtain ⟨m1, hrun, hm1x, hm1p, hm1g, hm1f⟩ := stitch_left_raw hx hp (fun e => hpx e.symm)
    (fun e => hx2 (Tree.root_mem_addrs e)) (fun e => hpR (Tree.root_mem_addrs e))
  refine ⟨m1, hrun, ⟨?_, ?_, ?_, ?_, ?_⟩, ?_⟩
  · rw [hm1x]
    simp only [Tree.size_node, Tree.root_node, Node.mk.injEq, and_true, true_and]
    ring
  · refine Rep.congr (fun y hy => hm1f y ?_ ?_ ?_) hL
    · intro e; exact hx1 (e ▸ hy)
    · intro e; exact hpL (e ▸ hy)
    · intro e; exact hdLR y hy (Tree.root_mem_addrs e)
  · rw [hm1p, Rep.counter_root hR]
    simp only [Tree.size_node, Tree.root_node, Node.mk.injEq, and_true, true_and]
    ring
  · refine Rep.move hR hndR hm1g ?_
    intro y hy hyr
    refine hm1f y ?_ ?_ (fun e => hyr e)
    · intro e; exact hx2 (e ▸ hy)
    · intro e; exact hpR (e ▸ hy)
  · refine Rep.congr (fun y hy => hm1f y ?_ ?_ ?_) hrp
    · intro e; exact hdX x (by simp) (e ▸ hy)
    · intro e; exact hp2 (e ▸ hy)
    · intro e; exact hdX y (by simp [Tree.root_mem_addrs e]) hy
  · intro y hy
    simp only [Tree.addrs_node, List.mem_append, List.mem_cons, not_or] at hy
    refine hm1f y hy.1.2.1 hy.2.1 ?_
    intro e; exact hy.1.2.2 (Tree.root_mem_addrs e)

theorem stitch_right_rep {m : Mem} {L R lp : Tree} {x p : Nat} {vx vp : Int}
    (hT : Rep m none (Tree.node lp p vp (Tree.node L x vx R)))
    (hnd : (Tree.node lp p vp (Tree.node L x vx R)).addrs.Nodup) :
    ∃ m1, stitch m (some x) = .ok m1 ∧
      Rep m1 none (Tree.node (Tree.node lp p vp L) x vx R) ∧
      (∀ y, y ∉ (Tree.node lp p vp (Tree.node L x vx R)).addrs → m1 y = m y) := by
  obtain ⟨hp1, hp2, hndlp, hndX, hdX⟩ := Tree.nodup_node hnd
  obtain ⟨hx1, hx2, hndL, hndR, hdLR⟩ := Tree.nodup_node hndX
  simp only [Tree.addrs_node, List.mem_append, List.mem_cons, not_or] at hp2
  obtain ⟨hpL, hpx, hpR⟩ := hp2
  obtain ⟨hp, hlp, hX⟩ := hT
  obtain ⟨hx, hL, hR⟩ := hX
  obtain ⟨m1, hrun, hm1x, hm1p, hm1g, hm1f⟩ := stitch_right_raw hx hp
    (fun e => hdX x (Tree.root_mem_addrs e) (by simp)) (fun e => hpx e.symm)
    (fun e => hx1 (Tree.root_mem_addrs e)) (fun e => hpL (Tree.root_mem_addrs e))
  refine ⟨m1, hrun, ⟨?_, ⟨?_, ?_, ?_⟩, ?_⟩, ?_⟩
  · rw [hm1x]
    simp only [Tree.size_node, Tree.root_node, Node.mk.injEq, and_true, true_and]
    ring
  · rw [hm1p, Rep.counter_root hL]
    simp only [Tree.size_node, Tree.root_node, Node.mk.injEq, and_true, true_and]
    ring
  · refine Rep.congr (fun y hy => hm1f y ?_ ?_ ?_) hlp
    · intro e; exact hdX y hy (by rw [e]; simp)
    · intro e; exact hp1 (e ▸ hy)
    · intro e; exact hdX y hy (by simp [Tree.root_mem_addrs e])
  · refine Rep.move hL hndL hm1g ?_
    intro y hy hyr
    refine hm1f y ?_ ?_ (fun e => hyr e)
    · intro e; exact hx1 (e ▸ hy)
    · intro e; exact hpL (e ▸ hy)
  · refine Rep.congr (fun y hy => hm1f y ?_ ?_ ?_) hR
    · intro e; exact hx2 (e ▸ hy)
    · intro e; exact hpR (e ▸ hy)
    · intro e; exact hdLR y (Tree.root_mem_addrs e) hy
  · intro y hy
    simp only [Tree.addrs_node, List.mem_append, List.mem_cons, not_or] at hy
    refine hm1f y hy.2.2.2.1 hy.2.1 ?_
    intro e; exact hy.2.2.1 (Tree.root_mem_addrs e)

theorem zigzig_left_step {m : Mem} {K : Ctx} {L R rp rg : Tree} {x p g : Nat}
    {vx vp vg : Int}
    (hcx : RepCtx m K (some g)
      (Tree.node (Tree.node (Tree.node L x vx R) p vp rp) g vg rg).size)
    (hT : Rep m K.addr (Tree.node (Tree.node (Tree.node L x vx R) p vp rp) g vg rg))
    (hnd : (K.plug (Tree.node (Tree.node (Tree.node L x vx R) p vp rp) g vg rg)).addrs.Nodup) :
    ∃ m2, splayStep m x p = .ok m2 ∧
      RepCtx m2 K (some x) (Tree.node L x vx (Tree.node R p vp (Tree.node rp g vg rg))).size ∧
      Rep m2 K.addr (Tree.node L x vx (Tree.node R p vp (Tree.node rp g vg rg))) ∧
      (∀ y, y ∉ (K.plug (Tree.node (Tree.node (Tree.node L x vx R) p vp rp) g vg rg)).addrs →
        m2 y = m y) := by
  obtain ⟨m1, hr1, hc1, hT1, hf1⟩ := rotateRight_rep hcx hT hnd
  have hcells1 : (Tree.node (Tree.node L x vx R) p vp (Tree.node rp g vg rg)).cells
      = (Tree.node (Tree.node (Tree.node L x vx R) p vp rp) g vg rg).cells := by simp
  have hnd1 := hnd
  rw [← Ctx.addrs_plug_eq (K := K) hcells1] at hnd1
  obtain ⟨m2, hr2, hc2, hT2, hf2⟩ := rotateRight_rep hc1 hT1 hnd1
  have hg := hT.1
  have hp := hT.2.1.1
  have hx := hT.2.1.2.1.1
  refine ⟨m2, ?_, hc2, hT2, ?_⟩
  · have hxl : isLeft m x = true := by simp [isLeft, hx, hp]
    have hpl : isLeft m p = true := by simp [isLeft, hp, hg]
    simp only [splayStep, hxl, hpl, Bool.and_self, Bool.true_or, if_true, straightStitch]
    rw [hx]
    simp only [hp, hr1, hr2, if_true]
  · intro y hy
    rw [hf2 y (by rw [Ctx.addrs_plug_eq hcells1]; exact hy), hf1 y hy]


theorem zigzig_right_step {m : Mem} {K : Ctx} {L R lp lg : Tree} {x p g : Nat}
    {vx vp vg : Int}
    (hcx : RepCtx m K (some g)
      (Tree.node lg g vg (Tree.node lp p vp (Tree.node L x vx R))).size)
    (hT : Rep m K.addr (Tree.node lg g vg (Tree.node lp p vp (Tree.node L x vx R))))
    (hnd : (K.plug (Tree.node lg g vg (Tree.node lp p vp (Tree.node L x vx R)))).addrs.Nodup) :
    ∃ m2, splayStep m x p = .ok m2 ∧
      RepCtx m2 K (some x) (Tree.node (Tree.node (Tree.node lg g vg lp) p vp L) x vx R).size ∧
      Rep m2 K.addr (Tree.node (Tree.node (Tree.node lg g vg lp) p vp L) x vx R) ∧
      (∀ y, y ∉ (K.plug (Tree.node lg g vg (Tree.node lp p vp (Tree.node L x vx R)))).addrs →
        m2 y = m y) := by
  obtain ⟨m1, hr1, hc1, hT1, hf1⟩ := rotateLeft_rep hcx hT hnd
  have hcells1 : (Tree.node (Tree.node lg g vg lp) p vp (Tree.node L x vx R)).cells
      = (Tree.node lg g vg (Tree.node lp p vp (Tree.node L x vx R))).cells := by simp
  have hnd1 := hnd
  rw [← Ctx.addrs_plug_eq (K := K) hcells1] at hnd1
  obtain ⟨m2, hr2, hc2, hT2, hf2⟩ := rotateLeft_rep hc1 hT1 hnd1
  have hnd2 := (List.nodup_append.1 (Ctx.nodup_plug.1 hnd)).1
  obtain ⟨_, _, _, hndP, hdg⟩ := Tree.nodup_node hnd2
  obtain ⟨_, _, _, _, hdp⟩ := Tree.nodup_node hndP
  have hg := hT.1
  have hp := hT.2.2.1
  have hx := hT.2.2.2.2.1
  have hlpx : lp.root ≠ some x := fun e => hdp x (Tree.root_mem_addrs e) (by simp)
  have hlgp : lg.root ≠ some p := fun e => hdg p (Tree.root_mem_addrs e) (by simp)
  refine ⟨m2, ?_, hc2, hT2, ?_⟩
  · have hxl : isLeft m x = false := by simp [isLeft, hx, hp, hlpx]
    have hxr : isRight m x = true := by simp [isRight, hx, hp]
    have hpr : isRight m p = true := by simp [isRight, hp, hg]
    simp only [splayStep, hxl, hxr, hpr, Bool.and_self, Bool.and_false, Bool.false_or,
      if_true, straightStitch]
    rw [hx]
    simp only [hp, hr1, hr2, if_false, Bool.false_eq_true]
  · intro y hy
    rw [hf2 y (by rw [Ctx.addrs_plug_eq hcells1]; exact hy), hf1 y hy]

theorem zigzag_lr_step {m : Mem} {K : Ctx} {L R lp rg : Tree} {x p g : Nat}
    {vx vp vg : Int}
    (hcx : RepCtx m K (some g)
      (Tree.node (Tree.node lp p vp (Tree.node L x vx R)) g vg rg).size)
    (hT : Rep m K.addr (Tree.node (Tree.node lp p vp (Tree.node L x vx R)) g vg rg))
    (hnd : (K.plug (Tree.node (Tree.node lp p vp (Tree.node L x vx R)) g vg rg)).addrs.Nodup) :
    ∃ m2, splayStep m x p = .ok m2 ∧
      RepCtx m2 K (some x) (Tree.node (Tree.node lp p vp L) x vx (Tree.node R g vg rg)).size ∧
      Rep m2 K.addr (Tree.node (Tree.node lp p vp L) x vx (Tree.node R g vg rg)) ∧
      (∀ y, y ∉ (K.plug (Tree.node (Tree.node lp p vp (Tree.node L x vx R)) g vg rg)).addrs →
        m2 y = m y) := by
  have hg := hT.1
  have hp := hT.2.1.1
  have hx := hT.2.1.2.2.1
  -- first rotation: rotateLeft at p, inside the context extended by g
  have hcxg : RepCtx m (Ctx.inL g vg rg K) (some p)
      (Tree.node lp p vp (Tree.node L x vx R)).size := ⟨hg, hT.2.2, hcx⟩
  obtain ⟨m1, hr1, hc1, hT1, hf1⟩ := rotateLeft_rep (K := Ctx.inL g vg rg K) hcxg hT.2.1 hnd
  obtain ⟨hg1, hrg1, hcx1⟩ := hc1
  have hT1g : Rep m1 K.addr (Tree.node (Tree.node (Tree.node lp p vp L) x vx R) g vg rg) :=
    ⟨hg1, hT1, hrg1⟩
  have hcells1 : (Tree.node (Tree.node (Tree.node lp p vp L) x vx R) g vg rg).cells
      = (Tree.node (Tree.node lp p vp (Tree.node L x vx R)) g vg rg).cells := by simp
  have hnd1 := hnd
  rw [← Ctx.addrs_plug_eq (K := K) hcells1] at hnd1
  obtain ⟨m2, hr2, hc2, hT2, hf2⟩ := rotateRight_rep hcx1 hT1g hnd1
  have hnd2 := (List.nodup_append.1 (Ctx.nodup_plug.1 hnd)).1
  obtain ⟨_, _, hndP, _, hdg⟩ := Tree.nodup_node hnd2
  obtain ⟨_, _, _, _, hdp⟩ := Tree.nodup_node hndP
  have hlpx : lp.root ≠ some x := fun e => hdp x (Tree.root_mem_addrs e) (by simp)
  have hrgp : rg.root ≠ some p := fun e => hdg p (by simp) (Tree.root_mem_addrs e)
  refine ⟨m2, ?_, hc2, hT2, ?_⟩
  · have hxl : isLeft m x = false := by simp [isLeft, hx, hp, hlpx]
    have hpl : isLeft m p = true := by simp [isLeft, hp, hg]
    have hpr : isRight m p = false := by simp [isRight, hp, hg, hrgp]
    simp only [splayStep, hxl, hpl, hpr, Bool.and_self, Bool.and_false, Bool.false_or,
      Bool.false_and, if_false, Bool.false_eq_true, crossStitch]
    rw [hx]
    simp only [hp, hr1, hr2, if_false, Bool.false_eq_true]
  · intro y hy
    rw [hf2 y (by rw [Ctx.addrs_plug_eq hcells1]; exact hy), hf1 y hy]


theorem zigzag_rl_step {m : Mem} {K : Ctx} {L R rp lg : Tree} {x p g : Nat}
    {vx vp vg : Int}
    (hcx : RepCtx m K (some g)
      (Tree.node lg g vg (Tree.node (Tree.node L x vx R) p vp rp)).size)
    (hT : Rep m K.addr (Tree.node lg g vg (Tree.node (Tree.node L x vx R) p vp rp)))
    (hnd : (K.plug (Tree.node lg g vg (Tree.node (Tree.node L x vx R) p vp rp))).addrs.Nodup) :
    ∃ m2, splayStep m x p = .ok m2 ∧
      RepCtx m2 K (some x) (Tree.node (Tree.node lg g vg L) x vx (Tree.node R p vp rp)).size ∧
      Rep m2 K.addr (Tree.node (Tree.node lg g vg L) x vx (Tree.node R p vp rp)) ∧
      (∀ y, y ∉ (K.plug (Tree.node lg g vg (Tree.node (Tree.node L x vx R) p vp rp))).addrs →
        m2 y = m y) := by
  have hg := hT.1
  have hp := hT.2.2.1
  have hx := hT.2.2.2.1.1
  have hcxg : RepCtx m (Ctx.inR lg g vg K) (some p)
      (Tree.node (Tree.node L x vx R) p vp rp).size := ⟨hg, hT.2.1, hcx⟩
  obtain ⟨m1, hr1, hc1, hT1, hf1⟩ := rotateRight_rep (K := Ctx.inR lg g vg K) hcxg hT.2.2 hnd
  obtain ⟨hg1, hlg1, hcx1⟩ := hc1
  have hT1g : Rep m1 K.addr (Tree.node lg g vg (Tree.node L x vx (Tree.node R p vp rp))) :=
    ⟨hg1, hlg1, hT1⟩
  have hcells1 : (Tree.node lg g vg (Tree.node L x vx (Tree.node R p vp rp))).cells
      = (Tree.node lg g vg (Tree.node (Tree.node L x vx R) p vp rp)).cells := by simp
  have hnd1 := hnd
  rw [← Ctx.addrs_plug_eq (K := K) hcells1] at hnd1
  obtain ⟨m2, hr2, hc2, hT2, hf2⟩ := rotateLeft_rep hcx1 hT1g hnd1
  have hnd2 := (List.nodup_append.1 (Ctx.nodup_plug.1 hnd)).1
  obtain ⟨_, _, _, hndP, hdg⟩ := Tree.nodup_node hnd2
  have hlgp : lg.root ≠ some p := fun e => hdg p (Tree.root_mem_addrs e) (by simp)
  refine ⟨m2, ?_, hc2, hT2, ?_⟩
  · have hxl : isLeft m x = true := by simp [isLeft, hx, hp]
    have hpl : isLeft m p = false := by simp [isLeft, hp, hg, hlgp]
    have hxr : isRight m x = false := by
      obtain ⟨_, _, _, _, hdp⟩ := Tree.nodup_node hndP
      have hrpx : rp.root ≠ some x := fun e => hdp x (by simp) (Tree.root_mem_addrs e)
      simp [isRight, hx, hp, hrpx]
    simp only [splayStep, hxl, hpl, hxr, Bool.and_self, Bool.and_false, Bool.false_or,
      Bool.false_and, if_false, Bool.false_eq_true, crossStitch]
    rw [hx]
    simp only [hp, hr1, hr2, if_true]
  · intro y hy
    rw [hf2 y (by rw [Ctx.addrs_plug_eq hcells1]; exact hy), hf1 y hy]

theorem Ctx.cells_plug_eq {K : Ctx} {T T1 : Tree} (h : T1.cells = T.cells) :
    (K.plug T1).cells = (K.plug T).cells := by
  rw [Ctx.cells_plug, Ctx.cells_plug, h]

theorem splayLoop_rep : ∀ (fuel : Nat) (m : Mem) (K : Ctx) (L R : Tree) (x : Nat) (vx : Int),
    K.depth < fuel →
    RepCtx m K (some x) (Tree.node L x vx R).size →
    Rep m K.addr (Tree.node L x vx R) →
    (K.plug (Tree.node L x vx R)).addrs.Nodup →
    ∃ m1 L1 R1, splayLoop fuel m x = .ok m1 ∧ Rep m1 none (Tree.node L1 x vx R1) ∧
      (Tree.node L1 x vx R1).cells = (K.plug (Tree.node L x vx R)).cells ∧
      (∀ y, y ∉ (K.plug (Tree.node L x vx R)).addrs → m1 y = m y) := by
  intro fuel
  induction fuel with
  | zero => intro m K L R x vx h; exact absurd h (Nat.not_lt_zero _)
  | succ fuel ih =>
    intro m K L R x vx hfuel hcx hT hnd
    have hx := hT.1
    cases K with
    | top =>
      refine ⟨m, L, R, ?_, hT, rfl, fun _ _ => rfl⟩
      simp [splayLoop, hx, Ctx.addr]
    | inL p vp rp c1 =>
      obtain ⟨hp, hrp, hc1⟩ := hcx
      cases c1 with
      | top =>
        have hTp : Rep m none (Tree.node (Tree.node L x vx R) p vp rp) := ⟨hp, hT, hrp⟩
        obtain ⟨m1, hrun, hT1, hf1⟩ := stitch_left_rep hTp hnd
        refine ⟨m1, L, Tree.node R p vp rp, ?_, hT1, ?_, hf1⟩
        · simp [splayLoop, hx, hp, Ctx.addr, hrun]
        · simp [Ctx.plug]
      | inL g vg rg c2 =>
        obtain ⟨hg, hrg, hc2⟩ := hc1
        have hTg : Rep m c2.addr (Tree.node (Tree.node (Tree.node L x vx R) p vp rp) g vg rg) :=
          ⟨hg, ⟨hp, hT, hrp⟩, hrg⟩
        obtain ⟨m2, hrun, hc2n, hT2, hf2⟩ := zigzig_left_step hc2 hTg hnd
        have hcells : (Tree.node L x vx (Tree.node R p vp (Tree.node rp g vg rg))).cells
            = (Tree.node (Tree.node (Tree.node L x vx R) p vp rp) g vg rg).cells := by simp
        have hnd2 : (c2.plug (Tree.node L x vx
            (Tree.node R p vp (Tree.node rp g vg rg)))).addrs.Nodup := by
          rw [Ctx.addrs_plug_eq hcells]; exact hnd
        obtain ⟨m3, L1, R1, hrun3, hT3, hc3, hf3⟩ := ih m2 c2 L _ x vx
          (by simp [Ctx.depth] at hfuel; omega) hc2n hT2 hnd2
        refine ⟨m3, L1, R1, ?_, hT3, ?_, ?_⟩
        · simp [splayLoop, hx, hp, Ctx.addr, hrun, hrun3]
        · rw [hc3, Ctx.cells_plug_eq hcells]; rfl
        · intro y hy
          rw [hf3 y (by rw [Ctx.addrs_plug_eq hcells]; exact hy), hf2 y hy]
      | inR lg g vg c2 =>
        obtain ⟨hg, hlg, hc2⟩ := hc1
        have hTg : Rep m c2.addr (Tree.node lg g vg (Tree.node (Tree.node L x vx R) p vp rp)) :=
          ⟨hg, hlg, ⟨hp, hT, hrp⟩⟩
        obtain ⟨m2, hrun, hc2n, hT2, hf2⟩ := zigzag_rl_step hc2 hTg hnd
        have hcells : (Tree.node (Tree.node lg g vg L) x vx (Tree.node R p vp rp)).cells
            = (Tree.node lg g vg (Tree.node (Tree.node L x vx R) p vp rp)).cells := by simp
        have hnd2 : (c2.plug (Tree.node (Tree.node lg g vg L) x vx
            (Tree.node R p vp rp))).addrs.Nodup := by
          rw [Ctx.addrs_plug_eq hcells]; exact hnd
        obtain ⟨m3, L1, R1, hrun3, hT3, hc3, hf3⟩ := ih m2 c2 _ _ x vx
          (by simp [Ctx.depth] at hfuel; omega) hc2n hT2 hnd2
        refine ⟨m3, L1, R1, ?_, hT3, ?_, ?_⟩
        · simp [splayLoop, hx, hp, Ctx.addr, hrun, hrun3]
        · rw [hc3, Ctx.cells_plug_eq hcells]; rfl
        · intro y hy
          rw [hf3 y (by rw [Ctx.addrs_plug_eq hcells]; exact hy), hf2 y hy]
    | inR lp p vp c1 =>
      obtain ⟨hp, hlp, hc1⟩ := hcx
      cases c1 with
      | top =>
        have hTp : Rep m none (Tree.node lp p vp (Tree.node L x vx R)) := ⟨hp, hlp, hT⟩
        obtain ⟨m1, hrun, hT1, hf1⟩ := stitch_right_rep hTp hnd
        refine ⟨m1, Tree.node lp p vp L, R, ?_, hT1, ?_, hf1⟩
        · simp [splayLoop, hx, hp, Ctx.addr, hrun]
        · simp [Ctx.plug]
      | inL g vg rg c2 =>
        obtain ⟨hg, hrg, hc2⟩ := hc1
        have hTg : Rep m c2.addr (Tree.node (Tree.node lp p vp (Tree.node L x vx R)) g vg rg) :=
          ⟨hg, ⟨hp, hlp, hT⟩, hrg⟩
        obtain ⟨m2, hrun, hc2n, hT2, hf2⟩ := zigzag_lr_step hc2 hTg hnd
        have hcells : (Tree.node (Tree.node lp p vp L) x vx (Tree.node R g vg rg)).cells
            = (Tree.node (Tree.node lp p vp (Tree.node L x vx R)) g vg rg).cells := by simp
        have hnd2 : (c2.plug (Tree.node (Tree.node lp p vp L) x vx
            (Tree.node R g vg rg))).addrs.Nodup := by
          rw [Ctx.addrs_plug_eq hcells]; exact hnd
        obtain ⟨m3, L1, R1, hrun3, hT3, hc3, hf3⟩ := ih m2 c2 _ _ x vx
          (by simp [Ctx.depth] at hfuel; omega) hc2n hT2 hnd2
        refine ⟨m3, L1, R1, ?_, hT3, ?_, ?_⟩
        · simp [splayLoop, hx, hp, Ctx.addr, hrun, hrun3]
        · rw [hc3, Ctx.cells_plug_eq hcells]; rfl
        · intro y hy
          rw [hf3 y (by rw [Ctx.addrs_plug_eq hcells]; exact hy), hf2 y hy]
      | inR lg g vg c2 =>
        obtain ⟨hg, hlg, hc2⟩ := hc1
        have hTg : Rep m c2.addr (Tree.node lg g vg (Tree.node lp p vp (Tree.node L x vx R))) :=
          ⟨hg, hlg, ⟨hp, hlp, hT⟩⟩
        obtain ⟨m2, hrun, hc2n, hT2, hf2⟩ := zigzig_right_step hc2 hTg hnd
        have hcells : (Tree.node (Tree.node (Tree.node lg g vg lp) p vp L) x vx R).cells
            = (Tree.node lg g vg (Tree.node lp p vp (Tree.node L x vx R))).cells := by simp
        have hnd2 : (c2.plug (Tree.node (Tree.node (Tree.node lg g vg lp) p vp L)
            x vx R)).addrs.Nodup := by
          rw [Ctx.addrs_plug_eq hcells]; exact hnd
        obtain ⟨m3, L1, R1, hrun3, hT3, hc3, hf3⟩ := ih m2 c2 _ _ x vx
          (by simp [Ctx.depth] at hfuel; omega) hc2n hT2 hnd2
        refine ⟨m3, L1, R1, ?_, hT3, ?_, ?_⟩
        · simp [splayLoop, hx, hp, Ctx.addr, hrun, hrun3]
        · rw [hc3, Ctx.cells_plug_eq hcells]; rfl
        · intro y hy
          rw [hf3 y (by rw [Ctx.addrs_plug_eq hcells]; exact hy), hf2 y hy]

theorem Ctx.length_addrs_plug (K : Ctx) (T : Tree) :
    (K.plug T).cells.length = T.cells.length + (K.before ++ K.after).length := by
  rw [Ctx.cells_plug]
  simp only [List.length_append]
  omega

/-- Go `splay` of a cell of a well-formed tree: the cell becomes the root, the in-order sequence
of cells is unchanged, and nothing outside the tree is written. -/
theorem splay_rep {m : Mem} {t : Tree} {x : Nat} (st : SplayTree) (fuel : Nat)
    (hT : Rep m none t) (hnd : t.addrs.Nodup) (hx : x ∈ t.addrs)
    (hfuel : t.cells.length ≤ fuel) :
    ∃ m1 L1 R1 vx, splay fuel m st (some x) = .ok (m1, { st with root := some x }) ∧
      Rep m1 none (Tree.node L1 x vx R1) ∧
      (Tree.node L1 x vx R1).cells = t.cells ∧
      (∀ y, y ∉ t.addrs → m1 y = m y) := by
  obtain ⟨K, L, R, vx, rfl⟩ := Tree.exists_ctx hx
  obtain ⟨hcx, hX⟩ := (rep_plug K _).1 hT
  have hd : K.depth < fuel := by
    have h1 := Ctx.depth_le K
    have h2 := Ctx.length_addrs_plug K (Tree.node L x vx R)
    simp only [Tree.cells_node, List.length_append, List.length_cons] at h2 hfuel h1
    omega
  obtain ⟨m1, L1, R1, hrun, hT1, hc1, hf1⟩ :=
    splayLoop_rep fuel m K L R x vx hd hcx hX hnd
  have hnd1 : (Tree.node L1 x vx R1).addrs.Nodup := by
    unfold Tree.addrs
    rw [hc1]
    exact hnd
  obtain ⟨hxl, hxr, _, _, _⟩ := Tree.nodup_node hnd1
  refine ⟨upd m1 x { m1 x with parent := none }, L1, R1, vx, ?_,
    Rep.root_parent hT1 none hxl hxr, hc1, ?_⟩
  · simp [splay, hrun, setRoot]
  · intro y hy
    rw [upd_other _ _ _ _ (fun e => hy (by rw [e]; exact hx)), hf1 y hy]

/-! ## Positional search -/

theorem findByPosLoop_rep {m : Mem} : ∀ (t : Tree) (par : Ptr) (fuel k : Nat),
    Rep m par t → t.cells.length < fuel → k < t.cells.length →
    ∃ a v, findByPosLoop fuel m t.root (k : Int) = .ok (some a) ∧
      t.cells.reverse[k]? = some (a, v) := by
  intro t
  induction t with
  | nil => intro par fuel k _ _ hk; simp at hk
  | node l a v r ihl ihr =>
    intro par fuel k hT hfuel hk
    obtain ⟨ha, hl, hr⟩ := hT
    cases fuel with
    | zero => exact absurd hfuel (Nat.not_lt_zero _)
    | succ fuel =>
      simp only [Tree.cells_node, List.length_append, List.length_cons] at hfuel hk
      have hrs : cnt m r.root = (r.cells.length : Int) := by
        rw [Rep.counter_root hr, Tree.size_eq_length]
      simp only [Tree.root_node, findByPosLoop, ha]
      simp only [Tree.cells_node, List.reverse_append, List.reverse_cons, List.append_assoc,
        List.singleton_append]
      by_cases hkr : k < r.cells.length
      · -- the answer is in the right subtree
        obtain ⟨b, w, hrun, hget⟩ := ihr (some a) fuel k hr (by omega) hkr
        cases hrr : r.root with
        | none =>
          have := Tree.root_eq_none hrr
          subst this
          simp at hkr
        | some b0 =>
          rw [hrr] at hrs hrun
          simp only [cnt] at hrs
          have hlt : (k : Int) < (m b0).counter := by rw [hrs]; exact_mod_cast hkr
          refine ⟨b, w, ?_, ?_⟩
          · simp only [hlt, if_true, hrun]
          · rw [List.getElem?_append_left (by simpa using hkr)]
            exact hget
      · by_cases hke : k = r.cells.length
        · refine ⟨a, v, ?_, ?_⟩
          · cases hrr : r.root with
            | none =>
              have := Tree.root_eq_none hrr
              subst this
              simp at hke
              simp [hke]
            | some b0 =>
              rw [hrr] at hrs
              simp only [cnt] at hrs
              simp [hrs, hke]
          · rw [List.getElem?_append_right (by simp; omega)]
            simp [hke]
        · -- the answer is in the left subtree
          have hk2 : k - r.cells.length - 1 < l.cells.length := by omega
          obtain ⟨b, w, hrun, hget⟩ := ihl (some a) fuel (k - r.cells.length - 1) hl
            (by omega) hk2
          have hcast : ((k - r.cells.length - 1 : Nat) : Int)
              = (k : Int) - (r.cells.length : Int) - 1 := by omega
          rw [hcast] at hrun
          refine ⟨b, w, ?_, ?_⟩
          · cases hrr : r.root with
            | none =>
              have := Tree.root_eq_none hrr
              subst this
              simp only [Tree.cells_nil, List.length_nil, Nat.cast_zero, sub_zero] at hrun hke
              have hk0 : ¬ ((k : Int) = 0) := by omega
              simp only [hk0, if_false]
              exact hrun
            | some b0 =>
              rw [hrr] at hrs
              simp only [cnt] at hrs
              have h1 : ¬ ((k : Int) < (m b0).counter) := by rw [hrs]; omega
              have h2 : ¬ ((k : Int) - (m b0).counter = 0) := by rw [hrs]; omega
              simp only [h1, h2, if_false]
              rw [hrs]
              exact hrun
          · rw [List.getElem?_append_right (by simp; omega)]
            simp only [List.length_reverse]
            have : k - r.cells.length = (k - r.cells.length - 1) + 1 := by omega
            rw [this, List.getElem?_cons_succ]
            exact hget

theorem findByPosLoop_neg {m : Mem} : ∀ (t : Tree) (par : Ptr) (fuel : Nat) (pos : Int),
    Rep m par t → t.cells.length < fuel → pos < 0 →
    findByPosLoop fuel m t.root pos = .ok none := by
  intro t
  induction t with
  | nil =>
    intro par fuel pos _ hfuel _
    cases fuel with
    | zero => exact absurd hfuel (Nat.not_lt_zero _)
    | succ fuel => simp [findByPosLoop]
  | node l a v r ihl ihr =>
    intro par fuel pos hT hfuel hpos
    obtain ⟨ha, hl, hr⟩ := hT
    cases fuel with
    | zero => exact absurd hfuel (Nat.not_lt_zero _)
    | succ fuel =>
      simp only [Tree.cells_node, List.length_append, List.length_cons] at hfuel
      simp only [Tree.root_node, findByPosLoop, ha]
      cases hrr : r.root with
      | none =>
        have h0 : ¬ (pos = 0) := by omega
        simp only [h0, if_false]
        exact ihl (some a) fuel (pos - 1) hl (by omega) (by omega)
      | some b0 =>
        have hrs := Rep.counter_root hr
        rw [hrr] at hrs
        simp only [cnt] at hrs
        have hlt : pos < (m b0).counter := by
          rw [hrs]; have := Tree.size_nonneg r; omega
        simp only [hlt, if_true]
        rw [← hrr]
        exact ihr (some a) fuel pos hr (by omega) hpos

/-! ## Sorted in-order sequences -/

theorem Tree.sorted_node {l r : Tree} {a : Nat} {w : Int}
    (h : (Tree.node l a w r).vals.Sorted (· ≤ ·)) :
    l.vals.Sorted (· ≤ ·) ∧ r.vals.Sorted (· ≤ ·) ∧ (∀ x ∈ l.vals, x ≤ w) ∧
      (∀ y ∈ r.vals, w ≤ y) := by
  rw [Tree.vals_node] at h
  obtain ⟨h1, h2, h3⟩ := List.pairwise_append.1 h
  obtain ⟨h4, h5⟩ := List.pairwise_cons.1 h2
  exact ⟨h1, h5, fun x hx => h3 x hx w (by simp), h4⟩

theorem Tree.mem_vals {t : Tree} {e : Nat × Int} (h : e ∈ t.cells) : e.2 ∈ t.vals :=
  List.mem_map_of_mem _ h

theorem Tree.mem_addrs {t : Tree} {e : Nat × Int} (h : e ∈ t.cells) : e.1 ∈ t.addrs :=
  List.mem_map_of_mem _ h

theorem Rep.value_of_mem {m : Mem} {t : Tree} : ∀ {par : Ptr}, Rep m par t →
    ∀ e ∈ t.cells, (m e.1).value = e.2 := by
  induction t with
  | nil => intro par _ e he; simp at he
  | node l a v r ihl ihr =>
    intro par h e he
    obtain ⟨h1, h2, h3⟩ := h
    simp only [Tree.cells_node, List.mem_append, List.mem_cons] at he
    rcases he with he | he | he
    · exact ihl h2 e he
    · subst he; simp [h1]
    · exact ihr h3 e he

theorem Rep.counter_of_mem {m : Mem} {t : Tree} : ∀ {par : Ptr}, Rep m par t →
    ∀ a ∈ t.addrs, (m a).counter = 1 + cnt m (m a).left + cnt m (m a).right := by
  induction t with
  | nil => intro par _ a ha; simp at ha
  | node l a v r ihl ihr =>
    intro par h b hb
    obtain ⟨h1, h2, h3⟩ := h
    simp only [Tree.addrs_node, List.mem_append, List.mem_cons] at hb
    rcases hb with hb | hb | hb
    · exact ihl h2 b hb
    · subst hb
      rw [h1]
      simp only
      rw [Rep.counter_root h2, Rep.counter_root h3]
    · exact ihr h3 b hb

/-! ## Search by value -/

theorem findByValueLoop_rep {m : Mem} (value : Int) : ∀ (t : Tree) (par : Ptr) (fuel : Nat),
    Rep m par t → t.vals.Sorted (· ≤ ·) → t.cells.length < fuel →
    (value ∈ t.vals → ∃ a, findByValueLoop fuel m t.root value = .ok (some a) ∧
      a ∈ t.addrs ∧ (m a).value = value) ∧
    (value ∉ t.vals → findByValueLoop fuel m t.root value = .ok none) := by
  intro t
  induction t with
  | nil =>
    intro par fuel _ _ hfuel
    cases fuel with
    | zero => exact absurd hfuel (Nat.not_lt_zero _)
    | succ fuel => simp [findByValueLoop]
  | node l a w r ihl ihr =>
    intro par fuel hT hs hfuel
    obtain ⟨ha, hl, hr⟩ := hT
    obtain ⟨hsl, hsr, hlw, hrw⟩ := Tree.sorted_node hs
    cases fuel with
    | zero => exact absurd hfuel (Nat.not_lt_zero _)
    | succ fuel =>
      simp only [Tree.cells_node, List.length_append, List.length_cons] at hfuel
      simp only [Tree.root_node, findByValueLoop, ha, Tree.vals_node, List.mem_append,
        List.mem_cons, Tree.addrs_node]
      by_cases hwv : w = value
      · subst hwv
        simp [ha]
      · simp only [ne_eq, hwv, not_false_eq_true, if_true]
        by_cases hlt : w < value
        · simp only [hlt, if_true]
          obtain ⟨ih1, ih2⟩ := ihr (some a) fuel hr hsr (by omega)
          have hnl : value ∉ l.vals := fun h => by have := hlw value h; omega
          constructor
          · intro h
            rcases h with h | h | h
            · exact absurd h hnl
            · exact absurd h.symm hwv
            · obtain ⟨b, hb1, hb2, hb3⟩ := ih1 h
              exact ⟨b, hb1, Or.inr (Or.inr hb2), hb3⟩
          · intro h
            exact ih2 (fun h2 => h (Or.inr (Or.inr h2)))
        · simp only [hlt, if_false]
          obtain ⟨ih1, ih2⟩ := ihl (some a) fuel hl hsl (by omega)
          have hnr : value ∉ r.vals := fun h => by have := hrw value h; omega
          constructor
          · intro h
            rcases h with h | h | h
            · obtain ⟨b, hb1, hb2, hb3⟩ := ih1 h
              exact ⟨b, hb1, Or.inl hb2, hb3⟩
            · exact absurd h.symm hwv
            · exact absurd h hnr
          · intro h
            exact ih2 (fun h2 => h (Or.inl h2))

/-! ## The descent of `split` -/

theorem splitLoop_rep {m : Mem} (value : Int) : ∀ (t : Tree) (par : Ptr) (fuel : Nat) (a : Nat),
    Rep m par t → t.vals.Sorted (· ≤ ·) → t.cells.length ≤ fuel → t.root = some a →
    ∃ x vx pre post, splitLoop fuel m a value = .ok x ∧ t.cells = pre ++ (x, vx) :: post ∧
      (∀ e ∈ pre, e.2 ≤ value) ∧ (∀ e ∈ post, value < e.2) := by
  intro t
  induction t with
  | nil => intro par fuel a _ _ _ h; simp at h
  | node l a w r ihl ihr =>
    intro par fuel a0 hT hs hfuel hroot
    simp only [Tree.root_node, Option.some.injEq] at hroot
    subst hroot
    obtain ⟨ha, hl, hr⟩ := hT
    obtain ⟨hsl, hsr, hlw, hrw⟩ := Tree.sorted_node hs
    simp only [Tree.cells_node, List.length_append, List.length_cons] at hfuel
    cases fuel with
    | zero => omega
    | succ fuel =>
      simp only [splitLoop, ha, gt_iff_lt]
      by_cases hgt : value < w
      · simp only [hgt, if_true]
        have hpost : ∀ e ∈ (a, w) :: r.cells, value < e.2 := by
          intro e he
          simp only [List.mem_cons] at he
          rcases he with he | he
          · subst he; exact hgt
          · have := hrw e.2 (Tree.mem_vals he); omega
        cases hlr : l.root with
        | none =>
          have := Tree.root_eq_none hlr
          subst this
          exact ⟨a, w, [], r.cells, rfl, by simp, by simp, fun e he => hpost e (by simp [he])⟩
        | some b =>
          obtain ⟨x, vx, pre, post, hrun, hc, hpre, hpo⟩ :=
            ihl (some a) fuel b hl hsl (by omega) hlr
          refine ⟨x, vx, pre, post ++ (a, w) :: r.cells, hrun, ?_, hpre, ?_⟩
          · simp [hc]
          · intro e he
            simp only [List.mem_append] at he
            rcases he with he | he
            · exact hpo e he
            · exact hpost e he
      · simp only [hgt, if_false]
        have hpre : ∀ e ∈ l.cells ++ [(a, w)], e.2 ≤ value := by
          intro e he
          simp only [List.mem_append, List.mem_singleton] at he
          rcases he with he | he
          · have := hlw e.2 (Tree.mem_vals he); omega
          · subst he; simp only; omega
        cases hrr : r.root with
        | none =>
          have := Tree.root_eq_none hrr
          subst this
          exact ⟨a, w, l.cells, [], rfl, by simp, fun e he => hpre e (by simp [he]), by simp⟩
        | some b =>
          obtain ⟨x, vx, pre, post, hrun, hc, hpr, hpo⟩ :=
            ihr (some a) fuel b hr hsr (by omega) hrr
          refine ⟨x, vx, l.cells ++ (a, w) :: pre, post, hrun, ?_, ?_, hpo⟩
          · simp [hc]
          · intro e he
            simp only [List.mem_append, List.mem_cons] at he
            rcases he with he | he | he
            · exact hpre e (by simp [he])
            · exact hpre e (by simp [he])
            · exact hpr e he

theorem cells_split_unique : ∀ (l1 l2 r1 r2 : List (Nat × Int)) (x : Nat) (v w : Int),
    l1 ++ (x, v) :: r1 = l2 ++ (x, w) :: r2 →
    ((l1 ++ (x, v) :: r1).map Prod.fst).Nodup → l1 = l2 ∧ v = w ∧ r1 = r2 := by
  intro l1
  induction l1 with
  | nil =>
    intro l2 r1 r2 x v w h hnd
    cases l2 with
    | nil =>
      simp only [List.nil_append, List.cons.injEq, Prod.mk.injEq, true_and] at h
      exact ⟨rfl, h.1, h.2⟩
    | cons e l2 =>
      exfalso
      simp only [List.nil_append, List.cons_append, List.cons.injEq] at h
      obtain ⟨h1, h2⟩ := h
      simp only [List.nil_append, List.map_cons, List.nodup_cons] at hnd
      apply hnd.1
      rw [h2]
      simp
  | cons e l1 ih =>
    intro l2 r1 r2 x v w h hnd
    cases l2 with
    | nil =>
      exfalso
      simp only [List.nil_append, List.cons_append, List.cons.injEq] at h
      obtain ⟨h1, h2⟩ := h
      simp only [List.cons_append, List.map_cons, List.nodup_cons, h1] at hnd
      apply hnd.1
      simp
    | cons e2 l2 =>
      simp only [List.cons_append, List.cons.injEq] at h
      obtain ⟨h1, h2⟩ := h
      simp only [List.cons_append, List.map_cons, List.nodup_cons] at hnd
      obtain ⟨e1, e3, e4⟩ := ih l2 r1 r2 x v w h2 hnd.2
      exact ⟨by rw [h1, e1], e3, e4⟩

theorem setLeft_raw {m : Mem} {n : Nat} {v c : Int} {l0 r p q : Ptr}
    (hn : m n = ⟨v, c, l0, r, p⟩) (hl0 : l0 ≠ some n) (hq : q ≠ some n) :
    ∃ m1, setLeft m (some n) q = .ok m1 ∧
      m1 n = ⟨v, c - cnt m l0 + cnt m q, q, r, p⟩ ∧
      (∀ b, q = some b → m1 b = { m b with parent := some n }) ∧
      (∀ y, y ≠ n → q ≠ some y → m1 y = m y) := by
  cases l0 with
  | none =>
    cases q with
    | none =>
      refine ⟨_, by simp [setLeft, hn, increase, decrease]; rfl, ?_⟩
      simp [cnt]
      intro y hy
      simp [upd_other, hy]
    | some b =>
      have hbn : b ≠ n := fun e => hq (by rw [e])
      have hnb : n ≠ b := fun e => hbn e.symm
      refine ⟨_, by simp [setLeft, hn, increase, decrease, upd_other, hbn, hnb]; rfl, ?_⟩
      simp [cnt, upd_other, hbn, hnb]
      intro y hy hy2
      have := Ne.symm hy2
      simp [upd_other, hy, this]
  | some a =>
    have han : a ≠ n := fun e => hl0 (by rw [e])
    have hna : n ≠ a := fun e => han e.symm
    cases q with
    | none =>
      refine ⟨_, by simp [setLeft, hn, increase, decrease, upd_other, han, hna]; rfl, ?_⟩
      simp [cnt, upd_other, han, hna]
      intro y hy
      simp [upd_other, hy]
    | some b =>
      have hbn : b ≠ n := fun e => hq (by rw [e])
      have hnb : n ≠ b := fun e => hbn e.symm
      refine ⟨_, by simp [setLeft, hn, increase, decrease, upd_other, hbn, hnb, han, hna]; rfl, ?_⟩
      simp [cnt, upd_other, hbn, hnb, han, hna]
      intro y hy hy2
      have := Ne.symm hy2
      simp [upd_other, hy, this]

theorem setRight_raw {m : Mem} {n : Nat} {v c : Int} {l r0 p q : Ptr}
    (hn : m n = ⟨v, c, l, r0, p⟩) (hr0 : r0 ≠ some n) (hq : q ≠ some n) :
    ∃ m1, setRight m (some n) q = .ok m1 ∧
      m1 n = ⟨v, c - cnt m r0 + cnt m q, l, q, p⟩ ∧
      (∀ b, q = some b → m1 b = { m b with parent := some n }) ∧
      (∀ y, y ≠ n → q ≠ some y → m1 y = m y) := by
  cases r0 with
  | none =>
    cases q with
    | none =>
      refine ⟨_, by simp [setRight, hn, increase, decrease]; rfl, ?_⟩
      simp [cnt]
      intro y hy
      simp [upd_other, hy]
    | some b =>
      have hbn : b ≠ n := fun e => hq (by rw [e])
      have hnb : n ≠ b := fun e => hbn e.symm
      refine ⟨_, by simp [setRight, hn, increase, decrease, upd_other, hbn, hnb]; rfl, ?_⟩
      simp [cnt, upd_other, hbn, hnb]
      intro y hy hy2
      have := Ne.symm hy2
      simp [upd_other, hy, this]
  | some a =>
    have han : a ≠ n := fun e => hr0 (by rw [e])
    have hna : n ≠ a := fun e => han e.symm
    cases q with
    | none =>
      refine ⟨_, by simp [setRight, hn, increase, decrease, upd_other, han, hna]; rfl, ?_⟩
      simp [cnt, upd_other, han, hna]
      intro y hy
      simp [upd_other, hy]
    | some b =>
      have hbn : b ≠ n := fun e => hq (by rw [e])
      have hnb : n ≠ b := fun e => hbn e.symm
      refine ⟨_, by simp [setRight, hn, increase, decrease, upd_other, hbn, hnb, han, hna]; rfl, ?_⟩
      simp [cnt, upd_other, hbn, hnb, han, hna]
      intro y hy hy2
      have := Ne.symm hy2
      simp [upd_other, hy, this]

/-- Go `setRoot` as seen through the representation relation: the root of a tree is made
parentless, everything else is untouched. -/
theorem setRoot_rep {m : Mem} {par : Ptr} {t : Tree} (st : SplayTree) (hT : Rep m par t)
    (hnd : t.addrs.Nodup) :
    (setRoot m st t.root).2 = { st with root := t.root } ∧
    Rep (setRoot m st t.root).1 none t ∧
    (∀ y, t.root ≠ some y → (setRoot m st t.root).1 y = m y) ∧
    (∀ b, t.root = some b → (setRoot m st t.root).1 b = { m b with parent := none }) := by
  cases t with
  | nil => simp [setRoot, Rep]
  | node l a v r =>
    obtain ⟨hal, har, _, _, _⟩ := Tree.nodup_node hnd
    refine ⟨rfl, Rep.root_parent hT none hal har, ?_, ?_⟩
    · intro y hy
      simp only [Tree.root_node, setRoot]
      exact upd_other _ _ _ _ (fun e => hy (by subst e; rfl))
    · intro b hb
      simp only [Tree.root_node, Option.some.injEq] at hb
      subst hb
      simp [setRoot]

/-- Cutting the right subtree off the root (the `node.value <= value` arm of `split`). -/
theorem cutRight_rep {m : Mem} {L R : Tree} {x : Nat} {vx : Int}
    (hT : Rep m none (Tree.node L x vx R)) (hnd : (Tree.node L x vx R).addrs.Nodup)
    (lt rt : SplayTree) :
    ∃ m4, setRight (setRoot (setRoot m lt (some x)).1 rt
          ((setRoot m lt (some x)).1 x).right).1 (some x) none = .ok m4 ∧
      ((setRoot m lt (some x)).1 x).right = R.root ∧
      Rep m4 none (Tree.node L x vx Tree.nil) ∧ Rep m4 none R ∧
      (∀ y, y ∉ (Tree.node L x vx R).addrs → m4 y = m y) := by
  obtain ⟨hxl, hxr, hndL, hndR, hdLR⟩ := Tree.nodup_node hnd
  obtain ⟨hx, hL, hR⟩ := hT
  have hRx : R.root ≠ some x := fun e => hxr (Tree.root_mem_addrs e)
  have h2x : (setRoot m lt (some x)).1 x = ⟨vx, 1 + L.size + R.size, L.root, R.root, none⟩ := by
    simp [setRoot, hx]
  have h2o : ∀ y, y ≠ x → (setRoot m lt (some x)).1 y = m y := by
    intro y hy
    simp [setRoot, upd_other, hy]
  have hR2 : Rep (setRoot m lt (some x)).1 (some x) R :=
    Rep.congr (fun y hy => h2o y (fun e => hxr (e ▸ hy))) hR
  obtain ⟨_, hR3, h3o, h3r⟩ := setRoot_rep (m := (setRoot m lt (some x)).1) rt hR2 hndR
  have hr : ((setRoot m lt (some x)).1 x).right = R.root := by rw [h2x]
  rw [hr]
  have h3x : (setRoot (setRoot m lt (some x)).1 rt R.root).1 x
      = ⟨vx, 1 + L.size + R.size, L.root, R.root, none⟩ := by
    rw [h3o x hRx, h2x]
  obtain ⟨m4, hrun, h4x, _, h4o⟩ := setRight_raw (q := none) h3x hRx (by simp)
  have hcnt : cnt (setRoot (setRoot m lt (some x)).1 rt R.root).1 R.root = R.size :=
    Rep.counter_root hR3
  refine ⟨m4, hrun, rfl, ⟨?_, ?_, trivial⟩, ?_, ?_⟩
  · rw [h4x, hcnt]
    simp only [cnt, Tree.size_nil, Tree.root_nil, Node.mk.injEq, and_true, true_and]
    ring
  · refine Rep.congr (fun y hy => ?_) hL
    have hyx : y ≠ x := fun e => hxl (e ▸ hy)
    rw [h4o y hyx (by simp), h3o y (fun e => hdLR y hy (Tree.root_mem_addrs e)), h2o y hyx]
  · refine Rep.congr (fun y hy => ?_) hR3
    exact h4o y (fun e => hxr (e ▸ hy)) (by simp)
  · intro y hy
    simp only [Tree.addrs_node, List.mem_append, List.mem_cons, not_or] at hy
    rw [h4o y hy.2.1 (by simp), h3o y (fun e => hy.2.2 (Tree.root_mem_addrs e)), h2o y hy.2.1]

/-- Cutting the left subtree off the root (the `else` arm of `split`). -/
theorem cutLeft_rep {m : Mem} {L R : Tree} {x : Nat} {vx : Int}
    (hT : Rep m none (Tree.node L x vx R)) (hnd : (Tree.node L x vx R).addrs.Nodup)
    (lt rt : SplayTree) :
    ∃ m4, setLeft (setRoot (setRoot m lt (m x).left).1 rt (some x)).1 (some x) none = .ok m4 ∧
      (m x).left = L.root ∧
      Rep m4 none L ∧ Rep m4 none (Tree.node Tree.nil x vx R) ∧
      (∀ y, y ∉ (Tree.node L x vx R).addrs → m4 y = m y) := by
  obtain ⟨hxl, hxr, hndL, hndR, hdLR⟩ := Tree.nodup_node hnd
  obtain ⟨hx, hL, hR⟩ := hT
  have hLx : L.root ≠ some x := fun e => hxl (Tree.root_mem_addrs e)
  obtain ⟨_, hL2, h2o, h2r⟩ := setRoot_rep (m := m) lt hL hndL
  have hl : (m x).left = L.root := by rw [hx]
  rw [hl]
  have h2x : (setRoot m lt L.root).1 x = ⟨vx, 1 + L.size + R.size, L.root, R.root, none⟩ := by
    rw [h2o x hLx, hx]
  clear h2r
  generalize (setRoot m lt L.root).1 = m2 at h2x hL2 h2o ⊢
  have h3x : (setRoot m2 rt (some x)).1 x
      = ⟨vx, 1 + L.size + R.size, L.root, R.root, none⟩ := by
    simp [setRoot, h2x]
  have h3o : ∀ y, y ≠ x → (setRoot m2 rt (some x)).1 y = m2 y := by
    intro y hy
    simp [setRoot, upd_other, hy]
  obtain ⟨m4, hrun, h4x, _, h4o⟩ := setLeft_raw (q := none) h3x hLx (by simp)
  have hcnt : cnt (setRoot m2 rt (some x)).1 L.root = L.size := by
    have : Rep (setRoot m2 rt (some x)).1 none L :=
      Rep.congr (fun y hy => h3o y (fun e => hxl (e ▸ hy))) hL2
    exact Rep.counter_root this
  refine ⟨m4, hrun, rfl, ?_, ⟨?_, trivial, ?_⟩, ?_⟩
  · refine Rep.congr (fun y hy => ?_) hL2
    have hyx : y ≠ x := fun e => hxl (e ▸ hy)
    rw [h4o y hyx (by simp), h3o y hyx]
  · rw [h4x, hcnt]
    simp only [cnt, Tree.size_nil, Tree.root_nil, Node.mk.injEq, and_true, true_and]
    ring
  · refine Rep.congr (fun y hy => ?_) hR
    have hyx : y ≠ x := fun e => hxr (e ▸ hy)
    rw [h4o y hyx (by simp), h3o y hyx,
      h2o y (fun e => hdLR y (Tree.root_mem_addrs e) hy)]
  · intro y hy
    simp only [Tree.addrs_node, List.mem_append, List.mem_cons, not_or] at hy
    rw [h4o y hy.2.1 (by simp), h3o y hy.2.1,
      h2o y (fun e => hy.1 (Tree.root_mem_addrs e))]

theorem split_eq {fuel : Nat} {m : Mem} {st : SplayTree} {value : Int} {r n : Nat}
    {m1 : Mem} {st1 : SplayTree}
    (hroot : st.root = some r) (hloop : splitLoop fuel m r value = .ok n)
    (hsplay : splay fuel m st (some n) = .ok (m1, st1)) :
    split fuel m st value =
      if (m1 n).value ≤ value then
        match setRight (setRoot (setRoot m1 ConstructSplayTree (some n)).1 ConstructSplayTree
            ((setRoot m1 ConstructSplayTree (some n)).1 n).right).1 (some n) none with
        | .error e => .error e
        | .ok m4 => .ok (m4, { st1 with root := none },
            (setRoot m1 ConstructSplayTree (some n)).2,
            (setRoot (setRoot m1 ConstructSplayTree (some n)).1 ConstructSplayTree
              ((setRoot m1 ConstructSplayTree (some n)).1 n).right).2)
      else
        match setLeft (setRoot (setRoot m1 ConstructSplayTree (m1 n).left).1
            ConstructSplayTree (some n)).1 (some n) none with
        | .error e => .error e
        | .ok m4 => .ok (m4, { st1 with root := none },
            (setRoot m1 ConstructSplayTree (m1 n).left).2,
            (setRoot (setRoot m1 ConstructSplayTree (m1 n).left).1
              ConstructSplayTree (some n)).2) := by
  simp only [split, hroot, hloop, hsplay]
  rfl

theorem split_rep {m : Mem} {t : Tree} (st : SplayTree) (value : Int) (fuel : Nat)
    (hT : Rep m none t) (hroot : st.root = t.root) (hnd : t.addrs.Nodup)
    (hs : t.vals.Sorted (· ≤ ·)) (hfuel : t.cells.length ≤ fuel) :
    ∃ m1 TL TR, split fuel m st value =
        .ok (m1, { st with root := none }, { ConstructSplayTree with root := TL.root },
          { ConstructSplayTree with root := TR.root }) ∧
      Rep m1 none TL ∧ Rep m1 none TR ∧ TL.cells ++ TR.cells = t.cells ∧
      (∀ e ∈ TL.cells, e.2 ≤ value) ∧ (∀ e ∈ TR.cells, value < e.2) ∧
      (∀ y, y ∉ t.addrs → m1 y = m y) := by
  cases t with
  | nil =>
    refine ⟨m, Tree.nil, Tree.nil, ?_, trivial, trivial, rfl, by simp, by simp, fun _ _ => rfl⟩
    simp only [Tree.root_nil] at hroot
    simp only [split, hroot, Tree.root_nil]
    cases st
    simp only at hroot
    subst hroot
    rfl
  | node l0 a0 w0 r0 =>
    simp only [Tree.root_node] at hroot
    obtain ⟨x, vx, pre, post, hloop, hcells, hpre, hpost⟩ :=
      splitLoop_rep value _ none fuel a0 hT hs hfuel rfl
    have hx : x ∈ (Tree.node l0 a0 w0 r0).addrs := by
      unfold Tree.addrs; rw [hcells]; simp
    obtain ⟨m1, L1, R1, vx1, hsplay, hT1, hc1, hf1⟩ := splay_rep st fuel hT hnd hx hfuel
    have hnd1 : (Tree.node L1 x vx1 R1).addrs.Nodup := by
      unfold Tree.addrs; rw [hc1]; exact hnd
    have hu := cells_split_unique L1.cells pre R1.cells post x vx1 vx
      (by rw [← hcells, ← hc1]; simp) (by
        have := hnd1
        unfold Tree.addrs at this
        simpa using this)
    obtain ⟨hL1, hv, hR1⟩ := hu
    subst hv
    have hval : (m1 x).value = vx1 := by rw [hT1.1]
    have hfr : ∀ (m4 : Mem), (∀ y, y ∉ (Tree.node L1 x vx1 R1).addrs → m4 y = m1 y) →
        ∀ y, y ∉ (Tree.node l0 a0 w0 r0).addrs → m4 y = m y := by
      intro m4 h4 y hy
      rw [h4 y (by unfold Tree.addrs at hy ⊢; rw [hc1]; exact hy), hf1 y hy]
    rw [split_eq hroot hloop hsplay, hval]
    by_cases hle : vx1 ≤ value
    · obtain ⟨m4, hrun, hrr, hTL, hTR, hf4⟩ :=
        cutRight_rep hT1 hnd1 ConstructSplayTree ConstructSplayTree
      refine ⟨m4, Tree.node L1 x vx1 Tree.nil, R1, ?_, hTL, hTR, ?_, ?_, ?_, hfr m4 hf4⟩
      · rw [hrr] at hrun
        simp only [hle, if_true, hrr, hrun]
        cases R1 <;> rfl
      · rw [hcells, ← hL1, ← hR1]; simp
      · intro e he
        simp only [Tree.cells_node, Tree.cells_nil, List.mem_append, List.mem_singleton,
          List.mem_cons, List.not_mem_nil, or_false] at he
        rcases he with he | he
        · exact hpre e (hL1 ▸ he)
        · subst he; exact hle
      · intro e he
        exact hpost e (hR1 ▸ he)
    · obtain ⟨m4, hrun, hrr, hTL, hTR, hf4⟩ :=
        cutLeft_rep hT1 hnd1 ConstructSplayTree ConstructSplayTree
      refine ⟨m4, L1, Tree.node Tree.nil x vx1 R1, ?_, hTL, hTR, ?_, ?_, ?_, hfr m4 hf4⟩
      · rw [hrr] at hrun
        simp only [hle, if_false, hrr, hrun]
        cases L1 <;> rfl
      · rw [hcells, ← hL1, ← hR1]; simp
      · intro e he
        exact hpre e (hL1 ▸ he)
      · intro e he
        simp only [Tree.cells_node, Tree.cells_nil, List.nil_append, List.mem_cons] at he
        rcases he with he | he
        · subst he; simp only; omega
        · exact hpost e (hR1 ▸ he)

theorem filter_partition {α : Type} (p : α → Bool) : ∀ (l1 l2 : List α),
    (∀ e ∈ l1, p e = true) → (∀ e ∈ l2, p e = false) →
    (l1 ++ l2).filter p = l1 ∧ (l1 ++ l2).filter (fun e => !p e) = l2 := by
  intro l1 l2 h1 h2
  rw [List.filter_append, List.filter_append]
  have a1 : l1.filter p = l1 := List.filter_eq_self.2 h1
  have a2 : l2.filter p = [] := List.filter_eq_nil_iff.2 (fun e he => by simp [h2 e he])
  have a3 : l1.filter (fun e => !p e) = [] :=
    List.filter_eq_nil_iff.2 (fun e he => by simp [h1 e he])
  have a4 : l2.filter (fun e => !p e) = l2 := List.filter_eq_self.2 (fun e he => by simp [h2 e he])
  rw [a1, a2, a3, a4]
  simp

/-- Go `add` of a fresh cell to a well-formed tree. -/
theorem add_rep {m : Mem} {t : Tree} (st : SplayTree) (a : Nat) (v : Int) (fuel : Nat)
    (hT : Rep m none t) (hroot : st.root = t.root) (hnd : t.addrs.Nodup)
    (hs : t.vals.Sorted (· ≤ ·)) (hfuel : t.cells.length ≤ fuel)
    (ha : m a = ConstructNode v) (hat : a ∉ t.addrs) :
    ∃ m1 TL TR, add fuel m st (some a) = .ok (m1, { st with root := some a }, TR.size) ∧
      Rep m1 none (Tree.node TL a v TR) ∧ TL.cells ++ TR.cells = t.cells ∧
      (∀ e ∈ TL.cells, e.2 ≤ v) ∧ (∀ e ∈ TR.cells, v < e.2) ∧
      (∀ y, y ∉ t.addrs → y ≠ a → m1 y = m y) := by
  obtain ⟨m1, TL, TR, hrun, hTL, hTR, hcells, hle, hgt, hf1⟩ :=
    split_rep st v fuel hT hroot hnd hs hfuel
  have hndLR : (TL.addrs ++ TR.addrs).Nodup := by
    unfold Tree.addrs
    rw [← List.map_append, hcells]
    exact hnd
  obtain ⟨hndL, hndR, hdis⟩ := List.nodup_append.1 hndLR
  have haL : a ∉ TL.addrs := fun h => hat (by
    unfold Tree.addrs at h ⊢; rw [← hcells]; simp [h])
  have haR : a ∉ TR.addrs := fun h => hat (by
    unfold Tree.addrs at h ⊢; rw [← hcells]; simp [h])
  have h1a : m1 a = ⟨v, 1, none, none, none⟩ := by rw [hf1 a hat, ha]; rfl
  -- setRoot
  have h2a : upd m1 a { m1 a with parent := none } a = ⟨v, 1, none, none, none⟩ := by
    rw [upd_same, h1a]
  have h2o : ∀ y, y ≠ a → upd m1 a { m1 a with parent := none } y = m1 y :=
    fun y hy => upd_other _ _ _ _ hy
  have hTL2 : Rep (upd m1 a { m1 a with parent := none }) none TL :=
    Rep.congr (fun y hy => h2o y (fun e => haL (e ▸ hy))) hTL
  have hTR2 : Rep (upd m1 a { m1 a with parent := none }) none TR :=
    Rep.congr (fun y hy => h2o y (fun e => haR (e ▸ hy))) hTR
  -- setLeft
  obtain ⟨m3, hrun3, h3a, h3r, h3o⟩ := setLeft_raw (q := TL.root) h2a (by simp)
    (fun e => haL (Tree.root_mem_addrs e))
  have hTL3 : Rep m3 (some a) TL := Rep.move hTL2 hndL h3r
    (fun y hy hyr => h3o y (fun e => haL (e ▸ hy)) hyr)
  have hTR3 : Rep m3 none TR := Rep.congr (fun y hy => h3o y (fun e => haR (e ▸ hy))
    (fun e => hdis (Tree.root_mem_addrs e) hy)) hTR2
  -- setRight
  obtain ⟨m4, hrun4, h4a, h4r, h4o⟩ := setRight_raw (q := TR.root) h3a (by simp)
    (fun e => haR (Tree.root_mem_addrs e))
  have hTL4 : Rep m4 (some a) TL := Rep.congr (fun y hy => h4o y (fun e => haL (e ▸ hy))
    (fun e => hdis hy (Tree.root_mem_addrs e))) hTL3
  have hTR4 : Rep m4 (some a) TR := Rep.move hTR3 hndR h4r
    (fun y hy hyr => h4o y (fun e => haR (e ▸ hy)) hyr)
  have hT4 : Rep m4 none (Tree.node TL a v TR) := by
    refine ⟨?_, hTL4, hTR4⟩
    rw [h4a, Rep.counter_root hTL2, Rep.counter_root hTR3]
    simp only [cnt, Node.mk.injEq, and_true, true_and]
    ring
  refine ⟨m4, TL, TR, ?_, hT4, hcells, hle, hgt, ?_⟩
  · have hv : (m a).value = v := by rw [ha]; rfl
    simp only [add, hv, hrun, setRoot, hrun3, hrun4, h4a]
    have hc := Rep.counter_root hTR4
    cases hr : TR.root with
    | none =>
      have := Tree.root_eq_none hr
      subst this
      rfl
    | some b =>
      rw [hr] at hc
      simp only [cnt] at hc
      simp only [hc]
  · intro y hy hya
    have hyL : y ∉ TL.addrs := fun h => hy (by
      unfold Tree.addrs at h ⊢; rw [← hcells]; simp [h])
    have hyR : y ∉ TR.addrs := fun h => hy (by
      unfold Tree.addrs at h ⊢; rw [← hcells]; simp [h])
    rw [h4o y hya (fun e => hyR (Tree.root_mem_addrs e)),
      h3o y hya (fun e => hyL (Tree.root_mem_addrs e)), h2o y hya, hf1 y hy]

theorem reverse_index_unique (L R : List (Nat × Int)) (x : Nat) (vx v : Int) (k : Nat)
    (hnd : ((L ++ (x, vx) :: R).map Prod.fst).Nodup)
    (h : (L ++ (x, vx) :: R).reverse[k]? = some (x, v)) : k = R.length ∧ v = vx := by
  simp only [List.map_append, List.map_cons] at hnd
  have hnd2 := List.perm_middle.nodup_iff.1 hnd
  obtain ⟨hxL, hxR, _, _, _⟩ := nodup_cons_append hnd2
  simp only [List.reverse_append, List.reverse_cons, List.append_assoc,
    List.singleton_append] at h
  by_cases h1 : k < R.length
  · exfalso
    rw [List.getElem?_append_left (by simpa using h1)] at h
    have hm := List.getElem?_mem h
    apply hxR
    simp only [List.mem_reverse] at hm
    exact List.mem_map_of_mem Prod.fst hm
  · by_cases h2 : k = R.length
    · subst h2
      rw [List.getElem?_append_right (by simp)] at h
      simp at h
      exact ⟨rfl, h.symm⟩
    · exfalso
      rw [List.getElem?_append_right (by simp; omega)] at h
      simp only [List.length_reverse] at h
      have : k - R.length = (k - R.length - 1) + 1 := by omega
      rw [this, List.getElem?_cons_succ] at h
      have hm := List.getElem?_mem h
      apply hxL
      simp only [List.mem_reverse] at hm
      exact List.mem_map_of_mem Prod.fst hm

/-- Go `FindByPos` on a well-formed tree, for an in-range position. -/
theorem FindByPos_rep {m : Mem} {t : Tree} (st : SplayTree) (fuel k : Nat)
    (hT : Rep m none t) (hroot : st.root = t.root) (hfuel : t.cells.length < fuel)
    (hk : k < t.cells.length) :
    ∃ a v, FindByPos fuel m st (k : Int) = .ok (some a) ∧ t.cells.reverse[k]? = some (a, v) := by
  obtain ⟨a, v, hrun, hget⟩ := findByPosLoop_rep t none fuel k hT hfuel hk
  refine ⟨a, v, ?_, hget⟩
  cases t with
  | nil => simp at hk
  | node l b w r =>
    have hc := Rep.counter_root hT
    simp only [Tree.root_node, cnt] at hc hroot
    rw [Tree.size_eq_length] at hc
    have : ¬ ((k : Int) ≥ (m b).counter) := by rw [hc]; omega
    simp only [FindByPos, hroot, this, if_false]
    exact hrun

/-- Go `merge` of two well-formed trees over disjoint cells. -/
theorem merge_rep {m : Mem} {TL TR : Tree} {parR : Ptr} (st tree : SplayTree) (fuel : Nat)
    (hTL : Rep m none TL) (hTR : Rep m parR TR) (hroot : st.root = TL.root)
    (hroot2 : tree.root = TR.root) (hnd : (TL.addrs ++ TR.addrs).Nodup)
    (hfuel : TL.cells.length < fuel) :
    ∃ m1 T, merge fuel m st tree = .ok (m1, { st with root := T.root }) ∧
      Rep m1 none T ∧ T.cells = TL.cells ++ TR.cells ∧
      (∀ y, y ∉ TL.addrs → y ∉ TR.addrs → m1 y = m y) := by
  obtain ⟨hndL, hndR, hdis⟩ := List.nodup_append.1 hnd
  cases hTLc : TL with
  | nil =>
    subst hTLc
    obtain ⟨h1, h2, h3, _⟩ := setRoot_rep st hTR hndR
    refine ⟨(setRoot m st TR.root).1, TR, ?_, h2, by simp, ?_⟩
    · simp only [Tree.root_nil] at hroot
      simp only [merge, hroot, hroot2]
      rw [← h1]
    · intro y _ hy
      exact h3 y (fun e => hy (Tree.root_mem_addrs e))
  | node l b w r =>
    rw [← hTLc]
    have hlen : 0 < TL.cells.length := by rw [hTLc]; simp
    obtain ⟨y, vy, hfind, hget⟩ := FindByPos_rep st fuel 0 hTL hroot hfuel hlen
    have hy : y ∈ TL.addrs := by
      have := List.getElem?_mem hget
      simp only [List.mem_reverse] at this
      exact Tree.mem_addrs this
    obtain ⟨m1, L1, R1, vx, hsplay, hT1, hc1, hf1⟩ := splay_rep st fuel hTL hndL hy (by omega)
    have hnd1 : ((L1.cells ++ (y, vx) :: R1.cells).map Prod.fst).Nodup := by
      have := hndL
      unfold Tree.addrs at this
      rw [← hc1] at this
      simpa using this
    have hidx := reverse_index_unique L1.cells R1.cells y vx vy 0 hnd1 (by
      rw [← hget, ← hc1]; simp)
    have hR1 : R1 = Tree.nil := Tree.cells_eq_nil (List.length_eq_zero.1 hidx.1.symm)
    subst hR1
    have hyR : y ∉ TR.addrs := fun h => hdis hy h
    have hTR1 : Rep m1 parR TR :=
      Rep.congr (fun z hz => hf1 z (fun h => hdis h hz)) hTR
    obtain ⟨hy1, hL1, _⟩ := hT1
    have hmemL : ∀ z, z ∈ L1.addrs → z ∈ TL.addrs := by
      intro z hz
      unfold Tree.addrs at hz ⊢
      rw [← hc1]
      simp only [Tree.cells_node, List.map_append, List.mem_append]
      exact Or.inl hz
    have hyL1 : y ∉ L1.addrs := by
      simp only [List.map_append, List.map_cons] at hnd1
      have hnd2 := List.perm_middle.nodup_iff.1 hnd1
      exact (nodup_cons_append hnd2).1
    obtain ⟨m2, hrun2, h2y, h2r, h2o⟩ := setRight_raw (q := TR.root) hy1 (by simp)
      (fun e => hyR (Tree.root_mem_addrs e))
    have hL2 : Rep m2 (some y) L1 := Rep.congr (fun z hz => h2o z (fun e => hyL1 (e ▸ hz))
      (fun e => hdis (hmemL z hz) (Tree.root_mem_addrs e))) hL1
    have hTR2 : Rep m2 (some y) TR := Rep.move hTR1 hndR h2r
      (fun z hz hzr => h2o z (fun e => hyR (e ▸ hz)) hzr)
    refine ⟨m2, Tree.node L1 y vx TR, ?_, ⟨?_, hL2, hTR2⟩, ?_, ?_⟩
    · have hroot3 : st.root = some b := by rw [hroot, hTLc]; rfl
      simp only [merge, hroot3, MostRight]
      have : (0 : Int) = ((0 : Nat) : Int) := rfl
      rw [this, hfind]
      simp only [hsplay, hroot2, hrun2]
      rfl
    · rw [h2y, Rep.counter_root hTR1]
      simp only [cnt, Tree.size_nil, Tree.root_nil, Node.mk.injEq, and_true, true_and]
      ring
    · rw [← hc1]; simp
    · intro z hz1 hz2
      rw [h2o z (fun e => hz1 (by rw [e]; exact hy)) (fun e => hz2 (Tree.root_mem_addrs e)),
        hf1 z hz1]

theorem remove_eq {fuel : Nat} {m : Mem} {st : SplayTree} {n : Nat} {m1 : Mem}
    {st1 : SplayTree} (hsplay : splay fuel m st (some n) = .ok (m1, st1)) :
    remove fuel m st (some n) =
      match merge fuel
          (setRoot (setRoot m1 st1 (m1 n).left).1 ConstructSplayTree
            ((setRoot m1 st1 (m1 n).left).1 n).right).1
          (setRoot m1 st1 (m1 n).left).2
          (setRoot (setRoot m1 st1 (m1 n).left).1 ConstructSplayTree
            ((setRoot m1 st1 (m1 n).left).1 n).right).2 with
      | .error e => .error e
      | .ok (m4, st3) => .ok (upd m4 n (ConstructNode (m4 n).value), st3) := by
  simp only [remove, hsplay]
  rfl

/-- Go `remove` of a cell of a well-formed tree. -/
theorem remove_rep {m : Mem} {t : Tree} {x : Nat} (st : SplayTree) (fuel : Nat)
    (hT : Rep m none t) (hnd : t.addrs.Nodup) (hx : x ∈ t.addrs)
    (hfuel : t.cells.length ≤ fuel) :
    ∃ m1 T L R vx, remove fuel m st (some x) = .ok (m1, { st with root := T.root }) ∧
      Rep m1 none T ∧ t.cells = L ++ (x, vx) :: R ∧ T.cells = L ++ R ∧
      (∀ y, y ∉ t.addrs → m1 y = m y) := by
  obtain ⟨m1, L1, R1, vx, hsplay, hT1, hc1, hf1⟩ := splay_rep st fuel hT hnd hx hfuel
  have hnd1 : (Tree.node L1 x vx R1).addrs.Nodup := by
    unfold Tree.addrs; rw [hc1]; exact hnd
  obtain ⟨hxl, hxr, hndL, hndR, hdLR⟩ := Tree.nodup_node hnd1
  obtain ⟨hx1, hL1, hR1⟩ := hT1
  have hLx : L1.root ≠ some x := fun e => hxl (Tree.root_mem_addrs e)
  have hl : (m1 x).left = L1.root := by rw [hx1]
  obtain ⟨hst2, hL2, h2o, _⟩ :=
    setRoot_rep (m := m1) { st with root := some x } hL1 hndL
  have h2x : (setRoot m1 { st with root := some x } L1.root).1 x = m1 x := h2o x hLx
  have hr : ((setRoot m1 { st with root := some x } L1.root).1 x).right = R1.root := by
    rw [h2x, hx1]
  have hR2 : Rep (setRoot m1 { st with root := some x } L1.root).1 (some x) R1 :=
    Rep.congr (fun y hy => h2o y (fun e => hdLR y (Tree.root_mem_addrs e) hy)) hR1
  obtain ⟨hst3, hR3, h3o, _⟩ := setRoot_rep
    (m := (setRoot m1 { st with root := some x } L1.root).1) ConstructSplayTree hR2 hndR
  have hL3 : Rep (setRoot (setRoot m1 { st with root := some x } L1.root).1
      ConstructSplayTree R1.root).1 none L1 :=
    Rep.congr (fun y hy => h3o y (fun e => hdLR y hy (Tree.root_mem_addrs e))) hL2
  have hndLR : (L1.addrs ++ R1.addrs).Nodup :=
    List.nodup_append.2 ⟨hndL, hndR, fun a ha hb => hdLR a ha hb⟩
  have hlen : L1.cells.length < fuel := by
    have : (Tree.node L1 x vx R1).cells.length = t.cells.length := by rw [hc1]
    simp only [Tree.cells_node, List.length_append, List.length_cons] at this
    omega
  obtain ⟨m4, T, hmerge, hT4, hc4, hf4⟩ := merge_rep
    (setRoot m1 { st with root := some x } L1.root).2
    (setRoot (setRoot m1 { st with root := some x } L1.root).1 ConstructSplayTree R1.root).2
    fuel hL3 hR3 (by rw [hst2]) (by rw [hst3]) hndLR hlen
  have hxT : x ∉ T.addrs := by
    unfold Tree.addrs
    rw [hc4]
    simp only [List.map_append, List.mem_append, not_or]
    exact ⟨hxl, hxr⟩
  refine ⟨upd m4 x (ConstructNode (m4 x).value), T, L1.cells, R1.cells, vx, ?_, ?_, ?_, hc4, ?_⟩
  · rw [remove_eq hsplay, hl, hr, hmerge]
    simp only [hst2]
  · exact Rep.congr (fun y hy => upd_other _ _ _ _ (fun e => hxT (e ▸ hy))) hT4
  · rw [← hc1]; simp
  · intro y hy
    have hy1 : y ∉ (Tree.node L1 x vx R1).addrs := by
      unfold Tree.addrs at hy ⊢; rw [hc1]; exact hy
    simp only [Tree.addrs_node, List.mem_append, List.mem_cons, not_or] at hy1
    rw [upd_other _ _ _ _ hy1.2.1, hf4 y hy1.1 hy1.2.2,
      h3o y (fun e => hy1.2.2 (Tree.root_mem_addrs e)),
      h2o y (fun e => hy1.1 (Tree.root_mem_addrs e)), hf1 y hy]

/-! ## More fuel never changes a result -/

theorem splayLoop_mono : ∀ (fuel fuel1 : Nat) (m : Mem) (n : Nat) (r : Mem),
    fuel ≤ fuel1 → splayLoop fuel m n = .ok r → splayLoop fuel1 m n = .ok r := by
  intro fuel
  induction fuel with
  | zero => intro fuel1 m n r _ h; simp [splayLoop] at h
  | succ fuel ih =>
    intro fuel1 m n r hle h
    cases fuel1 with
    | zero => omega
    | succ fuel1 =>
      simp only [splayLoop] at h ⊢
      cases hp : (m n).parent with
      | none => simpa [hp] using h
      | some p =>
        simp only [hp] at h ⊢
        cases hpp : (m p).parent with
        | none => simpa [hpp] using h
        | some g =>
          simp only [hpp] at h ⊢
          cases hs : splayStep m n p with
          | error e => simp [hs] at h
          | ok m1 =>
            simp only [hs] at h ⊢
            exact ih fuel1 m1 n r (by omega) h

theorem findByPosLoop_mono : ∀ (fuel fuel1 : Nat) (m : Mem) (p : Ptr) (pos : Int) (r : Ptr),
    fuel ≤ fuel1 → findByPosLoop fuel m p pos = .ok r → findByPosLoop fuel1 m p pos = .ok r := by
  intro fuel
  induction fuel with
  | zero => intro fuel1 m p pos r _ h; simp [findByPosLoop] at h
  | succ fuel ih =>
    intro fuel1 m p pos r hle h
    cases fuel1 with
    | zero => omega
    | succ fuel1 =>
      cases p with
      | none => simpa [findByPosLoop] using h
      | some n =>
        simp only [findByPosLoop] at h ⊢
        cases hr : (m n).right with
        | none =>
          simp only [hr] at h ⊢
          by_cases h0 : pos = 0
          · simpa [h0] using h
          · simp only [h0, if_false] at h ⊢
            exact ih fuel1 m _ _ r (by omega) h
        | some b =>
          simp only [hr] at h ⊢
          by_cases h1 : pos < (m b).counter
          · simp only [h1, if_true] at h ⊢
            exact ih fuel1 m _ _ r (by omega) h
          · simp only [h1, if_false] at h ⊢
            by_cases h0 : pos - (m b).counter = 0
            · simpa [h0] using h
            · simp only [h0, if_false] at h ⊢
              exact ih fuel1 m _ _ r (by omega) h

theorem findByValueLoop_mono : ∀ (fuel fuel1 : Nat) (m : Mem) (p : Ptr) (v : Int) (r : Ptr),
    fuel ≤ fuel1 → findByValueLoop fuel m p v = .ok r →
    findByValueLoop fuel1 m p v = .ok r := by
  intro fuel
  induction fuel with
  | zero => intro fuel1 m p pos r _ h; simp [findByValueLoop] at h
  | succ fuel ih =>
    intro fuel1 m p v r hle h
    cases fuel1 with
    | zero => omega
    | succ fuel1 =>
      cases p with
      | none => simpa [findByValueLoop] using h
      | some n =>
        simp only [findByValueLoop] at h ⊢
        by_cases h0 : (m n).value = v
        · simpa [h0] using h
        · simp only [ne_eq, h0, not_false_eq_true, if_true] at h ⊢
          by_cases h1 : (m n).value < v
          · simp only [h1, if_true] at h ⊢
            exact ih fuel1 m _ _ r (by omega) h
          · simp only [h1, if_false] at h ⊢
            exact ih fuel1 m _ _ r (by omega) h

theorem splitLoop_mono : ∀ (fuel fuel1 : Nat) (m : Mem) (n : Nat) (v : Int) (r : Nat),
    fuel ≤ fuel1 → splitLoop fuel m n v = .ok r → splitLoop fuel1 m n v = .ok r := by
  intro fuel
  induction fuel with
  | zero => intro fuel1 m n v r _ h; simp [splitLoop] at h
  | succ fuel ih =>
    intro fuel1 m n v r hle h
    cases fuel1 with
    | zero => omega
    | succ fuel1 =>
      simp only [splitLoop] at h ⊢
      cases hn : (if (m n).value > v then (m n).left else (m n).right) with
      | none => simpa [hn] using h
      | some nx =>
        simp only [hn] at h ⊢
        exact ih fuel1 m nx v r (by omega) h

theorem splay_mono {fuel fuel1 : Nat} {m : Mem} {st : SplayTree} {node : Ptr}
    {r : Mem × SplayTree} (hle : fuel ≤ fuel1) (h : splay fuel m st node = .ok r) :
    splay fuel1 m st node = .ok r := by
  cases node with
  | none => simpa [splay] using h
  | some n =>
    simp only [splay] at h ⊢
    cases hs : splayLoop fuel m n with
    | error e => simp [hs] at h
    | ok m1 =>
      rw [splayLoop_mono fuel fuel1 m n m1 hle hs]
      simpa [hs] using h

theorem FindByPos_mono {fuel fuel1 : Nat} {m : Mem} {st : SplayTree} {pos : Int} {r : Ptr}
    (hle : fuel ≤ fuel1) (h : FindByPos fuel m st pos = .ok r) :
    FindByPos fuel1 m st pos = .ok r := by
  simp only [FindByPos] at h ⊢
  cases hr : st.root with
  | none => simpa [hr] using h
  | some a =>
    simp only [hr] at h ⊢
    by_cases hc : pos ≥ (m a).counter
    · simpa [hc] using h
    · simp only [hc, if_false] at h ⊢
      exact findByPosLoop_mono fuel fuel1 m _ pos r hle h

theorem merge_mono {fuel fuel1 : Nat} {m : Mem} {st tree : SplayTree}
    {r : Mem × SplayTree} (hle : fuel ≤ fuel1) (h : merge fuel m st tree = .ok r) :
    merge fuel1 m st tree = .ok r := by
  simp only [merge, MostRight] at h ⊢
  cases hr : st.root with
  | none => simpa [hr] using h
  | some a =>
    simp only [hr] at h ⊢
    cases hf : FindByPos fuel m st 0 with
    | error e => simp [hf] at h
    | ok node =>
      rw [FindByPos_mono hle hf]
      simp only [hf] at h ⊢
      cases hs : splay fuel m st node with
      | error e => simp [hs] at h
      | ok p =>
        rw [splay_mono hle hs]
        simpa [hs] using h

theorem split_mono {fuel fuel1 : Nat} {m : Mem} {st : SplayTree} {v : Int}
    {r : Mem × SplayTree × SplayTree × SplayTree} (hle : fuel ≤ fuel1)
    (h : split fuel m st v = .ok r) : split fuel1 m st v = .ok r := by
  simp only [split] at h ⊢
  cases hr : st.root with
  | none => simpa [hr] using h
  | some a =>
    simp only [hr] at h ⊢
    cases hl : splitLoop fuel m a v with
    | error e => simp [hl] at h
    | ok n =>
      rw [splitLoop_mono fuel fuel1 m a v n hle hl]
      simp only [hl] at h ⊢
      cases hs : splay fuel m st (some n) with
      | error e => simp [hs] at h
      | ok p =>
        rw [splay_mono hle hs]
        simpa [hs] using h

theorem add_mono {fuel fuel1 : Nat} {m : Mem} {st : SplayTree} {node : Ptr}
    {r : Mem × SplayTree × Int} (hle : fuel ≤ fuel1)
    (h : add fuel m st node = .ok r) : add fuel1 m st node = .ok r := by
  cases node with
  | none => simp [add] at h
  | some n =>
    simp only [add] at h ⊢
    cases hs : split fuel m st (m n).value with
    | error e => simp [hs] at h
    | ok p =>
      rw [split_mono hle hs]
      simpa [hs] using h

theorem remove_mono {fuel fuel1 : Nat} {m : Mem} {st : SplayTree} {node : Ptr}
    {r : Mem × SplayTree} (hle : fuel ≤ fuel1)
    (h : remove fuel m st node = .ok r) : remove fuel1 m st node = .ok r := by
  simp only [remove] at h ⊢
  cases hs : splay fuel m st node with
  | error e => simp [hs] at h
  | ok p =>
    rw [splay_mono hle hs]
    simp only [hs] at h ⊢
    cases node with
    | none => simp at h
    | some n =>
      simp only at h ⊢
      cases hm : merge fuel (setRoot (setRoot p.1 p.2 (p.1 n).left).1 ConstructSplayTree
          ((setRoot p.1 p.2 (p.1 n).left).1 n).right).1
          (setRoot p.1 p.2 (p.1 n).left).2
          (setRoot (setRoot p.1 p.2 (p.1 n).left).1 ConstructSplayTree
            ((setRoot p.1 p.2 (p.1 n).left).1 n).right).2 with
      | error e =>
        exfalso
        revert h
        show (match merge fuel _ _ _ with
          | .error e => Except.error e
          | .ok (m4, st3) => _) = _ → False
        rw [hm]
        simp
      | ok q =>
        have hm1 := merge_mono hle hm
        revert h
        show (match merge fuel _ _ _ with
          | .error e => Except.error e
          | .ok (m4, st3) => _) = _ → (match merge fuel1 _ _ _ with
          | .error e => Except.error e
          | .ok (m4, st3) => _) = _
        rw [hm, hm1]
        exact id

theorem Insert_mono {fuel fuel1 : Nat} {w : World} {v : Int} {r : World × Int}
    (hle : fuel ≤ fuel1) (h : Insert fuel w v = .ok r) : Insert fuel1 w v = .ok r := by
  simp only [Insert] at h ⊢
  cases hs : add fuel (upd w.mem w.next (ConstructNode v))
      { w.st with nodes := w.st.nodes ++ [w.next] } (some w.next) with
  | error e => simp [hs] at h
  | ok p =>
    rw [add_mono hle hs]
    simpa [hs] using h

theorem Remove_mono {fuel fuel1 : Nat} {w : World} {pos : Int} {r : World}
    (hle : fuel ≤ fuel1) (h : Remove fuel w pos = .ok r) : Remove fuel1 w pos = .ok r := by
  simp only [Remove] at h ⊢
  cases hf : FindByPos fuel w.mem w.st pos with
  | error e => simp [hf] at h
  | ok node =>
    rw [FindByPos_mono hle hf]
    simp only [hf] at h ⊢
    cases hs : remove fuel w.mem w.st node with
    | error e => simp [hs] at h
    | ok p =>
      rw [remove_mono hle hs]
      simpa [hs] using h

/-! ## The public operations on well-formed states -/

theorem WF.init : WF World.init :=
  ⟨Tree.nil, trivial, rfl, List.nodup_nil, fun _ h => by simp at h, List.sorted_nil⟩

theorem Insert_spec {w : World} {t : Tree} (v : Int) (fuel : Nat)
    (hT : Rep w.mem none t) (hroot : w.st.root = t.root) (hnd : t.addrs.Nodup)
    (hlt : ∀ a ∈ t.addrs, a < w.next) (hs : t.vals.Sorted (· ≤ ·))
    (hfuel : t.cells.length ≤ fuel) :
    ∃ m1 TL TR, Insert fuel w v =
        .ok ({ mem := m1, next := w.next + 1,
               st := { root := some w.next, step := w.st.step,
                       nodes := w.st.nodes ++ [w.next] } }, TR.size) ∧
      Rep m1 none (Tree.node TL w.next v TR) ∧ TL.cells ++ TR.cells = t.cells ∧
      (∀ e ∈ TL.cells, e.2 ≤ v) ∧ (∀ e ∈ TR.cells, v < e.2) := by
  have hat : w.next ∉ t.addrs := fun h => Nat.lt_irrefl _ (hlt _ h)
  have hT0 : Rep (upd w.mem w.next (ConstructNode v)) none t :=
    Rep.congr (fun y hy => upd_other _ _ _ _ (fun e => hat (e ▸ hy))) hT
  obtain ⟨m1, TL, TR, hrun, hT1, hcells, hle, hgt, _⟩ :=
    add_rep { w.st with nodes := w.st.nodes ++ [w.next] } w.next v fuel hT0 hroot hnd hs hfuel
      (upd_same _ _ _) hat
  refine ⟨m1, TL, TR, ?_, hT1, hcells, hle, hgt⟩
  simp only [Insert, hrun]

theorem Remove_spec {w : World} {t : Tree} (k : Nat) (fuel : Nat)
    (hT : Rep w.mem none t) (hroot : w.st.root = t.root) (hnd : t.addrs.Nodup)
    (hfuel : t.cells.length < fuel) (hk : k < t.cells.length) :
    ∃ m1 T L R x vx, FindByPos fuel w.mem w.st (k : Int) = .ok (some x) ∧
      Remove fuel w (k : Int) = .ok { w with mem := m1, st := { w.st with root := T.root } } ∧
      Rep m1 none T ∧ t.cells = L ++ (x, vx) :: R ∧ T.cells = L ++ R ∧ R.length = k := by
  obtain ⟨x, v1, hfind, hget⟩ := FindByPos_rep w.st fuel k hT hroot hfuel hk
  have hx : x ∈ t.addrs := by
    have := List.getElem?_mem hget
    simp only [List.mem_reverse] at this
    exact Tree.mem_addrs this
  obtain ⟨m1, T, L, R, vx, hrun, hT1, hc, hc1, _⟩ :=
    remove_rep w.st fuel hT hnd hx (by omega)
  have hidx := reverse_index_unique L R x vx v1 k (by
      have := hnd
      unfold Tree.addrs at this
      rw [hc] at this
      exact this) (by rw [← hc]; exact hget)
  refine ⟨m1, T, L, R, x, vx, hfind, ?_, hT1, hc, hc1, hidx.1.symm⟩
  simp only [Remove, hfind, hrun]

theorem WF.insert {w w1 : World} {fuel : Nat} {v pos : Int} (hw : WF w)
    (h : Insert fuel w v = .ok (w1, pos)) : WF w1 := by
  obtain ⟨t, hT, hroot, hnd, hlt, hs⟩ := hw
  obtain ⟨m1, TL, TR, hrun, hT1, hcells, hle, hgt⟩ :=
    Insert_spec v (max fuel t.cells.length) hT hroot hnd hlt hs (le_max_right _ _)
  have h2 := Insert_mono (le_max_left fuel t.cells.length) h
  rw [hrun] at h2
  simp only [Except.ok.injEq, Prod.mk.injEq] at h2
  obtain ⟨hw1, _⟩ := h2
  subst hw1
  have haddrs : TL.addrs ++ TR.addrs = t.addrs := by
    unfold Tree.addrs; rw [← List.map_append, hcells]
  have hvals : TL.vals ++ TR.vals = t.vals := by
    unfold Tree.vals; rw [← List.map_append, hcells]
  have hat : w.next ∉ t.addrs := fun h => Nat.lt_irrefl _ (hlt _ h)
  refine ⟨Tree.node TL w.next v TR, hT1, rfl, ?_, ?_, ?_⟩
  · rw [Tree.addrs_node]
    refine List.perm_middle.nodup_iff.2 (List.nodup_cons.2 ⟨?_, ?_⟩)
    · rw [haddrs]; exact hat
    · rw [haddrs]; exact hnd
  · intro a ha
    simp only [Tree.addrs_node, List.mem_append, List.mem_cons] at ha
    have hmem : a = w.next ∨ a ∈ t.addrs := by
      rw [← haddrs, List.mem_append]; tauto
    rcases hmem with e | e
    · subst e; exact Nat.lt_succ_self _
    · exact Nat.lt_succ_of_lt (hlt a e)
  · rw [← hvals] at hs
    obtain ⟨hs1, hs2, _⟩ := List.pairwise_append.1 hs
    have hleV : ∀ x ∈ TL.vals, x ≤ v := by
      intro x hx
      simp only [Tree.vals, List.mem_map] at hx
      obtain ⟨e, he, rfl⟩ := hx
      exact hle e he
    have hgtV : ∀ x ∈ TR.vals, v < x := by
      intro x hx
      simp only [Tree.vals, List.mem_map] at hx
      obtain ⟨e, he, rfl⟩ := hx
      exact hgt e he
    rw [Tree.vals_node]
    refine List.pairwise_append.2 ⟨hs1, List.pairwise_cons.2 ⟨?_, hs2⟩, ?_⟩
    · intro y hy
      exact le_of_lt (hgtV y hy)
    · intro x hx y hy
      simp only [List.mem_cons] at hy
      rcases hy with hy | hy
      · subst hy; exact hleV x hx
      · exact le_trans (hleV x hx) (le_of_lt (hgtV y hy))

theorem Rep.size_eq_Size {w : World} {t : Tree} (hT : Rep w.mem none t)
    (hroot : w.st.root = t.root) : Size w.mem w.st = (t.cells.length : Int) := by
  rw [← Tree.size_eq_length, ← Rep.counter_root hT]
  simp only [Size, cnt, hroot]

theorem WF.remove {w w1 : World} {fuel : Nat} {pos : Int} (hw : WF w)
    (h0 : 0 ≤ pos) (h1 : pos < Size w.mem w.st)
    (h : Remove fuel w pos = .ok w1) : WF w1 := by
  obtain ⟨t, hT, hroot, hnd, hlt, hs⟩ := hw
  rw [Rep.size_eq_Size hT hroot] at h1
  obtain ⟨k, rfl⟩ := Int.eq_ofNat_of_zero_le h0
  have hk : k < t.cells.length := by exact_mod_cast h1
  obtain ⟨m1, T, L, R, x, vx, _, hrun, hT1, hc, hc1, _⟩ :=
    Remove_spec k (max fuel (t.cells.length + 1)) hT hroot hnd
      (lt_of_lt_of_le (Nat.lt_succ_self _) (le_max_right _ _)) hk
  have h2 := Remove_mono (le_max_left fuel (t.cells.length + 1)) h
  rw [hrun] at h2
  simp only [Except.ok.injEq] at h2
  subst h2
  have hsub : T.cells.Sublist t.cells := by
    rw [hc, hc1]
    exact List.Sublist.append_left (List.sublist_cons_self _ _) _
  refine ⟨T, hT1, rfl, ?_, ?_, ?_⟩
  · exact List.Nodup.sublist (hsub.map Prod.fst) hnd
  · intro a ha
    exact hlt a ((hsub.map Prod.fst).subset ha)
  · exact List.Pairwise.sublist (hsub.map Prod.snd) hs

theorem Reachable.wf {w : World} (h : Reachable w) : WF w := by
  induction h with
  | empty => exact WF.init
  | insert w fuel v w1 pos _ hrun ih => exact WF.insert ih hrun
  | remove w fuel pos w1 _ h0 h1 hrun ih => exact WF.remove ih h0 h1 hrun

/-! ## Reachability of the scenario states -/

theorem reach_insertW {w : World} (h : Reachable w) (fuel : Nat) (v : Int)
    (hok : returns (Insert fuel w v) = true) : Reachable (insertW fuel w v) := by
  unfold Splay.insertW
  cases hr : Insert fuel w v with
  | error e => simp [returns, hr] at hok
  | ok p => exact Reachable.insert w fuel v p.1 p.2 h hr

theorem reach_removeW {w : World} (h : Reachable w) (fuel : Nat) (pos : Int)
    (h0 : 0 ≤ pos) (h1 : pos < Size w.mem w.st)
    (hok : returns (Remove fuel w pos) = true) : Reachable (removeW fuel w pos) := by
  unfold Splay.removeW
  cases hr : Remove fuel w pos with
  | error e => simp [returns, hr] at hok
  | ok p => exact Reachable.remove w fuel pos p h h0 h1 hr

theorem scenarioWorld_reachable : Reachable scenarioWorld :=
  reach_insertW (reach_insertW (reach_insertW (reach_insertW Reachable.empty 8 5 (by decide))
    8 3 (by decide)) 8 8 (by decide)) 8 1 (by decide)

theorem twinWorld_reachable : Reachable twinWorld :=
  reach_insertW (reach_insertW Reachable.empty 8 5 (by decide)) 8 5 (by decide)

theorem Reachable.tree {w : World} (h : Reachable w) :
    ∃ t : Tree, Rep w.mem none t ∧ Shape w.mem w.st.root t ∧ w.st.root = t.root ∧
      t.addrs.Nodup ∧ (∀ a ∈ t.addrs, a < w.next) ∧ t.vals.Sorted (· ≤ ·) ∧
      Size w.mem w.st = (t.cells.length : Int) := by
  obtain ⟨t, hT, hroot, hnd, hlt, hs⟩ := h.wf
  refine ⟨t, hT, ?_, hroot, hnd, hlt, hs, Rep.size_eq_Size hT hroot⟩
  rw [hroot]
  exact Rep.shape hT

/-- C1: in every state reachable from the empty tree by `Insert` calls and in-range `Remove`
calls, the pointer structure below the root unfolds to a finite tree whose in-order traversal
lists the values in non-decreasing order. -/
theorem C1_inorder_sorted (w : World) (h : Reachable w) :
    ∃ t : Tree, Shape w.mem w.st.root t ∧ t.vals.Sorted (· ≤ ·) := by
  obtain ⟨t, _, hsh, _, _, _, hs, _⟩ := h.tree
  exact ⟨t, hsh, hs⟩

theorem C1_inorder_sorted_witness :
    Reachable scenarioWorld ∧
      ∃ t : Tree, Shape scenarioWorld.mem scenarioWorld.st.root t ∧ t.vals.Sorted (· ≤ ·) :=
  ⟨scenarioWorld_reachable, C1_inorder_sorted scenarioWorld scenarioWorld_reachable⟩

/-- C2: in every reachable state every node of the tree satisfies
`counter = 1 + counter(left) + counter(right)` (an absent child counting 0), and `Size()` is
the number of nodes of the tree (0 for the empty tree). -/
theorem C2_counters_exact (w : World) (h : Reachable w) :
    ∃ t : Tree, Shape w.mem w.st.root t ∧
      (∀ a ∈ t.addrs, (w.mem a).counter
        = 1 + cnt w.mem (w.mem a).left + cnt w.mem (w.mem a).right) ∧
      Size w.mem w.st = (t.addrs.length : Int) := by
  obtain ⟨t, hT, hsh, _, _, _, _, hsz⟩ := h.tree
  refine ⟨t, hsh, Rep.counter_of_mem hT, ?_⟩
  rw [hsz, Tree.length_addrs]

theorem C2_counters_exact_witness :
    Reachable scenarioWorld ∧
      ∃ t : Tree, Shape scenarioWorld.mem scenarioWorld.st.root t ∧
        (∀ a ∈ t.addrs, (scenarioWorld.mem a).counter
          = 1 + cnt scenarioWorld.mem (scenarioWorld.mem a).left
              + cnt scenarioWorld.mem (scenarioWorld.mem a).right) ∧
        Size scenarioWorld.mem scenarioWorld.st = (t.addrs.length : Int) :=
  ⟨scenarioWorld_reachable, C2_counters_exact scenarioWorld scenarioWorld_reachable⟩

/-! ## Positional lookup on reachable states -/

theorem sorted_last_max {l : List Int} {x : Int} (hs : l.Sorted (· ≤ ·))
    (h : l.reverse[0]? = some x) : ∀ y ∈ l, y ≤ x := by
  have hl : l = (l.reverse.tail).reverse ++ [x] := by
    cases hr : l.reverse with
    | nil => simp [hr] at h
    | cons a tl =>
      rw [hr] at h
      simp only [List.getElem?_cons_zero, Option.some.injEq] at h
      subst h
      have := congrArg List.reverse hr
      simpa using this
  intro y hy
  rw [hl] at hs hy
  obtain ⟨_, _, h3⟩ := List.pairwise_append.1 hs
  simp only [List.mem_append, List.mem_singleton] at hy
  rcases hy with hy | hy
  · exact h3 y hy x (by simp)
  · subst hy; exact le_refl _

theorem sorted_first_min {l : List Int} {x : Int} (hs : l.Sorted (· ≤ ·))
    (h : l[0]? = some x) : ∀ y ∈ l, x ≤ y := by
  cases l with
  | nil => simp at h
  | cons a tl =>
    simp only [List.getElem?_cons_zero, Option.some.injEq] at h
    subst h
    intro y hy
    simp only [List.mem_cons] at hy
    rcases hy with hy | hy
    · subst hy; exact le_refl _
    · exact (List.pairwise_cons.1 hs).1 y hy

/-- Go `FindByPos` at an in-range position, in terms of values. -/
theorem FindByPos_value {m : Mem} {t : Tree} (st : SplayTree) (fuel k : Nat)
    (hT : Rep m none t) (hroot : st.root = t.root) (hfuel : t.cells.length < fuel)
    (hk : k < t.cells.length) :
    ∃ a, FindByPos fuel m st (k : Int) = .ok (some a) ∧ a ∈ t.addrs ∧
      t.vals.reverse[k]? = some (m a).value := by
  obtain ⟨a, v, hrun, hget⟩ := FindByPos_rep st fuel k hT hroot hfuel hk
  have hmem : (a, v) ∈ t.cells := by
    have := List.getElem?_mem hget
    simpa using this
  refine ⟨a, hrun, Tree.mem_addrs hmem, ?_⟩
  have hv := Rep.value_of_mem hT (a, v) hmem
  simp only at hv
  rw [hv]
  unfold Tree.vals
  rw [← List.map_reverse, List.getElem?_map, hget]
  rfl

/-- C3: on every reachable tree, `FindByPos(pos)` for `0 <= pos < Size()` returns (given fuel
beyond the tree size) a node of the tree whose value is the element at index `pos` of the
in-order values listed in reverse (descending) order; `FindByPos(0)` and `MostRight()` return
a node holding the maximum, `FindByPos(Size()-1)` and `MostLeft()` a node holding the
minimum. -/
theorem C3_findByPos_rank (w : World) (h : Reachable w) (fuel : Nat) (pos : Int)
    (h0 : 0 ≤ pos) (h1 : pos < Size w.mem w.st) (hf : Size w.mem w.st < (fuel : Int)) :
    ∃ (t : Tree) (a amax amin : Nat), Shape w.mem w.st.root t ∧
      FindByPos fuel w.mem w.st pos = .ok (some a) ∧ a ∈ t.addrs ∧
      t.vals.reverse[pos.toNat]? = some (w.mem a).value ∧
      FindByPos fuel w.mem w.st 0 = .ok (some amax) ∧
      MostRight fuel w.mem w.st = .ok (some amax) ∧ amax ∈ t.addrs ∧
      (∀ v ∈ t.vals, v ≤ (w.mem amax).value) ∧
      FindByPos fuel w.mem w.st (Size w.mem w.st - 1) = .ok (some amin) ∧
      MostLeft fuel w.mem w.st = .ok (some amin) ∧ amin ∈ t.addrs ∧
      (∀ v ∈ t.vals, (w.mem amin).value ≤ v) := by
  obtain ⟨t, hT, hsh, hroot, _, _, hs, hsz⟩ := h.tree
  rw [hsz] at h1 hf
  obtain ⟨k, rfl⟩ := Int.eq_ofNat_of_zero_le h0
  have hk : k < t.cells.length := by exact_mod_cast h1
  have hfuel : t.cells.length < fuel := by exact_mod_cast hf
  obtain ⟨a, ha1, ha2, ha3⟩ := FindByPos_value w.st fuel k hT hroot hfuel hk
  obtain ⟨amax, hx1, hx2, hx3⟩ := FindByPos_value w.st fuel 0 hT hroot hfuel (by omega)
  obtain ⟨amin, hn1, hn2, hn3⟩ :=
    FindByPos_value w.st fuel (t.cells.length - 1) hT hroot hfuel (by omega)
  have hcast : ((t.cells.length - 1 : Nat) : Int) = (t.cells.length : Int) - 1 := by omega
  rw [hcast] at hn1
  have hmin : t.vals[0]? = some (w.mem amin).value := by
    rw [← hn3, List.getElem?_reverse (by rw [Tree.length_vals]; omega), Tree.length_vals]
    congr 1
    omega
  refine ⟨t, a, amax, amin, hsh, ha1, ha2, ?_, hx1, hx1, hx2, sorted_last_max hs hx3, ?_, ?_,
    hn2, sorted_first_min hs hmin⟩
  · simpa using ha3
  · rw [hsz]; exact hn1
  · cases ht : t with
    | nil => rw [ht] at hk; simp at hk
    | node l b v r =>
      have hc := Rep.counter_root hT
      rw [ht] at hroot hc
      simp only [Tree.root_node, cnt] at hc hroot
      rw [← ht, Tree.size_eq_length] at hc
      simp only [MostLeft, hroot, hc]
      exact hn1

theorem C3_findByPos_rank_witness :
    Reachable scenarioWorld ∧ (0 : Int) ≤ 3 ∧ 3 < Size scenarioWorld.mem scenarioWorld.st ∧
      Size scenarioWorld.mem scenarioWorld.st < ((8 : Nat) : Int) ∧
      ∃ (t : Tree) (a amax amin : Nat), Shape scenarioWorld.mem scenarioWorld.st.root t ∧
        FindByPos 8 scenarioWorld.mem scenarioWorld.st 3 = .ok (some a) ∧ a ∈ t.addrs ∧
        t.vals.reverse[(3 : Int).toNat]? = some (scenarioWorld.mem a).value ∧
        FindByPos 8 scenarioWorld.mem scenarioWorld.st 0 = .ok (some amax) ∧
        MostRight 8 scenarioWorld.mem scenarioWorld.st = .ok (some amax) ∧ amax ∈ t.addrs ∧
        (∀ v ∈ t.vals, v ≤ (scenarioWorld.mem amax).value) ∧
        FindByPos 8 scenarioWorld.mem scenarioWorld.st
          (Size scenarioWorld.mem scenarioWorld.st - 1) = .ok (some amin) ∧
        MostLeft 8 scenarioWorld.mem scenarioWorld.st = .ok (some amin) ∧ amin ∈ t.addrs ∧
        (∀ v ∈ t.vals, (scenarioWorld.mem amin).value ≤ v) :=
  ⟨scenarioWorld_reachable, by decide, by decide, by decide,
    C3_findByPos_rank scenarioWorld scenarioWorld_reachable 8 3 (by decide) (by decide)
      (by decide)⟩

/-! ## Insertion on reachable states -/

theorem filter_split {α : Type} (p q : α → Bool) (l1 l2 : List α)
    (h1 : ∀ e ∈ l1, p e = true ∧ q e = false) (h2 : ∀ e ∈ l2, p e = false ∧ q e = true) :
    (l1 ++ l2).filter p = l1 ∧ (l1 ++ l2).filter q = l2 := by
  rw [List.filter_append, List.filter_append]
  have a1 : l1.filter p = l1 := List.filter_eq_self.2 (fun e he => (h1 e he).1)
  have a2 : l2.filter p = [] := List.filter_eq_nil_iff.2 (fun e he => by simp [(h2 e he).1])
  have a3 : l1.filter q = [] := List.filter_eq_nil_iff.2 (fun e he => by simp [(h1 e he).2])
  have a4 : l2.filter q = l2 := List.filter_eq_self.2 (fun e he => (h2 e he).2)
  rw [a1, a2, a3, a4]
  simp

/-- Go `Insert` on a reachable state: the new tree and how the old cells are divided. -/
theorem Insert_reachable {w : World} (h : Reachable w) (v : Int) (fuel : Nat)
    (hf : Size w.mem w.st < (fuel : Int)) :
    ∃ (m1 : Mem) (t L R : Tree), Rep w.mem none t ∧ w.st.root = t.root ∧
      w.next ∉ t.addrs ∧
      Insert fuel w v =
        .ok ({ mem := m1, next := w.next + 1,
               st := { root := some w.next, step := w.st.step,
                       nodes := w.st.nodes ++ [w.next] } }, R.size) ∧
      Rep m1 none (Tree.node L w.next v R) ∧ L.cells ++ R.cells = t.cells ∧
      (∀ e ∈ L.cells, e.2 ≤ v) ∧ (∀ e ∈ R.cells, v < e.2) := by
  obtain ⟨t, hT, _, hroot, hnd, hlt, hs, hsz⟩ := h.tree
  rw [hsz] at hf
  have hfuel : t.cells.length ≤ fuel := by
    have : t.cells.length < fuel := by exact_mod_cast hf
    omega
  obtain ⟨m1, TL, TR, hrun, hT1, hcells, hle, hgt⟩ :=
    Insert_spec v fuel hT hroot hnd hlt hs hfuel
  exact ⟨m1, t, TL, TR, hT, hroot, fun h => Nat.lt_irrefl _ (hlt _ h), hrun, hT1, hcells,
    hle, hgt⟩

/-- C4: on every reachable tree (in particular one built by inserts only) and for every value
`v`, `Insert(v)` returns a position `pos` (given fuel beyond the tree size) and, right after
that insert, `FindByPos(pos)` returns a node whose value is `v`. -/
theorem C4_insert_findByPos_roundtrip (w : World) (h : Reachable w) (v : Int) (fuel : Nat)
    (hf : Size w.mem w.st < (fuel : Int)) :
    ∃ (w1 : World) (pos : Int) (a : Nat), Insert fuel w v = .ok (w1, pos) ∧
      FindByPos fuel w1.mem w1.st pos = .ok (some a) ∧ (w1.mem a).value = v := by
  obtain ⟨m1, t, L, R, hT, hroot, _, hrun, hT1, _, _, _⟩ := Insert_reachable h v fuel hf
  refine ⟨_, _, w.next, hrun, ?_, ?_⟩
  · obtain ⟨ha, _, hR⟩ := hT1
    have hpos : 0 < fuel := by
      have := Rep.size_eq_Size hT hroot
      rw [this] at hf
      have : (0 : Int) < (fuel : Int) := lt_of_le_of_lt (Int.natCast_nonneg _) hf
      exact_mod_cast this
    obtain ⟨f, rfl⟩ := Nat.exists_eq_succ_of_ne_zero (Nat.pos_iff_ne_zero.1 hpos)
    have hsn := Tree.size_nonneg L
    have hc := Rep.counter_root hR
    have hcnt : (m1 w.next).counter = 1 + L.size + R.size := by rw [ha]
    have hright : (m1 w.next).right = R.root := by rw [ha]
    have hge : ¬ (R.size ≥ 1 + L.size + R.size) := by omega
    simp only [FindByPos, hcnt, hge, if_false, findByPosLoop, hright]
    cases hr : R.root with
    | none =>
      have hRn := Tree.root_eq_none hr
      subst hRn
      simp
    | some b =>
      rw [hr] at hc
      simp only [cnt] at hc
      simp [hc]
  · simp only
    rw [hT1.1]

theorem C4_insert_findByPos_roundtrip_witness :
    Reachable scenarioWorld ∧ Size scenarioWorld.mem scenarioWorld.st < ((8 : Nat) : Int) ∧
      ∃ (w1 : World) (pos : Int) (a : Nat), Insert 8 scenarioWorld 4 = .ok (w1, pos) ∧
        FindByPos 8 w1.mem w1.st pos = .ok (some a) ∧ (w1.mem a).value = 4 :=
  ⟨scenarioWorld_reachable, by decide,
    C4_insert_findByPos_roundtrip scenarioWorld scenarioWorld_reachable 4 8 (by decide)⟩

/-- C5: on every reachable tree `T` and for every value `v`, `Insert(v)` (given fuel beyond
the tree size) makes the freshly allocated node the root, with exactly the old cells of value
`<= v` as its left subtree and exactly the old cells of value `> v` as its right subtree, both
in their old order, so that the new in-order sequence is the old one with `v` put after the
last element `<= v`; `Size()` grows by exactly 1 and the returned position is the number of
old elements strictly greater than `v`. -/
theorem C5_insert_spec (w : World) (h : Reachable w) (v : Int) (fuel : Nat)
    (hf : Size w.mem w.st < (fuel : Int)) :
    ∃ (w1 : World) (t L R : Tree), Shape w.mem w.st.root t ∧
      Insert fuel w v = .ok (w1, ((t.vals.filter (fun x => decide (v < x))).length : Int)) ∧
      w1.st.root = some w.next ∧ w.next ∉ t.addrs ∧
      Shape w1.mem w1.st.root (Tree.node L w.next v R) ∧
      L.cells = t.cells.filter (fun e => decide (e.2 ≤ v)) ∧
      R.cells = t.cells.filter (fun e => decide (v < e.2)) ∧
      t.cells = L.cells ++ R.cells ∧
      (Tree.node L w.next v R).vals
        = t.vals.filter (fun x => decide (x ≤ v)) ++ v :: t.vals.filter (fun x => decide (v < x)) ∧
      Size w1.mem w1.st = Size w.mem w.st + 1 := by
  obtain ⟨m1, t, L, R, hT, hroot, hfresh, hrun, hT1, hcells, hle, hgt⟩ :=
    Insert_reachable h v fuel hf
  have hfc := filter_split (fun e : Nat × Int => decide (e.2 ≤ v))
    (fun e : Nat × Int => decide (v < e.2)) L.cells R.cells
    (fun e he => by have := hle e he; simp; omega)
    (fun e he => by have := hgt e he; simp; omega)
  have hvals : L.vals ++ R.vals = t.vals := by
    unfold Tree.vals; rw [← List.map_append, hcells]
  have hfv := filter_split (fun x : Int => decide (x ≤ v)) (fun x : Int => decide (v < x))
    L.vals R.vals
    (fun x hx => by
      simp only [Tree.vals, List.mem_map] at hx
      obtain ⟨e, he, rfl⟩ := hx
      have := hle e he; simp; omega)
    (fun x hx => by
      simp only [Tree.vals, List.mem_map] at hx
      obtain ⟨e, he, rfl⟩ := hx
      have := hgt e he; simp; omega)
  rw [hcells] at hfc
  rw [hvals] at hfv
  refine ⟨⟨m1, w.next + 1, ⟨some w.next, w.st.step, w.st.nodes ++ [w.next]⟩⟩, t, L, R, ?_, ?_,
    rfl, hfresh, Rep.shape hT1, hfc.1.symm, hfc.2.symm, hcells.symm, ?_, ?_⟩
  · rw [hroot]; exact Rep.shape hT
  · rw [hrun, hfv.2, Tree.length_vals, Tree.size_eq_length]
  · rw [Tree.vals_node, hfv.1, hfv.2]
  · have h1 := Rep.size_eq_Size (w := ⟨m1, w.next + 1, ⟨some w.next, w.st.step,
      w.st.nodes ++ [w.next]⟩⟩) hT1 rfl
    rw [h1, Rep.size_eq_Size hT hroot, ← hcells]
    simp only [Tree.cells_node, List.length_append, List.length_cons, Nat.cast_add,
      Nat.cast_succ]
    ring

theorem C5_insert_spec_witness :
    Reachable scenarioWorld ∧ Size scenarioWorld.mem scenarioWorld.st < ((8 : Nat) : Int) ∧
      ∃ (w1 : World) (t L R : Tree), Shape scenarioWorld.mem scenarioWorld.st.root t ∧
        Insert 8 scenarioWorld 4
          = .ok (w1, ((t.vals.filter (fun x => decide ((4 : Int) < x))).length : Int)) ∧
        w1.st.root = some scenarioWorld.next ∧ scenarioWorld.next ∉ t.addrs ∧
        Shape w1.mem w1.st.root (Tree.node L scenarioWorld.next 4 R) ∧
        L.cells = t.cells.filter (fun e => decide (e.2 ≤ 4)) ∧
        R.cells = t.cells.filter (fun e => decide (4 < e.2)) ∧
        t.cells = L.cells ++ R.cells ∧
        (Tree.node L scenarioWorld.next 4 R).vals
          = t.vals.filter (fun x => decide (x ≤ 4))
            ++ 4 :: t.vals.filter (fun x => decide ((4 : Int) < x)) ∧
        Size w1.mem w1.st = Size scenarioWorld.mem scenarioWorld.st + 1 :=
  ⟨scenarioWorld_reachable, by decide,
    C5_insert_spec scenarioWorld scenarioWorld_reachable 4 8 (by decide)⟩

/-! ## Removal on reachable states -/

/-- Go `Remove` at an in-range position of a reachable state: the removed cell and the new
tree. -/
theorem Remove_reachable {w : World} (h : Reachable w) (fuel : Nat) (pos : Int)
    (h0 : 0 ≤ pos) (h1 : pos < Size w.mem w.st) (hf : Size w.mem w.st < (fuel : Int)) :
    ∃ (m1 : Mem) (t T : Tree) (L R : List (Nat × Int)) (x : Nat) (vx : Int),
      Rep w.mem none t ∧ w.st.root = t.root ∧ t.addrs.Nodup ∧
      FindByPos fuel w.mem w.st pos = .ok (some x) ∧
      Remove fuel w pos = .ok { w with mem := m1, st := { w.st with root := T.root } } ∧
      Rep m1 none T ∧ t.cells = L ++ (x, vx) :: R ∧ T.cells = L ++ R ∧
      R.length = pos.toNat := by
  obtain ⟨t, hT, _, hroot, hnd, _, _, hsz⟩ := h.tree
  rw [hsz] at h1 hf
  obtain ⟨k, rfl⟩ := Int.eq_ofNat_of_zero_le h0
  have hk : k < t.cells.length := by exact_mod_cast h1
  have hfuel : t.cells.length < fuel := by exact_mod_cast hf
  obtain ⟨m1, T, L, R, x, vx, hfind, hrun, hT1, hc, hc1, hlen⟩ :=
    Remove_spec k fuel hT hroot hnd hfuel hk
  exact ⟨m1, t, T, L, R, x, vx, hT, hroot, hnd, hfind, hrun, hT1, hc, hc1, by simpa using hlen⟩

theorem Remove_eq_removeW {w : World} {fuel : Nat} {pos : Int}
    (h : returns (Remove fuel w pos) = true) :
    Remove fuel w pos = .ok (removeW fuel w pos) := by
  unfold removeW
  cases hr : Remove fuel w pos with
  | error e => simp [returns, hr] at h
  | ok p => rfl

/-- C6: on every reachable tree of size `n` and for every `pos` with `0 <= pos < n`,
`Remove(pos)` (given fuel beyond the tree size) leaves a tree with `Size() = n - 1` whose
descending-order value sequence is the old one with exactly the entry at index `pos` deleted,
all other entries in their old relative order. -/
theorem C6_remove_spec (w : World) (h : Reachable w) (fuel : Nat) (pos : Int)
    (h0 : 0 ≤ pos) (h1 : pos < Size w.mem w.st) (hf : Size w.mem w.st < (fuel : Int)) :
    ∃ (w1 : World) (t t1 : Tree), Shape w.mem w.st.root t ∧ Remove fuel w pos = .ok w1 ∧
      Shape w1.mem w1.st.root t1 ∧ Size w1.mem w1.st = Size w.mem w.st - 1 ∧
      t1.vals.reverse = t.vals.reverse.eraseIdx pos.toNat := by
  obtain ⟨m1, t, T, L, R, x, vx, hT, hroot, _, _, hrun, hT1, hc, hc1, hlen⟩ :=
    Remove_reachable h fuel pos h0 h1 hf
  refine ⟨{ w with mem := m1, st := { w.st with root := T.root } }, t, T, ?_, hrun,
    Rep.shape hT1, ?_, ?_⟩
  · rw [hroot]; exact Rep.shape hT
  · have e1 := Rep.size_eq_Size (w := ⟨m1, w.next, ⟨T.root, w.st.step, w.st.nodes⟩⟩) hT1 rfl
    have e2 := Rep.size_eq_Size hT hroot
    simp only at e1
    rw [e1, e2, hc, hc1]
    simp only [List.length_append, List.length_cons, Nat.cast_add, Nat.cast_succ]
    ring
  · unfold Tree.vals
    rw [hc, hc1, ← hlen]
    simp only [List.map_append, List.map_cons, List.reverse_append, List.reverse_cons,
      List.append_assoc, List.singleton_append]
    rw [List.eraseIdx_append_of_length_le (by simp)]
    simp

theorem C6_remove_spec_witness :
    Reachable scenarioWorld ∧ (0 : Int) ≤ 0 ∧ 0 < Size scenarioWorld.mem scenarioWorld.st ∧
      Size scenarioWorld.mem scenarioWorld.st < ((8 : Nat) : Int) ∧
      ∃ (w1 : World) (t t1 : Tree), Shape scenarioWorld.mem scenarioWorld.st.root t ∧
        Remove 8 scenarioWorld 0 = .ok w1 ∧
        Shape w1.mem w1.st.root t1 ∧
        Size w1.mem w1.st = Size scenarioWorld.mem scenarioWorld.st - 1 ∧
        t1.vals.reverse = t.vals.reverse.eraseIdx (0 : Int).toNat :=
  ⟨scenarioWorld_reachable, by decide, by decide, by decide,
    C6_remove_spec scenarioWorld scenarioWorld_reachable 8 0 (by decide) (by decide)
      (by decide)⟩

/-- The scenario of the specification: after inserting 5, 3, 8, 1 the size is 4 and the
in-order traversal is 1, 3, 5, 8; `Remove(0)` removes the node holding 8, after which the size
is 3 and `FindByPos(0)` holds 5. -/
theorem scenario_remove_max :
    Size scenarioWorld.mem scenarioWorld.st = 4 ∧
    Shape scenarioWorld.mem scenarioWorld.st.root
      (Tree.node Tree.nil 3 1 (Tree.node Tree.nil 1 3
        (Tree.node Tree.nil 0 5 (Tree.node Tree.nil 2 8 Tree.nil)))) ∧
    FindByPos 8 scenarioWorld.mem scenarioWorld.st 0 = .ok (some 2) ∧
    (scenarioWorld.mem 2).value = 8 ∧
    Remove 8 scenarioWorld 0 = .ok (removeW 8 scenarioWorld 0) ∧
    Size (removeW 8 scenarioWorld 0).mem (removeW 8 scenarioWorld 0).st = 3 ∧
    FindByPos 8 (removeW 8 scenarioWorld 0).mem (removeW 8 scenarioWorld 0).st 0
      = .ok (some 0) ∧
    ((removeW 8 scenarioWorld 0).mem 0).value = 5 := by
  refine ⟨by decide, ?_, by decide, by decide, Remove_eq_removeW (by decide), by decide,
    by decide, by decide⟩
  simp only [Shape]
  decide

/-- C7 (as stated) fails with duplicates: in the tree built by inserting 5 twice, `Remove(0)`
removes a node holding 5, and 5 still appears in the in-order traversal afterwards. -/
theorem C7_removed_value_still_present :
    Reachable twinWorld ∧ (0 : Int) ≤ 0 ∧ 0 < Size twinWorld.mem twinWorld.st ∧
      FindByPos 8 twinWorld.mem twinWorld.st 0 = .ok (some 1) ∧
      (twinWorld.mem 1).value = 5 ∧
      Remove 8 twinWorld 0 = .ok (removeW 8 twinWorld 0) ∧
      Shape (removeW 8 twinWorld 0).mem (removeW 8 twinWorld 0).st.root
        (Tree.node Tree.nil 0 5 Tree.nil) ∧
      (5 : Int) ∈ (Tree.node Tree.nil 0 5 Tree.nil).vals := by
  refine ⟨twinWorld_reachable, by decide, by decide, by decide, by decide,
    Remove_eq_removeW (by decide), ?_, by decide⟩
  simp only [Shape]
  decide

/-- C7 (amended): on every reachable tree of size `n` and for every `pos` with
`0 <= pos < n`, `Remove(pos)` (given fuel beyond the tree size) yields a tree of size `n - 1`
that no longer contains the removed node, and in whose in-order traversal the removed value
occurs exactly once less than before; so the value no longer appears if it occurred once. -/
theorem C7_remove_conservation (w : World) (h : Reachable w) (fuel : Nat) (pos : Int)
    (h0 : 0 ≤ pos) (h1 : pos < Size w.mem w.st) (hf : Size w.mem w.st < (fuel : Int)) :
    ∃ (w1 : World) (a : Nat) (t t1 : Tree), Shape w.mem w.st.root t ∧
      FindByPos fuel w.mem w.st pos = .ok (some a) ∧ a ∈ t.addrs ∧
      Remove fuel w pos = .ok w1 ∧ Shape w1.mem w1.st.root t1 ∧
      Size w1.mem w1.st = Size w.mem w.st - 1 ∧ a ∉ t1.addrs ∧
      t1.vals.count (w.mem a).value + 1 = t.vals.count (w.mem a).value ∧
      (t.vals.count (w.mem a).value = 1 → (w.mem a).value ∉ t1.vals) := by
  obtain ⟨m1, t, T, L, R, x, vx, hT, hroot, hnd, hfind, hrun, hT1, hc, hc1, hlen⟩ :=
    Remove_reachable h fuel pos h0 h1 hf
  have hxv : (w.mem x).value = vx := by
    have := Rep.value_of_mem hT (x, vx) (by rw [hc]; simp)
    simpa using this
  have hcount : T.vals.count vx + 1 = t.vals.count vx := by
    unfold Tree.vals
    rw [hc, hc1]
    simp only [List.map_append, List.map_cons, List.count_append, List.count_cons_self]
    omega
  have hnd2 : ((L ++ (x, vx) :: R).map Prod.fst).Nodup := by
    have := hnd
    unfold Tree.addrs at this
    rw [hc] at this
    exact this
  simp only [List.map_append, List.map_cons] at hnd2
  obtain ⟨hxL, hxR, _, _, _⟩ := nodup_cons_append (List.perm_middle.nodup_iff.1 hnd2)
  refine ⟨{ w with mem := m1, st := { w.st with root := T.root } }, x, t, T, ?_, hfind, ?_,
    hrun, Rep.shape hT1, ?_, ?_, ?_, ?_⟩
  · rw [hroot]; exact Rep.shape hT
  · unfold Tree.addrs; rw [hc]; simp
  · have e1 := Rep.size_eq_Size (w := ⟨m1, w.next, ⟨T.root, w.st.step, w.st.nodes⟩⟩) hT1 rfl
    have e2 := Rep.size_eq_Size hT hroot
    simp only at e1
    rw [e1, e2, hc, hc1]
    simp only [List.length_append, List.length_cons, Nat.cast_add, Nat.cast_succ]
    ring
  · unfold Tree.addrs
    rw [hc1]
    simp only [List.map_append, List.mem_append, not_or]
    exact ⟨hxL, hxR⟩
  · rw [hxv]; exact hcount
  · rw [hxv]
    intro h1 hmem
    have := List.count_pos_iff.2 hmem
    omega

theorem C7_remove_conservation_witness :
    Reachable twinWorld ∧ (0 : Int) ≤ 0 ∧ 0 < Size twinWorld.mem twinWorld.st ∧
      Size twinWorld.mem twinWorld.st < ((8 : Nat) : Int) ∧
      ∃ (w1 : World) (a : Nat) (t t1 : Tree), Shape twinWorld.mem twinWorld.st.root t ∧
        FindByPos 8 twinWorld.mem twinWorld.st 0 = .ok (some a) ∧ a ∈ t.addrs ∧
        Remove 8 twinWorld 0 = .ok w1 ∧ Shape w1.mem w1.st.root t1 ∧
        Size w1.mem w1.st = Size twinWorld.mem twinWorld.st - 1 ∧ a ∉ t1.addrs ∧
        t1.vals.count (twinWorld.mem a).value + 1 = t.vals.count (twinWorld.mem a).value ∧
        (t.vals.count (twinWorld.mem a).value = 1 → (twinWorld.mem a).value ∉ t1.vals) :=
  ⟨twinWorld_reachable, by decide, by decide, by decide,
    C7_remove_conservation twinWorld twinWorld_reachable 8 0 (by decide) (by decide)
      (by decide)⟩

/-! ## Out-of-range positions and search by value -/

/-- Go `FindByPos` at an out-of-range position of a reachable state returns `nil`. -/
theorem FindByPos_out_of_range {w : World} (h : Reachable w) (fuel : Nat) (pos : Int)
    (hp : pos < 0 ∨ Size w.mem w.st ≤ pos) (hf : Size w.mem w.st < (fuel : Int)) :
    FindByPos fuel w.mem w.st pos = .ok none := by
  obtain ⟨t, hT, _, hroot, _, _, _, hsz⟩ := h.tree
  cases ht : t with
  | nil =>
    rw [ht] at hroot
    simp only [Tree.root_nil] at hroot
    simp [FindByPos, hroot]
  | node l a v r =>
    have hroot1 : w.st.root = some a := by rw [hroot, ht]; rfl
    have hsize : Size w.mem w.st = (w.mem a).counter := by simp [Size, hroot1]
    simp only [FindByPos, hroot1]
    rcases hp with hp | hp
    · have hnn : 0 ≤ Size w.mem w.st := by rw [hsz]; exact Int.natCast_nonneg _
      have hge : ¬ (pos ≥ (w.mem a).counter) := by rw [← hsize]; omega
      simp only [hge, if_false]
      have hfuel : t.cells.length < fuel := by rw [hsz] at hf; exact_mod_cast hf
      have := findByPosLoop_neg t none fuel pos hT hfuel hp
      rw [ht] at this
      exact this
    · have hge : pos ≥ (w.mem a).counter := by rw [← hsize]; exact hp
      simp only [hge, if_true]

/-- Go `Remove` at an out-of-range position of a reachable state ends in a nil dereference. -/
theorem Remove_out_of_range (w : World) (h : Reachable w) (fuel : Nat)
    (pos : Int) (hp : pos < 0 ∨ Size w.mem w.st ≤ pos) (hf : Size w.mem w.st < (fuel : Int)) :
    Remove fuel w pos = .error Fault.nilDeref := by
  simp only [Remove, FindByPos_out_of_range h fuel pos hp hf, remove, splay]

/-- C8 (the code at the failing inputs): on every reachable tree, `Remove(pos)` with
`pos < 0` or `pos >= Size()` does not return an out-of-range result: `FindByPos` yields `nil`,
`remove(nil)` dereferences it, and the run ends in a nil-dereference panic. -/
theorem C8_remove_out_of_range_panics (w : World) (h : Reachable w) (fuel : Nat) (pos : Int)
    (hp : pos < 0 ∨ Size w.mem w.st ≤ pos) (hf : Size w.mem w.st < (fuel : Int)) :
    Remove fuel w pos = .error Fault.nilDeref :=
  Remove_out_of_range w h fuel pos hp hf

theorem C8_remove_out_of_range_panics_witness :
    Reachable scenarioWorld ∧
      ((4 : Int) < 0 ∨ Size scenarioWorld.mem scenarioWorld.st ≤ 4) ∧
      Size scenarioWorld.mem scenarioWorld.st < ((8 : Nat) : Int) ∧
      Remove 8 scenarioWorld 4 = .error Fault.nilDeref :=
  ⟨scenarioWorld_reachable, by decide, by decide,
    C8_remove_out_of_range_panics scenarioWorld scenarioWorld_reachable 8 4 (by decide)
      (by decide)⟩

/-- The failing inputs of C8, evaluated: `Remove(0)` on the empty tree, and `Remove(4)` and
`Remove(-1)` on the scenario tree of size 4, all end in a nil-dereference panic. -/
theorem remove_panics_examples :
    Remove 8 World.init 0 = .error Fault.nilDeref ∧
    Remove 8 scenarioWorld 4 = .error Fault.nilDeref ∧
    Remove 8 scenarioWorld (-1) = .error Fault.nilDeref := by
  refine ⟨?_, ?_, ?_⟩
  · exact Remove_out_of_range World.init Reachable.empty 8 0 (by decide)
      (by decide)
  · exact Remove_out_of_range scenarioWorld scenarioWorld_reachable 8 4
      (by decide) (by decide)
  · exact Remove_out_of_range scenarioWorld scenarioWorld_reachable 8 (-1)
      (by decide) (by decide)

/-- C9: on every reachable tree (the empty tree included), `FindByPos(pos)` with `pos < 0` or
`pos >= Size()` returns no node (given fuel beyond the tree size).  `FindByPos` only reads the
heap: the Go body stores nothing, so the model returns no new memory and the tree is the
same after the call. -/
theorem C9_findByPos_out_of_range (w : World) (h : Reachable w) (fuel : Nat) (pos : Int)
    (hp : pos < 0 ∨ Size w.mem w.st ≤ pos) (hf : Size w.mem w.st < (fuel : Int)) :
    FindByPos fuel w.mem w.st pos = .ok none :=
  FindByPos_out_of_range h fuel pos hp hf

theorem C9_findByPos_out_of_range_witness :
    Reachable scenarioWorld ∧
      ((-1 : Int) < 0 ∨ Size scenarioWorld.mem scenarioWorld.st ≤ -1) ∧
      Size scenarioWorld.mem scenarioWorld.st < ((8 : Nat) : Int) ∧
      FindByPos 8 scenarioWorld.mem scenarioWorld.st (-1) = .ok none :=
  ⟨scenarioWorld_reachable, by decide, by decide,
    C9_findByPos_out_of_range scenarioWorld scenarioWorld_reachable 8 (-1) (by decide)
      (by decide)⟩

/-- C10: on every reachable tree (duplicates allowed) and for every value `v`,
`FindByValue(v)` (given fuel beyond the tree size) returns a node of the tree holding `v` if
`v` occurs in the tree, and returns `nil` exactly if `v` does not occur.  `FindByValue` only
reads the heap, so the shape of the tree is the same after the call. -/
theorem C10_findByValue_spec (w : World) (h : Reachable w) (fuel : Nat) (v : Int)
    (hf : Size w.mem w.st < (fuel : Int)) :
    ∃ t : Tree, Shape w.mem w.st.root t ∧
      (v ∈ t.vals → ∃ a, FindByValue fuel w.mem w.st v = .ok (some a) ∧ a ∈ t.addrs ∧
        (w.mem a).value = v) ∧
      (FindByValue fuel w.mem w.st v = .ok none ↔ v ∉ t.vals) := by
  obtain ⟨t, hT, hsh, hroot, _, _, hs, hsz⟩ := h.tree
  have hfuel : t.cells.length < fuel := by rw [hsz] at hf; exact_mod_cast hf
  obtain ⟨h1, h2⟩ := findByValueLoop_rep v t none fuel hT hs hfuel
  rw [← hroot] at h1 h2
  refine ⟨t, hsh, h1, ?_, h2⟩
  intro hnone hmem
  obtain ⟨a, ha, _, _⟩ := h1 hmem
  simp only [FindByValue] at hnone
  rw [hnone] at ha
  simp at ha

theorem C10_findByValue_spec_witness :
    Reachable scenarioWorld ∧ Size scenarioWorld.mem scenarioWorld.st < ((8 : Nat) : Int) ∧
      ∃ t : Tree, Shape scenarioWorld.mem scenarioWorld.st.root t ∧
        ((3 : Int) ∈ t.vals → ∃ a, FindByValue 8 scenarioWorld.mem scenarioWorld.st 3
            = .ok (some a) ∧ a ∈ t.addrs ∧ (scenarioWorld.mem a).value = 3) ∧
        (FindByValue 8 scenarioWorld.mem scenarioWorld.st 3 = .ok none ↔ (3 : Int) ∉ t.vals) :=
  ⟨scenarioWorld_reachable, by decide,
    C10_findByValue_spec scenarioWorld scenarioWorld_reachable 8 3 (by decide)⟩

/-- The lookup scenario of the specification: on the tree built from 5, 3, 8, 1,
`FindByValue(3)` is present with value 3 and `FindByValue(42)` is absent. -/
theorem scenario_findByValue :
    FindByValue 8 scenarioWorld.mem scenarioWorld.st 3 = .ok (some 1) ∧
    (scenarioWorld.mem 1).value = 3 ∧
    FindByValue 8 scenarioWorld.mem scenarioWorld.st 42 = .ok none := by
  decide

/-! ## Split and merge as operations on well-formed trees -/

theorem Rep.size_of_root {m : Mem} {st : SplayTree} {par : Ptr} {t : Tree} (hT : Rep m par t)
    (hroot : st.root = t.root) : Size m st = (t.cells.length : Int) := by
  rw [← Tree.size_eq_length, ← Rep.counter_root hT]
  simp only [Size, cnt, hroot]

theorem Rep.root_parentless {m : Mem} {t : Tree} (hT : Rep m none t) (r : Nat)
    (hr : t.root = some r) : (m r).parent = none := by
  cases t with
  | nil => simp at hr
  | node l a v r0 =>
    simp only [Tree.root_node, Option.some.injEq] at hr
    subst hr
    rw [hT.1]

/-- C11: for every tree `T` (a finite pointer structure without shared cells whose parent
fields are the structural parents) with exact counters and a non-decreasing in-order
traversal, and every boundary `b`, `split(b)` returns, given fuel of at least the tree size,
two trees `L` and `R`: `L` holds exactly the cells of value `<= b`, `R` exactly those of value
`> b`, in their old order, so that in-order(L) followed by in-order(R) is in-order(T); both
have exact counters and parentless roots; the receiver is empty afterwards, and splitting the
empty tree gives two empty trees. -/
theorem C11_split_spec (m : Mem) (st : SplayTree) (t : Tree) (b : Int) (fuel : Nat)
    (hT : Rep m none t) (hroot : st.root = t.root) (hnd : t.addrs.Nodup)
    (hs : t.vals.Sorted (· ≤ ·)) (hfuel : t.cells.length ≤ fuel) :
    ∃ (m1 : Mem) (st1 lt rt : SplayTree) (TL TR : Tree),
      split fuel m st b = .ok (m1, st1, lt, rt) ∧ st1.root = none ∧
      Shape m1 lt.root TL ∧ Shape m1 rt.root TR ∧ Rep m1 none TL ∧ Rep m1 none TR ∧
      TL.cells = t.cells.filter (fun e => decide (e.2 ≤ b)) ∧
      TR.cells = t.cells.filter (fun e => decide (b < e.2)) ∧
      TL.cells ++ TR.cells = t.cells ∧
      (∀ a ∈ TL.addrs ++ TR.addrs,
        (m1 a).counter = 1 + cnt m1 (m1 a).left + cnt m1 (m1 a).right) ∧
      (∀ r, lt.root = some r ∨ rt.root = some r → (m1 r).parent = none) ∧
      (t = Tree.nil → lt.root = none ∧ rt.root = none) := by
  obtain ⟨m1, TL, TR, hrun, hTL, hTR, hcells, hle, hgt, _⟩ :=
    split_rep st b fuel hT hroot hnd hs hfuel
  have hfc := filter_split (fun e : Nat × Int => decide (e.2 ≤ b))
    (fun e : Nat × Int => decide (b < e.2)) TL.cells TR.cells
    (fun e he => by have := hle e he; simp; omega)
    (fun e he => by have := hgt e he; simp; omega)
  rw [hcells] at hfc
  refine ⟨m1, _, _, _, TL, TR, hrun, rfl, Rep.shape hTL, Rep.shape hTR, hTL, hTR, hfc.1.symm,
    hfc.2.symm, hcells, ?_, ?_, ?_⟩
  · intro a ha
    rcases List.mem_append.1 ha with h | h
    · exact Rep.counter_of_mem hTL a h
    · exact Rep.counter_of_mem hTR a h
  · intro r hr
    rcases hr with h | h
    · exact Rep.root_parentless hTL r h
    · exact Rep.root_parentless hTR r h
  · intro ht
    subst ht
    simp only [Tree.cells_nil, List.append_eq_nil] at hcells
    rw [Tree.cells_eq_nil hcells.1, Tree.cells_eq_nil hcells.2]
    exact ⟨rfl, rfl⟩

theorem scenarioWorld_rep : Rep scenarioWorld.mem none scenarioTree := by
  simp only [Rep, scenarioTree]
  decide

theorem C11_split_spec_witness :
    Rep scenarioWorld.mem none scenarioTree ∧ scenarioWorld.st.root = scenarioTree.root ∧
      scenarioTree.addrs.Nodup ∧ scenarioTree.vals.Sorted (· ≤ ·) ∧
      scenarioTree.cells.length ≤ 8 ∧
      ∃ (m1 : Mem) (st1 lt rt : SplayTree) (TL TR : Tree),
        split 8 scenarioWorld.mem scenarioWorld.st 4 = .ok (m1, st1, lt, rt) ∧
        st1.root = none ∧
        Shape m1 lt.root TL ∧ Shape m1 rt.root TR ∧ Rep m1 none TL ∧ Rep m1 none TR ∧
        TL.cells = scenarioTree.cells.filter (fun e => decide (e.2 ≤ 4)) ∧
        TR.cells = scenarioTree.cells.filter (fun e => decide (4 < e.2)) ∧
        TL.cells ++ TR.cells = scenarioTree.cells ∧
        (∀ a ∈ TL.addrs ++ TR.addrs,
          (m1 a).counter = 1 + cnt m1 (m1 a).left + cnt m1 (m1 a).right) ∧
        (∀ r, lt.root = some r ∨ rt.root = some r → (m1 r).parent = none) ∧
        (scenarioTree = Tree.nil → lt.root = none ∧ rt.root = none) :=
  ⟨scenarioWorld_rep, by decide, by decide, by decide, by decide,
    C11_split_spec scenarioWorld.mem scenarioWorld.st scenarioTree 4 8 scenarioWorld_rep
      (by decide) (by decide) (by decide) (by decide)⟩

/-- Merge of two well-formed trees, the second strictly above the first. -/
theorem merge_sorted {m : Mem} {A B : Tree} (st tree : SplayTree) (fuel : Nat)
    (hA : Rep m none A) (hB : Rep m none B) (hrA : st.root = A.root)
    (hrB : tree.root = B.root) (hnd : (A.addrs ++ B.addrs).Nodup)
    (hsA : A.vals.Sorted (· ≤ ·)) (hsB : B.vals.Sorted (· ≤ ·))
    (hlt : ∀ x ∈ A.vals, ∀ y ∈ B.vals, x < y) (hfuel : A.cells.length < fuel) :
    ∃ (m1 : Mem) (T : Tree), merge fuel m st tree = .ok (m1, { st with root := T.root }) ∧
      Rep m1 none T ∧ T.cells = A.cells ++ B.cells ∧ T.vals.Sorted (· ≤ ·) ∧
      (A = Tree.nil → T.root = tree.root) := by
  obtain ⟨m1, T, hrun, hT, hc, _⟩ := merge_rep st tree fuel hA hB hrA hrB hnd hfuel
  refine ⟨m1, T, hrun, hT, hc, ?_, ?_⟩
  · unfold Tree.vals
    rw [hc, List.map_append]
    exact List.pairwise_append.2 ⟨hsA, hsB, fun x hx y hy => le_of_lt (hlt x hx y hy)⟩
  · intro hnil
    subst hnil
    simp only [Tree.root_nil] at hrA
    have h2 : merge fuel m st tree = .ok (setRoot m st tree.root) := by
      simp only [merge, hrA]
    rw [h2] at hrun
    have h3 : (setRoot m st tree.root).2 = { st with root := tree.root } := by
      cases tree.root <;> rfl
    simp only [Except.ok.injEq] at hrun
    have h4 := congrArg Prod.snd hrun
    simp only at h4
    rw [h3] at h4
    have h5 := congrArg SplayTree.root h4
    simpa using h5.symm

/-- C12: for every pair of well-formed trees `A` and `B` over separate cells such that every
value in `B` is strictly greater than every value in `A`, `A.merge(B)` (given fuel beyond the
size of `A`) leaves `A` as a tree with in-order(A) followed by in-order(B) as its in-order
sequence, `Size` the sum of both sizes, exact counters and a sorted in-order traversal; if `A`
is empty, `A` adopts the root of `B`. -/
theorem C12_merge_spec (m : Mem) (st tree : SplayTree) (A B : Tree) (fuel : Nat)
    (hA : Rep m none A) (hB : Rep m none B) (hrA : st.root = A.root)
    (hrB : tree.root = B.root) (hnd : (A.addrs ++ B.addrs).Nodup)
    (hsA : A.vals.Sorted (· ≤ ·)) (hsB : B.vals.Sorted (· ≤ ·))
    (hlt : ∀ x ∈ A.vals, ∀ y ∈ B.vals, x < y) (hfuel : A.cells.length < fuel) :
    ∃ (m1 : Mem) (st1 : SplayTree) (T : Tree), merge fuel m st tree = .ok (m1, st1) ∧
      Shape m1 st1.root T ∧ Rep m1 none T ∧ T.cells = A.cells ++ B.cells ∧
      Size m1 st1 = Size m st + Size m tree ∧
      (∀ a ∈ T.addrs, (m1 a).counter = 1 + cnt m1 (m1 a).left + cnt m1 (m1 a).right) ∧
      T.vals.Sorted (· ≤ ·) ∧ (A = Tree.nil → st1.root = tree.root) := by
  obtain ⟨m1, T, hrun, hT, hc, hs, hnil⟩ :=
    merge_sorted st tree fuel hA hB hrA hrB hnd hsA hsB hlt hfuel
  refine ⟨m1, { st with root := T.root }, T, hrun, Rep.shape hT, hT, hc, ?_,
    Rep.counter_of_mem hT, hs, hnil⟩
  rw [Rep.size_of_root hT rfl, Rep.size_of_root hA hrA, Rep.size_of_root hB hrB, hc]
  simp

theorem pairMem_rep :
    Rep pairMem none (Tree.node Tree.nil 0 1 Tree.nil) ∧
      Rep pairMem none (Tree.node Tree.nil 1 2 Tree.nil) := by
  simp only [Rep]
  decide

theorem C12_merge_spec_witness :
    Rep pairMem none (Tree.node Tree.nil 0 1 Tree.nil) ∧
      Rep pairMem none (Tree.node Tree.nil 1 2 Tree.nil) ∧
      ∃ (m1 : Mem) (st1 : SplayTree) (T : Tree),
        merge 2 pairMem ⟨some 0, 0, []⟩ ⟨some 1, 0, []⟩ = .ok (m1, st1) ∧
        Shape m1 st1.root T ∧ Rep m1 none T ∧
        T.cells = (Tree.node Tree.nil 0 1 Tree.nil).cells
          ++ (Tree.node Tree.nil 1 2 Tree.nil).cells ∧
        Size m1 st1 = Size pairMem ⟨some 0, 0, []⟩ + Size pairMem ⟨some 1, 0, []⟩ ∧
        (∀ a ∈ T.addrs, (m1 a).counter = 1 + cnt m1 (m1 a).left + cnt m1 (m1 a).right) ∧
        T.vals.Sorted (· ≤ ·) ∧
        (Tree.node Tree.nil 0 1 Tree.nil = Tree.nil → st1.root = (some 1 : Ptr)) :=
  ⟨pairMem_rep.1, pairMem_rep.2,
    C12_merge_spec pairMem ⟨some 0, 0, []⟩ ⟨some 1, 0, []⟩ (Tree.node Tree.nil 0 1 Tree.nil)
      (Tree.node Tree.nil 1 2 Tree.nil) 2 pairMem_rep.1 pairMem_rep.2 rfl rfl (by decide)
      (by decide) (by decide) (by decide) (by decide)⟩

/-- C13: for every reachable tree `T` and every boundary `b`, `split(b)` followed by the
merge of the left result with the right result (given fuel beyond the tree size) rebuilds a
tree with the cells of `T` in the same in-order sequence, and of the same size. -/
theorem C13_split_merge_duality (w : World) (h : Reachable w) (b : Int) (fuel : Nat)
    (hf : Size w.mem w.st < (fuel : Int)) :
    ∃ (t T : Tree) (m1 m2 : Mem) (st1 lt rt lt2 : SplayTree),
      Shape w.mem w.st.root t ∧ split fuel w.mem w.st b = .ok (m1, st1, lt, rt) ∧
      merge fuel m1 lt rt = .ok (m2, lt2) ∧ Shape m2 lt2.root T ∧
      T.cells = t.cells ∧ T.vals = t.vals ∧ Size m2 lt2 = Size w.mem w.st := by
  obtain ⟨t, hT, hsh, hroot, hnd, _, hs, hsz⟩ := h.tree
  have hfuel : t.cells.length < fuel := by rw [hsz] at hf; exact_mod_cast hf
  obtain ⟨m1, TL, TR, hrun, hTL, hTR, hcells, _, _, _⟩ :=
    split_rep w.st b fuel hT hroot hnd hs (by omega)
  have hndLR : (TL.addrs ++ TR.addrs).Nodup := by
    unfold Tree.addrs
    rw [← List.map_append, hcells]
    exact hnd
  have hlen : TL.cells.length < fuel := by
    have := congrArg List.length hcells
    simp only [List.length_append] at this
    omega
  obtain ⟨m2, T, hrun2, hT2, hc2, _⟩ := merge_rep
    { ConstructSplayTree with root := TL.root } { ConstructSplayTree with root := TR.root }
    fuel hTL hTR rfl rfl hndLR hlen
  refine ⟨t, T, m1, m2, _, _, _, _, hsh, hrun, hrun2, Rep.shape hT2, ?_, ?_, ?_⟩
  · rw [hc2, hcells]
  · unfold Tree.vals; rw [hc2, hcells]
  · rw [Rep.size_of_root hT2 rfl, hsz, hc2, hcells]

theorem C13_split_merge_duality_witness :
    Reachable scenarioWorld ∧ Size scenarioWorld.mem scenarioWorld.st < ((8 : Nat) : Int) ∧
      ∃ (t T : Tree) (m1 m2 : Mem) (st1 lt rt lt2 : SplayTree),
        Shape scenarioWorld.mem scenarioWorld.st.root t ∧
        split 8 scenarioWorld.mem scenarioWorld.st 4 = .ok (m1, st1, lt, rt) ∧
        merge 8 m1 lt rt = .ok (m2, lt2) ∧ Shape m2 lt2.root T ∧
        T.cells = t.cells ∧ T.vals = t.vals ∧
        Size m2 lt2 = Size scenarioWorld.mem scenarioWorld.st :=
  ⟨scenarioWorld_reachable, by decide,
    C13_split_merge_duality scenarioWorld scenarioWorld_reachable 4 8 (by decide)⟩

/-! ## Extremes of the empty tree, ordering, ranks and links -/

/-- C14 (the code on the empty tree): `MostRight()` returns no node, but `MostLeft()` reads
`st.root.counter` before any check and ends in a nil-dereference panic. -/
theorem C14_extremes_of_empty (m : Mem) (st : SplayTree) (fuel : Nat) (h : st.root = none) :
    MostLeft fuel m st = .error Fault.nilDeref ∧ MostRight fuel m st = .ok none := by
  simp [MostLeft, MostRight, FindByPos, h]

theorem C14_extremes_of_empty_witness :
    World.init.st.root = none ∧
      MostLeft 8 World.init.mem World.init.st = .error Fault.nilDeref ∧
      MostRight 8 World.init.mem World.init.st = .ok none :=
  ⟨rfl, C14_extremes_of_empty World.init.mem World.init.st 8 rfl⟩

theorem Tree.ordered_of_sorted : ∀ (t : Tree), t.vals.Sorted (· ≤ ·) → t.ordered = true := by
  intro t
  induction t with
  | nil => intro _; rfl
  | node l a v r ihl ihr =>
    intro hs
    obtain ⟨hsl, hsr, hlv, hrv⟩ := Tree.sorted_node hs
    simp only [Tree.ordered, Bool.and_eq_true, List.all_eq_true, decide_eq_true_eq]
    exact ⟨⟨⟨hlv, hrv⟩, ihl hsl⟩, ihr hsr⟩

/-- C15 (as stated) fails with duplicates: after inserting 5, 5, 3 the node at address 0,
holding 5, has the other 5 in its right subtree, so the right side is not strictly greater. -/
theorem C15_strict_right_fails :
    Reachable tripleWorld ∧
      Shape tripleWorld.mem tripleWorld.st.root
        (Tree.node Tree.nil 2 3 (Tree.node Tree.nil 0 5 (Tree.node Tree.nil 1 5 Tree.nil))) ∧
      (Tree.node Tree.nil 2 3
        (Tree.node Tree.nil 0 5 (Tree.node Tree.nil 1 5 Tree.nil))).strictOrdered = false := by
  refine ⟨reach_insertW twinWorld_reachable 8 3 (by decide), ?_, by decide⟩
  simp only [Shape]
  decide

/-- C15 (amended): in every reachable state (duplicates permitted), at every node of the tree
every value in the left subtree is `<=` the value of the node and every value in the right
subtree is `>=` it. -/
theorem C15_ordering (w : World) (h : Reachable w) :
    ∃ t : Tree, Shape w.mem w.st.root t ∧ t.ordered = true := by
  obtain ⟨t, _, hsh, _, _, _, hs, _⟩ := h.tree
  exact ⟨t, hsh, Tree.ordered_of_sorted t hs⟩

theorem C15_ordering_witness :
    Reachable tripleWorld ∧
      ∃ t : Tree, Shape tripleWorld.mem tripleWorld.st.root t ∧ t.ordered = true :=
  ⟨reach_insertW twinWorld_reachable 8 3 (by decide),
    C15_ordering tripleWorld (reach_insertW twinWorld_reachable 8 3 (by decide))⟩

/-- C16 (as stated) fails with duplicates: in the tree holding 5 twice, `FindByPos(1)` returns
a node holding 5, and no element is strictly greater than 5, so the count is 0, not 1. -/
theorem C16_rank_not_strict_count :
    Reachable twinWorld ∧ (0 : Int) ≤ 1 ∧ 1 < Size twinWorld.mem twinWorld.st ∧
      FindByPos 8 twinWorld.mem twinWorld.st 1 = .ok (some 0) ∧
      Shape twinWorld.mem twinWorld.st.root
        (Tree.node (Tree.node Tree.nil 0 5 Tree.nil) 1 5 Tree.nil) ∧
      (((Tree.node (Tree.node Tree.nil 0 5 Tree.nil) 1 5 Tree.nil).vals.filter
        (fun x => decide ((twinWorld.mem 0).value < x))).length : Int) ≠ 1 := by
  refine ⟨twinWorld_reachable, by decide, by decide, by decide, ?_, by decide⟩
  simp only [Shape]
  decide

theorem rank_bounds_list (Lv Rv : List Int) (v : Int)
    (hs : (Lv ++ v :: Rv).Sorted (· ≤ ·)) :
    ((Lv ++ v :: Rv).filter (fun x => decide (v < x))).length ≤ Rv.length ∧
    Rv.length < ((Lv ++ v :: Rv).filter (fun x => decide (v ≤ x))).length ∧
    ((Lv ++ v :: Rv).count v = 1 →
      ((Lv ++ v :: Rv).filter (fun x => decide (v < x))).length = Rv.length) := by
  obtain ⟨_, h2, h3⟩ := List.pairwise_append.1 hs
  obtain ⟨h4, _⟩ := List.pairwise_cons.1 h2
  have hL : ∀ x ∈ Lv, x ≤ v := fun x hx => h3 x hx v (by simp)
  have a1 : Lv.filter (fun x => decide (v < x)) = [] :=
    List.filter_eq_nil_iff.2 (fun x hx => by have := hL x hx; simp; omega)
  have a2 : Rv.filter (fun x => decide (v ≤ x)) = Rv :=
    List.filter_eq_self.2 (fun x hx => by have := h4 x hx; simpa using this)
  refine ⟨?_, ?_, ?_⟩
  · rw [List.filter_append, a1]
    simp only [List.nil_append, List.filter_cons, lt_self_iff_false, decide_False]
    exact List.length_filter_le _ _
  · rw [List.filter_append]
    simp only [List.filter_cons, le_refl, decide_True, if_true, a2, List.length_append,
      List.length_cons]
    omega
  · intro hc
    rw [List.filter_append, a1]
    simp only [List.nil_append, List.filter_cons, lt_self_iff_false, decide_False]
    simp only [List.count_append, List.count_cons_self] at hc
    have hR : Rv.count v = 0 := by omega
    have hnot : v ∉ Rv := List.count_eq_zero.1 hR
    have a3 : Rv.filter (fun x => decide (v < x)) = Rv :=
      List.filter_eq_self.2 (fun x hx => by
        have h5 := h4 x hx
        have h6 : x ≠ v := fun e => hnot (e ▸ hx)
        simp only [decide_eq_true_eq]
        omega)
    simp [a3]

/-- C16 (amended): on every reachable tree (duplicates permitted) and for every position `p`
with `0 <= p < Size()`, with `v` the value of the node returned by `FindByPos(p)`: the number
of elements strictly greater than `v` is at most `p`, `p` is less than the number of elements
greater than or equal to `v`, and `p` equals the number of strictly greater elements whenever
`v` occurs only once in the tree. -/
theorem C16_rank_bounds (w : World) (h : Reachable w) (fuel : Nat) (p : Int)
    (h0 : 0 ≤ p) (h1 : p < Size w.mem w.st) (hf : Size w.mem w.st < (fuel : Int)) :
    ∃ (t : Tree) (a : Nat), Shape w.mem w.st.root t ∧
      FindByPos fuel w.mem w.st p = .ok (some a) ∧
      ((t.vals.filter (fun x => decide ((w.mem a).value < x))).length : Int) ≤ p ∧
      p < ((t.vals.filter (fun x => decide ((w.mem a).value ≤ x))).length : Int) ∧
      (t.vals.count (w.mem a).value = 1 →
        p = ((t.vals.filter (fun x => decide ((w.mem a).value < x))).length : Int)) := by
  obtain ⟨_, t, _, L, R, x, vx, hT, hroot, _, hfind, _, _, hc, _, hlen⟩ :=
    Remove_reachable h fuel p h0 h1 hf
  obtain ⟨t1, hT1, _, hroot1, _, _, hs1, _⟩ := h.tree
  have ht : t = t1 := by
    have e1 := Rep.shape hT
    have e2 := Rep.shape hT1
    rw [← hroot] at e1
    rw [← hroot1] at e2
    exact Shape.unique e1 e2
  subst ht
  have hxv : (w.mem x).value = vx := by
    have := Rep.value_of_mem hT (x, vx) (by rw [hc]; simp)
    simpa using this
  have hvals : t.vals = L.map Prod.snd ++ vx :: R.map Prod.snd := by
    unfold Tree.vals; rw [hc]; simp
  have hp : p = ((R.map Prod.snd).length : Int) := by
    rw [List.length_map, hlen]
    exact (Int.toNat_of_nonneg h0).symm
  rw [hvals] at hs1
  obtain ⟨b1, b2, b3⟩ := rank_bounds_list (L.map Prod.snd) (R.map Prod.snd) vx hs1
  refine ⟨t, x, ?_, hfind, ?_, ?_, ?_⟩
  · rw [hroot]; exact Rep.shape hT
  · rw [hxv, hvals, hp]; exact_mod_cast b1
  · rw [hxv, hvals, hp]; exact_mod_cast b2
  · rw [hxv, hvals, hp]
    intro hcount
    exact_mod_cast (b3 hcount).symm

theorem C16_rank_bounds_witness :
    Reachable twinWorld ∧ (0 : Int) ≤ 1 ∧ 1 < Size twinWorld.mem twinWorld.st ∧
      Size twinWorld.mem twinWorld.st < ((8 : Nat) : Int) ∧
      ∃ (t : Tree) (a : Nat), Shape twinWorld.mem twinWorld.st.root t ∧
        FindByPos 8 twinWorld.mem twinWorld.st 1 = .ok (some a) ∧
        ((t.vals.filter (fun x => decide ((twinWorld.mem a).value < x))).length : Int) ≤ 1 ∧
        1 < ((t.vals.filter (fun x => decide ((twinWorld.mem a).value ≤ x))).length : Int) ∧
        (t.vals.count (twinWorld.mem a).value = 1 →
          1 = ((t.vals.filter (fun x => decide ((twinWorld.mem a).value < x))).length : Int)) :=
  ⟨twinWorld_reachable, by decide, by decide, by decide,
    C16_rank_bounds twinWorld twinWorld_reachable 8 1 (by decide) (by decide) (by decide)⟩

theorem Rep.root_parent_eq {m : Mem} {par : Ptr} {t : Tree} (hT : Rep m par t) (r : Nat)
    (hr : t.root = some r) : (m r).parent = par := by
  cases t with
  | nil => simp at hr
  | node l a v r0 =>
    simp only [Tree.root_node, Option.some.injEq] at hr
    subst hr
    rw [hT.1]

theorem Rep.links {m : Mem} {t : Tree} : ∀ {par : Ptr}, Rep m par t →
    ∀ a ∈ t.addrs, (∀ b, (m a).left = some b → (m b).parent = some a) ∧
      (∀ b, (m a).right = some b → (m b).parent = some a) := by
  induction t with
  | nil => intro par _ a ha; simp at ha
  | node l a v r ihl ihr =>
    intro par h b hb
    obtain ⟨h1, h2, h3⟩ := h
    simp only [Tree.addrs_node, List.mem_append, List.mem_cons] at hb
    rcases hb with hb | hb | hb
    · exact ihl h2 b hb
    · subst hb
      rw [h1]
      exact ⟨fun c hc => Rep.root_parent_eq h2 c hc, fun c hc => Rep.root_parent_eq h3 c hc⟩
    · exact ihr h3 b hb

/-- C17: in every reachable state (after every `Insert` and in-range `Remove` that returns),
links are symmetric throughout the tree: for every node `n`, a present `n.left` has `n` as its
parent, a present `n.right` has `n` as its parent, and the root of the tree has no parent. -/
theorem C17_links_symmetric (w : World) (h : Reachable w) :
    ∃ t : Tree, Shape w.mem w.st.root t ∧
      (∀ a ∈ t.addrs, (∀ b, (w.mem a).left = some b → (w.mem b).parent = some a) ∧
        (∀ b, (w.mem a).right = some b → (w.mem b).parent = some a)) ∧
      (∀ r, w.st.root = some r → (w.mem r).parent = none) := by
  obtain ⟨t, hT, hsh, hroot, _, _, _, _⟩ := h.tree
  refine ⟨t, hsh, Rep.links hT, ?_⟩
  intro r hr
  rw [hroot] at hr
  exact Rep.root_parent_eq hT r hr

theorem C17_links_symmetric_witness :
    Reachable scenarioWorld ∧
      ∃ t : Tree, Shape scenarioWorld.mem scenarioWorld.st.root t ∧
        (∀ a ∈ t.addrs,
          (∀ b, (scenarioWorld.mem a).left = some b →
            (scenarioWorld.mem b).parent = some a) ∧
          (∀ b, (scenarioWorld.mem a).right = some b →
            (scenarioWorld.mem b).parent = some a)) ∧
        (∀ r, scenarioWorld.st.root = some r → (scenarioWorld.mem r).parent = none) :=
  ⟨scenarioWorld_reachable, C17_links_symmetric scenarioWorld scenarioWorld_reachable⟩

/-! ## The splay loop with its iteration count -/

theorem splayCount_fst : ∀ (fuel : Nat) (m : Mem) (n : Nat),
    Except.map Prod.fst (splayCount fuel m n) = splayLoop fuel m n := by
  intro fuel
  induction fuel with
  | zero => intro m n; rfl
  | succ fuel ih =>
    intro m n
    simp only [splayCount, splayLoop]
    cases hp : (m n).parent with
    | none => rfl
    | some p =>
      simp only
      cases hpp : (m p).parent with
      | none =>
        simp only
        cases hs : stitch m (some n) with
        | error e => rfl
        | ok m1 => rfl
      | some g =>
        simp only
        cases hs : splayStep m n p with
        | error e => rfl
        | ok m1 =>
          simp only
          rw [← ih m1 n]
          cases hc : splayCount fuel m1 n with
          | error e => rfl
          | ok q => rfl

theorem splayCount_rep : ∀ (fuel : Nat) (m : Mem) (K : Ctx) (L R : Tree) (x : Nat) (vx : Int),
    K.depth < fuel →
    RepCtx m K (some x) (Tree.node L x vx R).size →
    Rep m K.addr (Tree.node L x vx R) →
    (K.plug (Tree.node L x vx R)).addrs.Nodup →
    ∃ m1 k, splayCount fuel m x = .ok (m1, k) ∧ 2 * k ≤ K.depth + 1 := by
  intro fuel
  induction fuel with
  | zero => intro m K L R x vx h; exact absurd h (Nat.not_lt_zero _)
  | succ fuel ih =>
    intro m K L R x vx hfuel hcx hT hnd
    have hx := hT.1
    cases K with
    | top =>
      refine ⟨m, 0, ?_, by simp⟩
      simp [splayCount, hx, Ctx.addr]
    | inL p vp rp c1 =>
      obtain ⟨hp, hrp, hc1⟩ := hcx
      cases c1 with
      | top =>
        have hTp : Rep m none (Tree.node (Tree.node L x vx R) p vp rp) := ⟨hp, hT, hrp⟩
        obtain ⟨m1, hrun, _, _⟩ := stitch_left_rep hTp hnd
        refine ⟨m1, 1, ?_, by simp [Ctx.depth]⟩
        simp [splayCount, hx, hp, Ctx.addr, hrun]
      | inL g vg rg c2 =>
        obtain ⟨hg, hrg, hc2⟩ := hc1
        have hTg : Rep m c2.addr (Tree.node (Tree.node (Tree.node L x vx R) p vp rp) g vg rg) :=
          ⟨hg, ⟨hp, hT, hrp⟩, hrg⟩
        obtain ⟨m2, hrun, hc2n, hT2, _⟩ := zigzig_left_step hc2 hTg hnd
        have hcells : (Tree.node L x vx (Tree.node R p vp (Tree.node rp g vg rg))).cells
            = (Tree.node (Tree.node (Tree.node L x vx R) p vp rp) g vg rg).cells := by simp
        have hnd2 : (c2.plug (Tree.node L x vx
            (Tree.node R p vp (Tree.node rp g vg rg)))).addrs.Nodup := by
          rw [Ctx.addrs_plug_eq hcells]; exact hnd
        obtain ⟨m3, k, hrun3, hk⟩ := ih m2 c2 L _ x vx
          (by simp [Ctx.depth] at hfuel; omega) hc2n hT2 hnd2
        refine ⟨m3, k + 1, ?_, by simp only [Ctx.depth]; omega⟩
        simp [splayCount, hx, hp, Ctx.addr, hrun, hrun3]
      | inR lg g vg c2 =>
        obtain ⟨hg, hlg, hc2⟩ := hc1
        have hTg : Rep m c2.addr (Tree.node lg g vg (Tree.node (Tree.node L x vx R) p vp rp)) :=
          ⟨hg, hlg, ⟨hp, hT, hrp⟩⟩
        obtain ⟨m2, hrun, hc2n, hT2, _⟩ := zigzag_rl_step hc2 hTg hnd
        have hcells : (Tree.node (Tree.node lg g vg L) x vx (Tree.node R p vp rp)).cells
            = (Tree.node lg g vg (Tree.node (Tree.node L x vx R) p vp rp)).cells := by simp
        have hnd2 : (c2.plug (Tree.node (Tree.node lg g vg L) x vx
            (Tree.node R p vp rp))).addrs.Nodup := by
          rw [Ctx.addrs_plug_eq hcells]; exact hnd
        obtain ⟨m3, k, hrun3, hk⟩ := ih m2 c2 _ _ x vx
          (by simp [Ctx.depth] at hfuel; omega) hc2n hT2 hnd2
        refine ⟨m3, k + 1, ?_, by simp only [Ctx.depth]; omega⟩
        simp [splayCount, hx, hp, Ctx.addr, hrun, hrun3]
    | inR lp p vp c1 =>
      obtain ⟨hp, hlp, hc1⟩ := hcx
      cases c1 with
      | top =>
        have hTp : Rep m none (Tree.node lp p vp (Tree.node L x vx R)) := ⟨hp, hlp, hT⟩
        obtain ⟨m1, hrun, _, _⟩ := stitch_right_rep hTp hnd
        refine ⟨m1, 1, ?_, by simp [Ctx.depth]⟩
        simp [splayCount, hx, hp, Ctx.addr, hrun]
      | inL g vg rg c2 =>
        obtain ⟨hg, hrg, hc2⟩ := hc1
        have hTg : Rep m c2.addr (Tree.node (Tree.node lp p vp (Tree.node L x vx R)) g vg rg) :=
          ⟨hg, ⟨hp, hlp, hT⟩, hrg⟩
        obtain ⟨m2, hrun, hc2n, hT2, _⟩ := zigzag_lr_step hc2 hTg hnd
        have hcells : (Tree.node (Tree.node lp p vp L) x vx (Tree.node R g vg rg)).cells
            = (Tree.node (Tree.node lp p vp (Tree.node L x vx R)) g vg rg).cells := by simp
        have hnd2 : (c2.plug (Tree.node (Tree.node lp p vp L) x vx
            (Tree.node R g vg rg))).addrs.Nodup := by
          rw [Ctx.addrs_plug_eq hcells]; exact hnd
        obtain ⟨m3, k, hrun3, hk⟩ := ih m2 c2 _ _ x vx
          (by simp [Ctx.depth] at hfuel; omega) hc2n hT2 hnd2
        refine ⟨m3, k + 1, ?_, by simp only [Ctx.depth]; omega⟩
        simp [splayCount, hx, hp, Ctx.addr, hrun, hrun3]
      | inR lg g vg c2 =>
        obtain ⟨hg, hlg, hc2⟩ := hc1
        have hTg : Rep m c2.addr (Tree.node lg g vg (Tree.node lp p vp (Tree.node L x vx R))) :=
          ⟨hg, hlg, ⟨hp, hlp, hT⟩⟩
        obtain ⟨m2, hrun, hc2n, hT2, _⟩ := zigzig_right_step hc2 hTg hnd
        have hcells : (Tree.node (Tree.node (Tree.node lg g vg lp) p vp L) x vx R).cells
            = (Tree.node lg g vg (Tree.node lp p vp (Tree.node L x vx R))).cells := by simp
        have hnd2 : (c2.plug (Tree.node (Tree.node (Tree.node lg g vg lp) p vp L)
            x vx R)).addrs.Nodup := by
          rw [Ctx.addrs_plug_eq hcells]; exact hnd
        obtain ⟨m3, k, hrun3, hk⟩ := ih m2 c2 _ _ x vx
          (by simp [Ctx.depth] at hfuel; omega) hc2n hT2 hnd2
        refine ⟨m3, k + 1, ?_, by simp only [Ctx.depth]; omega⟩
        simp [splayCount, hx, hp, Ctx.addr, hrun, hrun3]

/-- C18: for every well-formed tree (exact counters, symmetric links, no shared cells) and
every node `n` in it, at depth `K.depth` below the root, `splay(n)` returns for every fuel
beyond that depth; its loop body runs `k` times with `2 * k <= depth + 1`, so at most
`depth(n)` times; afterwards `n` is the root of the tree (`st.root` is `n` and `n` has no
parent), the in-order sequence of cells is unchanged, and every counter is again
`1 + counter(left) + counter(right)`.  The context `K` is arbitrary, so the zig, zig-zig and
zig-zag cases are all covered. -/
theorem C18_splay_spec (m : Mem) (st : SplayTree) (K : Ctx) (L R : Tree) (n : Nat) (v : Int)
    (fuel : Nat) (hT : Rep m none (K.plug (Tree.node L n v R)))
    (hnd : (K.plug (Tree.node L n v R)).addrs.Nodup) (hfuel : K.depth < fuel) :
    ∃ (m0 m1 : Mem) (st1 : SplayTree) (L1 R1 : Tree) (k : Nat),
      splayCount fuel m n = .ok (m0, k) ∧ 2 * k ≤ K.depth + 1 ∧ k ≤ K.depth ∧
      splayLoop fuel m n = .ok m0 ∧
      splay fuel m st (some n) = .ok (m1, st1) ∧
      st1.root = some n ∧ (m1 n).parent = none ∧
      Shape m1 st1.root (Tree.node L1 n v R1) ∧ Rep m1 none (Tree.node L1 n v R1) ∧
      (Tree.node L1 n v R1).cells = (K.plug (Tree.node L n v R)).cells ∧
      (∀ a ∈ (K.plug (Tree.node L n v R)).addrs,
        (m1 a).counter = 1 + cnt m1 (m1 a).left + cnt m1 (m1 a).right) := by
  obtain ⟨hcx, hX⟩ := (rep_plug K _).1 hT
  obtain ⟨m0, k, hcount, hk⟩ := splayCount_rep fuel m K L R n v hfuel hcx hX hnd
  obtain ⟨m0a, L1, R1, hrun, hT1, hc1, _⟩ := splayLoop_rep fuel m K L R n v hfuel hcx hX hnd
  have hm0 : m0a = m0 := by
    have := splayCount_fst fuel m n
    rw [hcount, hrun] at this
    simp only [Except.map, Except.ok.injEq] at this
    exact this.symm
  subst hm0
  have hnd1 : (Tree.node L1 n v R1).addrs.Nodup := by
    unfold Tree.addrs; rw [hc1]; exact hnd
  obtain ⟨hxl, hxr, _, _, _⟩ := Tree.nodup_node hnd1
  have hT2 : Rep (upd m0a n { m0a n with parent := none }) none (Tree.node L1 n v R1) :=
    Rep.root_parent hT1 none hxl hxr
  have hkd : k ≤ K.depth := by
    cases K with
    | top =>
      simp only [Ctx.depth] at hk ⊢
      omega
    | inL a w r c => simp only [Ctx.depth] at hk ⊢; omega
    | inR l a w c => simp only [Ctx.depth] at hk ⊢; omega
  refine ⟨m0a, upd m0a n { m0a n with parent := none }, { st with root := some n }, L1, R1, k,
    hcount, hk, hkd, hrun, ?_, rfl, ?_, Rep.shape hT2, hT2, hc1, ?_⟩
  · simp [splay, hrun, setRoot]
  · rw [hT2.1]
  · intro a ha
    refine Rep.counter_of_mem hT2 a ?_
    unfold Tree.addrs at ha ⊢
    rw [hc1]
    exact ha

theorem C18_splay_spec_witness :
    Rep scenarioWorld.mem none
        ((Ctx.inR Tree.nil 0 5 (Ctx.inR Tree.nil 1 3 (Ctx.inR Tree.nil 3 1 Ctx.top))).plug
          (Tree.node Tree.nil 2 8 Tree.nil)) ∧
      ((Ctx.inR Tree.nil 0 5 (Ctx.inR Tree.nil 1 3 (Ctx.inR Tree.nil 3 1 Ctx.top))).plug
          (Tree.node Tree.nil 2 8 Tree.nil)).addrs.Nodup ∧
      (Ctx.inR Tree.nil 0 5 (Ctx.inR Tree.nil 1 3 (Ctx.inR Tree.nil 3 1 Ctx.top))).depth < 4 ∧
      ∃ (m0 m1 : Mem) (st1 : SplayTree) (L1 R1 : Tree) (k : Nat),
        splayCount 4 scenarioWorld.mem 2 = .ok (m0, k) ∧
        2 * k ≤ (Ctx.inR Tree.nil 0 5
          (Ctx.inR Tree.nil 1 3 (Ctx.inR Tree.nil 3 1 Ctx.top))).depth + 1 ∧
        k ≤ (Ctx.inR Tree.nil 0 5
          (Ctx.inR Tree.nil 1 3 (Ctx.inR Tree.nil 3 1 Ctx.top))).depth ∧
        splayLoop 4 scenarioWorld.mem 2 = .ok m0 ∧
        splay 4 scenarioWorld.mem scenarioWorld.st (some 2) = .ok (m1, st1) ∧
        st1.root = some 2 ∧ (m1 2).parent = none ∧
        Shape m1 st1.root (Tree.node L1 2 8 R1) ∧ Rep m1 none (Tree.node L1 2 8 R1) ∧
        (Tree.node L1 2 8 R1).cells
          = ((Ctx.inR Tree.nil 0 5 (Ctx.inR Tree.nil 1 3 (Ctx.inR Tree.nil 3 1 Ctx.top))).plug
              (Tree.node Tree.nil 2 8 Tree.nil)).cells ∧
        (∀ a ∈ ((Ctx.inR Tree.nil 0 5
            (Ctx.inR Tree.nil 1 3 (Ctx.inR Tree.nil 3 1 Ctx.top))).plug
              (Tree.node Tree.nil 2 8 Tree.nil)).addrs,
          (m1 a).counter = 1 + cnt m1 (m1 a).left + cnt m1 (m1 a).right) :=
  ⟨scenarioWorld_rep, by decide, by decide,
    C18_splay_spec scenarioWorld.mem scenarioWorld.st
      (Ctx.inR Tree.nil 0 5 (Ctx.inR Tree.nil 1 3 (Ctx.inR Tree.nil 3 1 Ctx.top)))
      Tree.nil Tree.nil 2 8 4 scenarioWorld_rep (by decide) (by decide)⟩

/-! ## Frame of the rotations -/

theorem rotateLeft_counters {m : Mem} {K : Ctx} {A B C : Tree} {n c : Nat} {vn vc : Int}
    (hcx : RepCtx m K (some n) (Tree.node A n vn (Tree.node B c vc C)).size)
    (hT : Rep m K.addr (Tree.node A n vn (Tree.node B c vc C)))
    (hnd : (K.plug (Tree.node A n vn (Tree.node B c vc C))).addrs.Nodup) :
    ∃ m1, rotateLeft m (some n) = .ok m1 ∧
      (∀ y, y ≠ n → y ≠ c → (m1 y).counter = (m y).counter) := by
  have hnd1 := Ctx.nodup_plug.1 hnd
  rw [List.nodup_append] at hnd1
  obtain ⟨hndT, hndC, hdis⟩ := hnd1
  obtain ⟨hn1, hn2, hndA, hndR, hdAR⟩ := Tree.nodup_node hndT
  obtain ⟨hc1, hc2, hndB, hndCt, hdBC⟩ := Tree.nodup_node hndR
  simp only [Tree.addrs_node, List.mem_append, List.mem_cons, not_or] at hn2
  obtain ⟨hnB, hnc, hnC⟩ := hn2
  obtain ⟨hn, hA, hBC⟩ := hT
  obtain ⟨hc, hB, hC⟩ := hBC
  have hTx : ∀ x, x ∈ (Tree.node A n vn (Tree.node B c vc C)).addrs → x ∉ K.addrs :=
    fun x hx hx2 => hdis hx hx2
  have hcxn : n ∉ K.addrs := hTx n (by simp)
  have hcxc : c ∉ K.addrs := hTx c (by simp)
  obtain ⟨m1, hrun, _, _, hm1g, hm1p, hm1f⟩ := rotateLeft_raw hn hc hnc
    (fun e => hnB (Tree.root_mem_addrs e)) (fun e => hc1 (Tree.root_mem_addrs e))
    (fun e => hcxn (Ctx.addr_mem e)) (fun e => hcxc (Ctx.addr_mem e))
    (fun x e1 e2 => hTx x (by simp [Tree.root_mem_addrs e2]) (Ctx.addr_mem e1))
    (RepCtx.link hcx)
  refine ⟨m1, hrun, ?_⟩
  intro y hyn hyc
  by_cases hg : B.root = some y
  · rw [hm1g y hg]
  · by_cases hp : K.addr = some y
    · rw [hm1p y hp]
      split <;> rfl
    · rw [hm1f y hyn hyc hg hp]

theorem rotateRight_counters {m : Mem} {K : Ctx} {A B C : Tree} {n c : Nat} {vn vc : Int}
    (hcx : RepCtx m K (some n) (Tree.node (Tree.node A c vc B) n vn C).size)
    (hT : Rep m K.addr (Tree.node (Tree.node A c vc B) n vn C))
    (hnd : (K.plug (Tree.node (Tree.node A c vc B) n vn C)).addrs.Nodup) :
    ∃ m1, rotateRight m (some n) = .ok m1 ∧
      (∀ y, y ≠ n → y ≠ c → (m1 y).counter = (m y).counter) := by
  have hnd1 := Ctx.nodup_plug.1 hnd
  rw [List.nodup_append] at hnd1
  obtain ⟨hndT, hndC, hdis⟩ := hnd1
  obtain ⟨hn1, hn2, hndL, hndCt, hdLC⟩ := Tree.nodup_node hndT
  obtain ⟨hc1, hc2, hndA, hndB, hdAB⟩ := Tree.nodup_node hndL
  simp only [Tree.addrs_node, List.mem_append, List.mem_cons, not_or] at hn1
  obtain ⟨hnA, hnc, hnB⟩ := hn1
  obtain ⟨hn, hAB, hC⟩ := hT
  obtain ⟨hc, hA, hB⟩ := hAB
  have hTx : ∀ x, x ∈ (Tree.node (Tree.node A c vc B) n vn C).addrs → x ∉ K.addrs :=
    fun x hx hx2 => hdis hx hx2
  have hcxn : n ∉ K.addrs := hTx n (by simp)
  have hcxc : c ∉ K.addrs := hTx c (by simp)
  obtain ⟨m1, hrun, _, _, hm1g, hm1p, hm1f⟩ := rotateRight_raw hn hc hnc
    (fun e => hnB (Tree.root_mem_addrs e)) (fun e => hc2 (Tree.root_mem_addrs e))
    (fun e => hcxn (Ctx.addr_mem e)) (fun e => hcxc (Ctx.addr_mem e))
    (fun x e1 e2 => hTx x (by simp [Tree.root_mem_addrs e2]) (Ctx.addr_mem e1))
    (RepCtx.link hcx)
  refine ⟨m1, hrun, ?_⟩
  intro y hyn hyc
  by_cases hg : B.root = some y
  · rw [hm1g y hg]
  · by_cases hp : K.addr = some y
    · rw [hm1p y hp]
      split <;> rfl
    · rw [hm1f y hyn hyc hg hp]

/-- Rotation to the left of a node with a right child, inside any well-formed tree. -/
theorem rotateLeft_tree {m : Mem} {K : Ctx} {A B C : Tree} {n c : Nat} {vn vc : Int}
    (hT : Rep m none (K.plug (Tree.node A n vn (Tree.node B c vc C))))
    (hnd : (K.plug (Tree.node A n vn (Tree.node B c vc C))).addrs.Nodup) :
    ∃ m1, rotateLeft m (some n) = .ok m1 ∧
      Rep m1 none (K.plug (Tree.node (Tree.node A n vn B) c vc C)) ∧
      (K.plug (Tree.node (Tree.node A n vn B) c vc C)).cells
        = (K.plug (Tree.node A n vn (Tree.node B c vc C))).cells ∧
      (m1 c).parent = (m n).parent ∧ (m1 c).left = some n ∧ (m1 c).right = (m c).right ∧
      (m1 n).parent = some c ∧ (m1 n).left = (m n).left ∧ (m1 n).right = (m c).left ∧
      (m1 n).counter = 1 + cnt m1 (m1 n).left + cnt m1 (m1 n).right ∧
      (m1 c).counter = 1 + cnt m1 (m1 c).left + cnt m1 (m1 c).right ∧
      (∀ y, y ≠ n → y ≠ c → (m1 y).counter = (m y).counter) := by
  obtain ⟨hcx, hX⟩ := (rep_plug K _).1 hT
  obtain ⟨m1, hrun, hc1, hT1, _⟩ := rotateLeft_rep hcx hX hnd
  obtain ⟨m1a, hrun2, hcnt⟩ := rotateLeft_counters hcx hX hnd
  have e : m1a = m1 := by
    rw [hrun] at hrun2
    simp only [Except.ok.injEq] at hrun2
    exact hrun2.symm
  subst e
  have hT2 : Rep m1a none (K.plug (Tree.node (Tree.node A n vn B) c vc C)) :=
    (rep_plug K _).2 ⟨hc1, hT1⟩
  have hmem : ∀ y, y ∈ (Tree.node (Tree.node A n vn B) c vc C).addrs →
      y ∈ (K.plug (Tree.node (Tree.node A n vn B) c vc C)).addrs :=
    fun y hy => Ctx.mem_addrs_plug.2 (Or.inl hy)
  have hmn := hX.1
  have hmc := hX.2.2.1
  have hnc := hT1.1
  have hnn := hT1.2.1.1
  refine ⟨m1a, hrun, hT2, Ctx.cells_plug_eq (by simp), ?_, ?_, ?_, ?_, ?_, ?_,
    Rep.counter_of_mem hT2 n (hmem n (by simp)), Rep.counter_of_mem hT2 c (hmem c (by simp)),
    hcnt⟩
  · rw [hnc, hmn]
  · rw [hnc]; rfl
  · rw [hnc, hmc]
  · rw [hnn]
  · rw [hnn, hmn]
  · rw [hnn, hmc]

/-- Rotation to the right of a node with a left child, inside any well-formed tree. -/
theorem rotateRight_tree {m : Mem} {K : Ctx} {A B C : Tree} {n c : Nat} {vn vc : Int}
    (hT : Rep m none (K.plug (Tree.node (Tree.node A c vc B) n vn C)))
    (hnd : (K.plug (Tree.node (Tree.node A c vc B) n vn C)).addrs.Nodup) :
    ∃ m1, rotateRight m (some n) = .ok m1 ∧
      Rep m1 none (K.plug (Tree.node A c vc (Tree.node B n vn C))) ∧
      (K.plug (Tree.node A c vc (Tree.node B n vn C))).cells
        = (K.plug (Tree.node (Tree.node A c vc B) n vn C)).cells ∧
      (m1 c).parent = (m n).parent ∧ (m1 c).right = some n ∧ (m1 c).left = (m c).left ∧
      (m1 n).parent = some c ∧ (m1 n).right = (m n).right ∧ (m1 n).left = (m c).right ∧
      (m1 n).counter = 1 + cnt m1 (m1 n).left + cnt m1 (m1 n).right ∧
      (m1 c).counter = 1 + cnt m1 (m1 c).left + cnt m1 (m1 c).right ∧
      (∀ y, y ≠ n → y ≠ c → (m1 y).counter = (m y).counter) := by
  obtain ⟨hcx, hX⟩ := (rep_plug K _).1 hT
  obtain ⟨m1, hrun, hc1, hT1, _⟩ := rotateRight_rep hcx hX hnd
  obtain ⟨m1a, hrun2, hcnt⟩ := rotateRight_counters hcx hX hnd
  have e : m1a = m1 := by
    rw [hrun] at hrun2
    simp only [Except.ok.injEq] at hrun2
    exact hrun2.symm
  subst e
  have hT2 : Rep m1a none (K.plug (Tree.node A c vc (Tree.node B n vn C))) :=
    (rep_plug K _).2 ⟨hc1, hT1⟩
  have hmem : ∀ y, y ∈ (Tree.node A c vc (Tree.node B n vn C)).addrs →
      y ∈ (K.plug (Tree.node A c vc (Tree.node B n vn C))).addrs :=
    fun y hy => Ctx.mem_addrs_plug.2 (Or.inl hy)
  have hmn := hX.1
  have hmc := hX.2.1.1
  have hnc := hT1.1
  have hnn := hT1.2.2.1
  refine ⟨m1a, hrun, hT2, Ctx.cells_plug_eq (by simp), ?_, ?_, ?_, ?_, ?_, ?_,
    Rep.counter_of_mem hT2 n (hmem n (by simp)), Rep.counter_of_mem hT2 c (hmem c (by simp)),
    hcnt⟩
  · rw [hnc, hmn]
  · rw [hnc]; rfl
  · rw [hnc, hmc]
  · rw [hnn]
  · rw [hnn, hmn]
  · rw [hnn, hmc]

/-- C19: for every node `n` with a right child `c` in a well-formed tree (exact counters,
structural parent links, no shared cells), `rotateLeft(n)` puts `c` in the former parent slot
of `n`, makes `n` the left child of `c` and the former left subtree of `c` the right subtree of
`n`; the in-order sequence is unchanged, `n` and `c` have exact counters, and the counter of
every other node, the former parent of `n` included, is unchanged.  `rotateRight` is the exact
mirror for a node with a left child. -/
theorem C19_rotations (m : Mem) (K : Ctx) (A B C : Tree) (n c : Nat) (vn vc : Int) :
    (Rep m none (K.plug (Tree.node A n vn (Tree.node B c vc C))) →
      (K.plug (Tree.node A n vn (Tree.node B c vc C))).addrs.Nodup →
      ∃ m1, rotateLeft m (some n) = .ok m1 ∧
        Rep m1 none (K.plug (Tree.node (Tree.node A n vn B) c vc C)) ∧
        (K.plug (Tree.node (Tree.node A n vn B) c vc C)).cells
          = (K.plug (Tree.node A n vn (Tree.node B c vc C))).cells ∧
        (m1 c).parent = (m n).parent ∧ (m1 c).left = some n ∧ (m1 c).right = (m c).right ∧
        (m1 n).parent = some c ∧ (m1 n).left = (m n).left ∧ (m1 n).right = (m c).left ∧
        (m1 n).counter = 1 + cnt m1 (m1 n).left + cnt m1 (m1 n).right ∧
        (m1 c).counter = 1 + cnt m1 (m1 c).left + cnt m1 (m1 c).right ∧
        (∀ y, y ≠ n → y ≠ c → (m1 y).counter = (m y).counter)) ∧
    (Rep m none (K.plug (Tree.node (Tree.node A c vc B) n vn C)) →
      (K.plug (Tree.node (Tree.node A c vc B) n vn C)).addrs.Nodup →
      ∃ m1, rotateRight m (some n) = .ok m1 ∧
        Rep m1 none (K.plug (Tree.node A c vc (Tree.node B n vn C))) ∧
        (K.plug (Tree.node A c vc (Tree.node B n vn C))).cells
          = (K.plug (Tree.node (Tree.node A c vc B) n vn C)).cells ∧
        (m1 c).parent = (m n).parent ∧ (m1 c).right = some n ∧ (m1 c).left = (m c).left ∧
        (m1 n).parent = some c ∧ (m1 n).right = (m n).right ∧ (m1 n).left = (m c).right ∧
        (m1 n).counter = 1 + cnt m1 (m1 n).left + cnt m1 (m1 n).right ∧
        (m1 c).counter = 1 + cnt m1 (m1 c).left + cnt m1 (m1 c).right ∧
        (∀ y, y ≠ n → y ≠ c → (m1 y).counter = (m y).counter)) :=
  ⟨fun hT hnd => rotateLeft_tree hT hnd, fun hT hnd => rotateRight_tree hT hnd⟩

theorem scenario_removed_rep :
    Rep (removeW 8 scenarioWorld 0).mem none
      (Tree.node (Tree.node Tree.nil 3 1 (Tree.node Tree.nil 1 3 Tree.nil)) 0 5 Tree.nil) := by
  simp only [Rep]
  decide

theorem C19_rotations_witness :
    (Rep scenarioWorld.mem none ((Ctx.inR Tree.nil 3 1 Ctx.top).plug
        (Tree.node Tree.nil 1 3 (Tree.node Tree.nil 0 5 (Tree.node Tree.nil 2 8 Tree.nil)))) ∧
      ((Ctx.inR Tree.nil 3 1 Ctx.top).plug
        (Tree.node Tree.nil 1 3
          (Tree.node Tree.nil 0 5 (Tree.node Tree.nil 2 8 Tree.nil)))).addrs.Nodup ∧
      ∃ m1, rotateLeft scenarioWorld.mem (some 1) = .ok m1 ∧
        Rep m1 none ((Ctx.inR Tree.nil 3 1 Ctx.top).plug
          (Tree.node (Tree.node Tree.nil 1 3 Tree.nil) 0 5 (Tree.node Tree.nil 2 8 Tree.nil))) ∧
        ((Ctx.inR Tree.nil 3 1 Ctx.top).plug
          (Tree.node (Tree.node Tree.nil 1 3 Tree.nil) 0 5
            (Tree.node Tree.nil 2 8 Tree.nil))).cells
          = ((Ctx.inR Tree.nil 3 1 Ctx.top).plug
              (Tree.node Tree.nil 1 3
                (Tree.node Tree.nil 0 5 (Tree.node Tree.nil 2 8 Tree.nil)))).cells ∧
        (m1 0).parent = (scenarioWorld.mem 1).parent ∧ (m1 0).left = some 1 ∧
        (m1 0).right = (scenarioWorld.mem 0).right ∧
        (m1 1).parent = some 0 ∧ (m1 1).left = (scenarioWorld.mem 1).left ∧
        (m1 1).right = (scenarioWorld.mem 0).left ∧
        (m1 1).counter = 1 + cnt m1 (m1 1).left + cnt m1 (m1 1).right ∧
        (m1 0).counter = 1 + cnt m1 (m1 0).left + cnt m1 (m1 0).right ∧
        (∀ y, y ≠ 1 → y ≠ 0 → (m1 y).counter = (scenarioWorld.mem y).counter)) ∧
    (Rep (removeW 8 scenarioWorld 0).mem none (Ctx.top.plug
        (Tree.node (Tree.node Tree.nil 3 1 (Tree.node Tree.nil 1 3 Tree.nil)) 0 5 Tree.nil)) ∧
      (Ctx.top.plug
        (Tree.node (Tree.node Tree.nil 3 1
          (Tree.node Tree.nil 1 3 Tree.nil)) 0 5 Tree.nil)).addrs.Nodup ∧
      ∃ m1, rotateRight (removeW 8 scenarioWorld 0).mem (some 0) = .ok m1 ∧
        Rep m1 none (Ctx.top.plug
          (Tree.node Tree.nil 3 1 (Tree.node (Tree.node Tree.nil 1 3 Tree.nil) 0 5 Tree.nil))) ∧
        (Ctx.top.plug
          (Tree.node Tree.nil 3 1
            (Tree.node (Tree.node Tree.nil 1 3 Tree.nil) 0 5 Tree.nil))).cells
          = (Ctx.top.plug
              (Tree.node (Tree.node Tree.nil 3 1 (Tree.node Tree.nil 1 3 Tree.nil)) 0 5
                Tree.nil)).cells ∧
        (m1 3).parent = ((removeW 8 scenarioWorld 0).mem 0).parent ∧ (m1 3).right = some 0 ∧
        (m1 3).left = ((removeW 8 scenarioWorld 0).mem 3).left ∧
        (m1 0).parent = some 3 ∧ (m1 0).right = ((removeW 8 scenarioWorld 0).mem 0).right ∧
        (m1 0).left = ((removeW 8 scenarioWorld 0).mem 3).right ∧
        (m1 0).counter = 1 + cnt m1 (m1 0).left + cnt m1 (m1 0).right ∧
        (m1 3).counter = 1 + cnt m1 (m1 3).left + cnt m1 (m1 3).right ∧
        (∀ y, y ≠ 0 → y ≠ 3 →
          (m1 y).counter = ((removeW 8 scenarioWorld 0).mem y).counter)) :=
  ⟨⟨scenarioWorld_rep, by decide,
    (C19_rotations scenarioWorld.mem (Ctx.inR Tree.nil 3 1 Ctx.top) Tree.nil Tree.nil
      (Tree.node Tree.nil 2 8 Tree.nil) 1 0 3 5).1 scenarioWorld_rep (by decide)⟩,
   ⟨scenario_removed_rep, by decide,
    (C19_rotations (removeW 8 scenarioWorld 0).mem Ctx.top Tree.nil
      (Tree.node Tree.nil 1 3 Tree.nil) Tree.nil 0 3 5 1).2 scenario_removed_rep (by decide)⟩⟩

/-! ## More fuel never removes a nil dereference -/

theorem splayLoop_mono_nil : ∀ (fuel fuel1 : Nat) (m : Mem) (n : Nat),
    fuel ≤ fuel1 → splayLoop fuel m n = .error .nilDeref →
    splayLoop fuel1 m n = .error .nilDeref := by
  intro fuel
  induction fuel with
  | zero => intro fuel1 m n _ h; simp [splayLoop] at h
  | succ fuel ih =>
    intro fuel1 m n hle h
    cases fuel1 with
    | zero => omega
    | succ fuel1 =>
      simp only [splayLoop] at h ⊢
      cases hp : (m n).parent with
      | none => simp [hp] at h
      | some p =>
        simp only [hp] at h ⊢
        cases hpp : (m p).parent with
        | none => simpa [hpp] using h
        | some g =>
          simp only [hpp] at h ⊢
          cases hs : splayStep m n p with
          | error e => simpa [hs] using h
          | ok m1 =>
            simp only [hs] at h ⊢
            exact ih fuel1 m1 n (by omega) h

theorem findByPosLoop_mono_nil : ∀ (fuel fuel1 : Nat) (m : Mem) (p : Ptr) (pos : Int),
    fuel ≤ fuel1 → findByPosLoop fuel m p pos = .error .nilDeref →
    findByPosLoop fuel1 m p pos = .error .nilDeref := by
  intro fuel
  induction fuel with
  | zero => intro fuel1 m p pos _ h; simp [findByPosLoop] at h
  | succ fuel ih =>
    intro fuel1 m p pos hle h
    cases fuel1 with
    | zero => omega
    | succ fuel1 =>
      cases p with
      | none => simp [findByPosLoop] at h
      | some n =>
        simp only [findByPosLoop] at h ⊢
        cases hr : (m n).right with
        | none =>
          simp only [hr] at h ⊢
          by_cases h0 : pos = 0
          · simp [h0] at h
          · simp only [h0, if_false] at h ⊢
            exact ih fuel1 m _ _ (by omega) h
        | some b =>
          simp only [hr] at h ⊢
          by_cases h1 : pos < (m b).counter
          · simp only [h1, if_true] at h ⊢
            exact ih fuel1 m _ _ (by omega) h
          · simp only [h1, if_false] at h ⊢
            by_cases h0 : pos - (m b).counter = 0
            · simp [h0] at h
            · simp only [h0, if_false] at h ⊢
              exact ih fuel1 m _ _ (by omega) h

theorem splitLoop_mono_nil : ∀ (fuel fuel1 : Nat) (m : Mem) (n : Nat) (v : Int),
    fuel ≤ fuel1 → splitLoop fuel m n v = .error .nilDeref →
    splitLoop fuel1 m n v = .error .nilDeref := by
  intro fuel
  induction fuel with
  | zero => intro fuel1 m n v _ h; simp [splitLoop] at h
  | succ fuel ih =>
    intro fuel1 m n v hle h
    cases fuel1 with
    | zero => omega
    | succ fuel1 =>
      simp only [splitLoop] at h ⊢
      cases hn : (if (m n).value > v then (m n).left else (m n).right) with
      | none => simp [hn] at h
      | some nx =>
        simp only [hn] at h ⊢
        exact ih fuel1 m nx v (by omega) h

theorem splay_mono_nil {fuel fuel1 : Nat} {m : Mem} {st : SplayTree} {node : Ptr}
    (hle : fuel ≤ fuel1) (h : splay fuel m st node = .error .nilDeref) :
    splay fuel1 m st node = .error .nilDeref := by
  cases node with
  | none => simp [splay] at h
  | some n =>
    simp only [splay] at h ⊢
    cases hs : splayLoop fuel m n with
    | error e =>
      simp only [hs, Except.error.injEq] at h
      subst h
      rw [splayLoop_mono_nil fuel fuel1 m n hle hs]
    | ok m1 => simp [hs] at h

theorem FindByPos_mono_nil {fuel fuel1 : Nat} {m : Mem} {st : SplayTree} {pos : Int}
    (hle : fuel ≤ fuel1) (h : FindByPos fuel m st pos = .error .nilDeref) :
    FindByPos fuel1 m st pos = .error .nilDeref := by
  simp only [FindByPos] at h ⊢
  cases hr : st.root with
  | none => simp [hr] at h
  | some a =>
    simp only [hr] at h ⊢
    by_cases hc : pos ≥ (m a).counter
    · simp [hc] at h
    · simp only [hc, if_false] at h ⊢
      exact findByPosLoop_mono_nil fuel fuel1 m _ pos hle h

theorem merge_mono_nil {fuel fuel1 : Nat} {m : Mem} {st tree : SplayTree}
    (hle : fuel ≤ fuel1) (h : merge fuel m st tree = .error .nilDeref) :
    merge fuel1 m st tree = .error .nilDeref := by
  simp only [merge, MostRight] at h ⊢
  cases hr : st.root with
  | none => simp [hr] at h
  | some a =>
    simp only [hr] at h ⊢
    cases hf : FindByPos fuel m st 0 with
    | error e =>
      simp only [hf, Except.error.injEq] at h
      subst h
      rw [FindByPos_mono_nil hle hf]
    | ok node =>
      rw [FindByPos_mono hle hf]
      simp only [hf] at h ⊢
      cases hs : splay fuel m st node with
      | error e =>
        simp only [hs, Except.error.injEq] at h
        subst h
        rw [splay_mono_nil hle hs]
      | ok p =>
        rw [splay_mono hle hs]
        simpa [hs] using h

theorem split_mono_nil {fuel fuel1 : Nat} {m : Mem} {st : SplayTree} {v : Int}
    (hle : fuel ≤ fuel1) (h : split fuel m st v = .error .nilDeref) :
    split fuel1 m st v = .error .nilDeref := by
  simp only [split] at h ⊢
  cases hr : st.root with
  | none => simp [hr] at h
  | some a =>
    simp only [hr] at h ⊢
    cases hl : splitLoop fuel m a v with
    | error e =>
      simp only [hl, Except.error.injEq] at h
      subst h
      rw [splitLoop_mono_nil fuel fuel1 m a v hle hl]
    | ok n =>
      rw [splitLoop_mono fuel fuel1 m a v n hle hl]
      simp only [hl] at h ⊢
      cases hs : splay fuel m st (some n) with
      | error e =>
        simp only [hs, Except.error.injEq] at h
        subst h
        rw [splay_mono_nil hle hs]
      | ok p =>
        rw [splay_mono hle hs]
        simpa [hs] using h

theorem add_mono_nil {fuel fuel1 : Nat} {m : Mem} {st : SplayTree} {node : Ptr}
    (hle : fuel ≤ fuel1) (h : add fuel m st node = .error .nilDeref) :
    add fuel1 m st node = .error .nilDeref := by
  cases node with
  | none => rfl
  | some n =>
    simp only [add] at h ⊢
    cases hs : split fuel m st (m n).value with
    | error e =>
      simp only [hs, Except.error.injEq] at h
      subst h
      rw [split_mono_nil hle hs]
    | ok p =>
      rw [split_mono hle hs]
      simpa [hs] using h

theorem remove_mono_nil {fuel fuel1 : Nat} {m : Mem} {st : SplayTree} {node : Ptr}
    (hle : fuel ≤ fuel1) (h : remove fuel m st node = .error .nilDeref) :
    remove fuel1 m st node = .error .nilDeref := by
  simp only [remove] at h ⊢
  cases hs : splay fuel m st node with
  | error e =>
    simp only [hs, Except.error.injEq] at h
    subst h
    rw [splay_mono_nil hle hs]
  | ok p =>
    rw [splay_mono hle hs]
    simp only [hs] at h ⊢
    cases node with
    | none => rfl
    | some n =>
      simp only at h ⊢
      cases hm : merge fuel (setRoot (setRoot p.1 p.2 (p.1 n).left).1 ConstructSplayTree
          ((setRoot p.1 p.2 (p.1 n).left).1 n).right).1
          (setRoot p.1 p.2 (p.1 n).left).2
          (setRoot (setRoot p.1 p.2 (p.1 n).left).1 ConstructSplayTree
            ((setRoot p.1 p.2 (p.1 n).left).1 n).right).2 with
      | error e =>
        have he : e = Fault.nilDeref := by
          revert h
          show (match merge fuel _ _ _ with
            | .error e => Except.error e
            | .ok (m4, st3) => _) = _ → _
          rw [hm]
          intro h
          simpa using h
        subst he
        have hm1 := merge_mono_nil hle hm
        show (match merge fuel1 _ _ _ with
          | .error e => Except.error e
          | .ok (m4, st3) => _) = _
        rw [hm1]
      | ok q =>
        have hm1 := merge_mono hle hm
        revert h
        show (match merge fuel _ _ _ with
          | .error e => Except.error e
          | .ok (m4, st3) => _) = _ → (match merge fuel1 _ _ _ with
          | .error e => Except.error e
          | .ok (m4, st3) => _) = _
        rw [hm, hm1]
        exact id

theorem Insert_mono_nil {fuel fuel1 : Nat} {w : World} {v : Int}
    (hle : fuel ≤ fuel1) (h : Insert fuel w v = .error .nilDeref) :
    Insert fuel1 w v = .error .nilDeref := by
  simp only [Insert] at h ⊢
  cases hs : add fuel (upd w.mem w.next (ConstructNode v))
      { w.st with nodes := w.st.nodes ++ [w.next] } (some w.next) with
  | error e =>
    simp only [hs, Except.error.injEq] at h
    subst h
    rw [add_mono_nil hle hs]
  | ok p => simp [hs] at h

theorem Remove_mono_nil {fuel fuel1 : Nat} {w : World} {pos : Int}
    (hle : fuel ≤ fuel1) (h : Remove fuel w pos = .error .nilDeref) :
    Remove fuel1 w pos = .error .nilDeref := by
  simp only [Remove] at h ⊢
  cases hf : FindByPos fuel w.mem w.st pos with
  | error e =>
    simp only [hf, Except.error.injEq] at h
    subst h
    rw [FindByPos_mono_nil hle hf]
  | ok node =>
    rw [FindByPos_mono hle hf]
    simp only [hf] at h ⊢
    cases hs : remove fuel w.mem w.st node with
    | error e =>
      simp only [hs, Except.error.injEq] at h
      subst h
      rw [remove_mono_nil hle hs]
    | ok p => simp [hs] at h

/-! ## Safety of the public operations -/

theorem Size_lt_max {w : World} (h : Reachable w) (fuel : Nat) :
    ∃ F : Nat, fuel ≤ F ∧ Size w.mem w.st < (F : Int) := by
  obtain ⟨t, _, _, _, _, _, _, hsz⟩ := h.tree
  refine ⟨max fuel (t.cells.length + 1), le_max_left _ _, ?_⟩
  rw [hsz]
  have : t.cells.length < max fuel (t.cells.length + 1) :=
    lt_of_lt_of_le (Nat.lt_succ_self _) (le_max_right _ _)
  exact_mod_cast this

/-- C20: in every reachable state, `Insert(v)` for any `v` and `Remove(pos)` for any
`0 <= pos < Size()` never dereference an absent node: whatever the fuel, the run does not end
in a nil-dereference fault, and with fuel beyond the tree size it returns, `FindByPos`
yielding a present node.  In the model every dereference of `nil`, among them the promoted
child read by `rotateLeft` and `rotateRight` and the parent used by `stitch`, yields the fault
and every caller passes a fault on, so a run that returns has met none. -/
theorem C20_no_nil_dereference (w : World) (h : Reachable w) :
    (∀ (v : Int) (fuel : Nat), Insert fuel w v ≠ .error Fault.nilDeref ∧
      (Size w.mem w.st < (fuel : Int) → ∃ r, Insert fuel w v = .ok r)) ∧
    (∀ (pos : Int), 0 ≤ pos → pos < Size w.mem w.st → ∀ (fuel : Nat),
      FindByPos fuel w.mem w.st pos ≠ .error Fault.nilDeref ∧
      Remove fuel w pos ≠ .error Fault.nilDeref ∧
      (Size w.mem w.st < (fuel : Int) →
        (∃ a, FindByPos fuel w.mem w.st pos = .ok (some a)) ∧
        ∃ w1, Remove fuel w pos = .ok w1)) := by
  constructor
  · intro v fuel
    constructor
    · intro hbad
      obtain ⟨F, hle, hF⟩ := Size_lt_max h fuel
      have h1 := Insert_mono_nil hle hbad
      obtain ⟨_, _, _, _, _, _, _, hrun, _⟩ := Insert_reachable h v F hF
      rw [hrun] at h1
      simp at h1
    · intro hf
      obtain ⟨_, _, _, _, _, _, _, hrun, _⟩ := Insert_reachable h v fuel hf
      exact ⟨_, hrun⟩
  · intro pos h0 h1 fuel
    refine ⟨?_, ?_, ?_⟩
    · intro hbad
      obtain ⟨F, hle, hF⟩ := Size_lt_max h fuel
      have h2 := FindByPos_mono_nil hle hbad
      obtain ⟨_, _, _, _, _, _, _, _, _, _, hfind, _⟩ := Remove_reachable h F pos h0 h1 hF
      rw [hfind] at h2
      simp at h2
    · intro hbad
      obtain ⟨F, hle, hF⟩ := Size_lt_max h fuel
      have h2 := Remove_mono_nil hle hbad
      obtain ⟨_, _, _, _, _, _, _, _, _, _, _, hrun, _⟩ := Remove_reachable h F pos h0 h1 hF
      rw [hrun] at h2
      simp at h2
    · intro hf
      obtain ⟨_, _, _, _, _, x, _, _, _, _, hfind, hrun, _⟩ :=
        Remove_reachable h fuel pos h0 h1 hf
      exact ⟨⟨x, hfind⟩, ⟨_, hrun⟩⟩

theorem C20_no_nil_dereference_witness :
    Reachable scenarioWorld ∧
      (Insert 8 scenarioWorld 4 ≠ .error Fault.nilDeref ∧
        (Size scenarioWorld.mem scenarioWorld.st < ((8 : Nat) : Int) →
          ∃ r, Insert 8 scenarioWorld 4 = .ok r)) ∧
      (0 : Int) ≤ 2 ∧ 2 < Size scenarioWorld.mem scenarioWorld.st ∧
      (FindByPos 8 scenarioWorld.mem scenarioWorld.st 2 ≠ .error Fault.nilDeref ∧
        Remove 8 scenarioWorld 2 ≠ .error Fault.nilDeref ∧
        (Size scenarioWorld.mem scenarioWorld.st < ((8 : Nat) : Int) →
          (∃ a, FindByPos 8 scenarioWorld.mem scenarioWorld.st 2 = .ok (some a)) ∧
          ∃ w1, Remove 8 scenarioWorld 2 = .ok w1)) :=
  ⟨scenarioWorld_reachable,
    (C20_no_nil_dereference scenarioWorld scenarioWorld_reachable).1 4 8,
    by decide, by decide,
    (C20_no_nil_dereference scenarioWorld scenarioWorld_reachable).2 2 (by decide) (by decide)
      8⟩

/-- The public operations of the scenario, evaluated: `Insert(4)` and `Remove(2)` on the tree
built from 5, 3, 8, 1 both return. -/
theorem scenario_operations_return :
    returns (Insert 8 scenarioWorld 4) = true ∧ returns (Remove 8 scenarioWorld 2) = true := by
  decide

end Splay
